import Mathlib

/-! AIG algebraic rewriting (mockturtle, `aig_algebraic_rewriting.hpp`).

A shallow embedding of `aig_algebraic_rewriting_impl<Ntk>`: the three rules
`try_associativity`, `try_distributivity`, `try_three_level_distributivity`, their
dispatcher `try_algebraic_rules` and the driver `run`.

The C++ class is a template over the network type `Ntk`; the embedding is a family of
functions over a record `Ntk σ` of the network operations the class calls, with the network
state `σ` passed explicitly.  A concrete network `aig` (an AIG with a level cache, modelled
from the specification of the host) is given next to it: the claims on Boolean functions,
depth and termination are proved on it, and it provides the concrete inputs.
-/

namespace mockturtle

/-! ## Signals -/

/-- Modelled from the spec: a signal is a pair (node, complement); `Ntk::signal` itself is
declared in the network headers, which are not part of the rewriting source. -/
structure Signal where
  index : Nat
  complement : Bool
deriving DecidableEq, Inhabited

/-- Modelled from the spec: `get_node(signal)`. -/
def get_node (f : Signal) : Nat := f.index

/-- Modelled from the spec: `is_complemented(signal)`. -/
def is_complemented (f : Signal) : Bool := f.complement

/-- Modelled from the spec: the negation operator on signals flips `complement` only. -/
def Signal.not (f : Signal) : Signal := ⟨f.index, !f.complement⟩

/-! ## The network interface used by the rewriting class -/

/-- Modelled from the spec: the host interface (section 6 of the specification) that the
template parameter `Ntk` has to provide.  `σ` is the state of the network (graph together
with its level annotation); queries read it, the three mutators return the new state.
`foreach_gate` gives the gates of the state in which the traversal starts, in the order of
the visit. -/
structure Ntk (σ : Type) where
  foreach_gate : σ → List Nat
  foreach_fanin : σ → Nat → List Signal
  level : σ → Nat → Nat
  is_on_critical_path : σ → Nat → Bool
  create_and : σ → Signal → Signal → Signal × σ
  substitute_node : σ → Nat → Signal → σ
  update_levels : σ → σ

section rules

variable {σ : Type}

/-- The block `if ( level[1] > level[0] ) { std::swap(sig...); std::swap(node...); std::swap(level...); }`.
The three parallel vectors hold a signal, its node and that node's level, so swapping all
three is swapping the two signals. The result is `(entry 0, entry 1)` after the swap. -/
def sort_by_level (h : Ntk σ) (s : σ) (x y : Signal) : Signal × Signal :=
  if h.level s (get_node y) > h.level s (get_node x) then (y, x) else (x, y)

/-- `try_associativity( node n )`. Returns the Boolean result and the network state after
the call. The two `size() != 2` tests are the `match` on the list of fanins. The levels are
`uint32_t`; the subtraction `level_childs[0] - level_childs[1]` comes after the swap, when
the first level is the larger one (`sorted_fanins_spec`), so it does not wrap and is the
subtraction of natural numbers. The flags `exit` and `changes` hold `false` and `true`
whenever the final test is reached, so the rewrite is the last branch. -/
def try_associativity (h : Ntk σ) (s : σ) (n : Nat) : Bool × σ :=
  if h.is_on_critical_path s n = false then (false, s) else
  match h.foreach_fanin s n with
  | [x, y] =>
    let c := sort_by_level h s x y
    if h.level s (get_node c.1) - h.level s (get_node c.2) < 2 then (false, s) else
    if (!h.is_on_critical_path s (get_node c.1)) || h.is_on_critical_path s (get_node c.2)
    then (false, s) else
    if is_complemented c.1 = true then (false, s) else
    match h.foreach_fanin s (get_node c.1) with
    | [u, v] =>
      let g := sort_by_level h s u v
      if h.level s (get_node g.1) = h.level s (get_node g.2) then (false, s) else
      let bottom_and := h.create_and s c.2 g.2
      let top_and := h.create_and bottom_and.2 bottom_and.1 g.1
      (true, h.substitute_node top_and.2 n top_and.1)
    | _ => (false, s)
  | _ => (false, s)

/-- `try_distributivity( node n )`. The fanins of `n` are not sorted here; those of its two
children are. -/
def try_distributivity (h : Ntk σ) (s : σ) (n : Nat) : Bool × σ :=
  if h.is_on_critical_path s n = false then (false, s) else
  match h.foreach_fanin s n with
  | [c0, c1] =>
    if h.is_on_critical_path s (get_node c0) = false
        || h.is_on_critical_path s (get_node c1) = false then (false, s) else
    if h.level s (get_node c0) = 0 || h.level s (get_node c1) = 0 then (false, s) else
    if (!is_complemented c0) || (!is_complemented c1) then (false, s) else
    match h.foreach_fanin s (get_node c0) with
    | [u, v] =>
      let a := sort_by_level h s u v
      if h.is_on_critical_path s (get_node a.1) = false
          || h.is_on_critical_path s (get_node a.2) = true then (false, s) else
      match h.foreach_fanin s (get_node c1) with
      | [p, q] =>
        let b := sort_by_level h s p q
        if h.is_on_critical_path s (get_node b.1) = false
            || h.is_on_critical_path s (get_node b.2) = true then (false, s) else
        if a.1 = b.1 ∧ h.level s (get_node a.1) = h.level s (get_node b.1) then
          let lower_and := h.create_and s a.2.not b.2.not
          let top_and := h.create_and lower_and.2 a.1 lower_and.1.not
          (true, h.substitute_node top_and.2 n top_and.1.not)
        else (false, s)
      | _ => (false, s)
    | _ => (false, s)
  | _ => (false, s)

/-- `try_three_level_distributivity( node n )`. As in `try_associativity`, the subtraction
of the levels comes after the swap and does not wrap. -/
def try_three_level_distributivity (h : Ntk σ) (s : σ) (n : Nat) : Bool × σ :=
  if h.is_on_critical_path s n = false then (false, s) else
  match h.foreach_fanin s n with
  | [x, y] =>
    let c := sort_by_level h s x y
    if h.level s (get_node c.1) - h.level s (get_node c.2) < 3 then (false, s) else
    if h.is_on_critical_path s (get_node c.1) = false
        || h.is_on_critical_path s (get_node c.2) = true then (false, s) else
    if !is_complemented c.1 then (false, s) else
    match h.foreach_fanin s (get_node c.1) with
    | [u, v] =>
      let nep := sort_by_level h s u v
      if (!is_complemented nep.1) || (!is_complemented nep.2) then (false, s) else
      if h.is_on_critical_path s (get_node nep.2) = true then (false, s) else
      match h.foreach_fanin s (get_node nep.1) with
      | [p, q] =>
        let gn := sort_by_level h s p q
        if h.is_on_critical_path s (get_node gn.2) = true then (false, s) else
        let x3_and_x4 := h.create_and s nep.2.not c.2
        let x2_and_x4 := h.create_and x3_and_x4.2 gn.2 c.2
        let g_and_x2x4 := h.create_and x2_and_x4.2 gn.1 x2_and_x4.1
        let top_node := h.create_and g_and_x2x4.2 g_and_x2x4.1.not x3_and_x4.1.not
        (true, h.substitute_node top_node.2 n top_node.1.not)
      | _ => (false, s)
    | _ => (false, s)
  | _ => (false, s)

/-- `try_algebraic_rules( node n )`: the three rules in order, each on the state the one
before left. -/
def try_algebraic_rules (h : Ntk σ) (s : σ) (n : Nat) : Bool × σ :=
  let r1 := try_associativity h s n
  if r1.1 then (true, r1.2) else
  let r2 := try_distributivity h r1.2 n
  if r2.1 then (true, r2.2) else
  let r3 := try_three_level_distributivity h r2.2 n
  if r3.1 then (true, r3.2) else
  (false, r3.2)

/-- The body of `ntk.foreach_gate( [&]( node n ){ ... } )` in `run`, over the gates still to
be visited; `cont` is the flag of the same name. -/
def sweep (h : Ntk σ) : List Nat → σ → Bool → σ × Bool
  | [], s, cont => (s, cont)
  | n :: rest, s, cont =>
    let r := try_algebraic_rules h s n
    if r.1 then sweep h rest (h.update_levels r.2) true
    else sweep h rest r.2 cont

/-- `run()`: the `while ( cont )` loop, with `fuel` bounding the number of sweeps;
`none` when the fuel is used up before a sweep leaves `cont` false. -/
def run (h : Ntk σ) : Nat → σ → Option σ
  | 0, _ => none
  | fuel + 1, s =>
    let r := sweep h (h.foreach_gate s) s false
    if r.2 then run h fuel r.1 else some r.1

/-- The entry point `aig_algebraic_rewriting( ntk )`: wrap the network in the level-aware
view, whose construction computes the levels, and run the rewriting to its fixed point;
`fuel` bounds the number of sweeps. -/
def aig_algebraic_rewriting (h : Ntk σ) (fuel : Nat) (s : σ) : Option σ :=
  run h fuel (h.update_levels s)

/-- The fanins of `n` as the rules read them: both of them, level-sorted (higher level
first, ties keep the order), or `none` when `n` does not have exactly two fanins. -/
def sorted_fanins (h : Ntk σ) (s : σ) (n : Nat) : Option (Signal × Signal) :=
  match h.foreach_fanin s n with
  | [x, y] => some (sort_by_level h s x y)
  | _ => none

end rules

/-! ## A concrete network: an AIG with a level cache -/

/-- Modelled from the spec: the node kinds of the AIG container (`aig_network` is not part
of the rewriting source): the constant, a primary input, or a two-input AND gate whose
fanins are signals. -/
inductive AigNode where
  | constant : AigNode
  | pi : AigNode
  | gate : Signal → Signal → AigNode
deriving DecidableEq, Inhabited

/-- Modelled from the spec: the network state, an index-based AIG (node id to record, as
the design notes suggest) with its primary outputs, wrapped in the level-aware view: the
cached level and the critical-path flag of every node (`aig_network` and `depth_view` are
not part of the rewriting source). -/
structure Aig where
  nodes : List AigNode
  outputs : List Signal
  levels : List Nat
  crit : List Bool
deriving DecidableEq, Inhabited

namespace Aig

/-- Modelled from the spec: `foreach_fanin(n, visit)`, the two fanin signals of an AND gate
in stored order; a constant or a primary input has none. -/
def foreach_fanin (g : Aig) (n : Nat) : List Signal :=
  match g.nodes.getD n AigNode.constant with
  | AigNode.gate a b => [a, b]
  | _ => []

/-- Modelled from the spec: `foreach_gate(visit)`, every AND gate once, in ascending node
identifier. -/
def foreach_gate (g : Aig) : List Nat :=
  (List.range g.nodes.length).filter (fun i => (foreach_fanin g i).length = 2)

/-- Modelled from the spec: `level(n)`, the cached level. -/
def level (g : Aig) (n : Nat) : Nat := g.levels.getD n 0

/-- Modelled from the spec: `is_on_critical_path(n)`, the cached flag. -/
def is_on_critical_path (g : Aig) (n : Nat) : Bool := g.crit.getD n false

/-- Modelled from the spec: the part of `create_and` after the operands have been put in
ascending node order. -/
def create_and_ordered (g : Aig) (lo hi : Signal) : Signal × Aig :=
  if lo.index = hi.index then
    (if lo.complement = hi.complement then lo else ⟨0, false⟩, g)
  else if lo.index = 0 then
    (if lo.complement then hi else ⟨0, false⟩, g)
  else if g.nodes.indexOf (AigNode.gate lo hi) < g.nodes.length then
    (⟨g.nodes.indexOf (AigNode.gate lo hi), false⟩, g)
  else
    (⟨g.nodes.length, false⟩,
      { nodes := g.nodes ++ [AigNode.gate lo hi], outputs := g.outputs,
        levels := g.levels, crit := g.crit })

/-- Modelled from the spec: `create_and(a, b)`, the hash-consed two-input AND. It returns
an existing signal, possibly complemented, when the AND is trivial (equal or opposite
operands, a constant operand) or when a gate with the same ordered fanins exists, and
otherwise appends a fresh gate and returns it uncomplemented. -/
def create_and (g : Aig) (a b : Signal) : Signal × Aig :=
  if a.index > b.index then create_and_ordered g b a else create_and_ordered g a b

/-- Modelled from the spec: the redirection of one edge in `substitute_node`; an edge to
`old` becomes an edge to the new signal, the complements composing XOR-wise. -/
def redirect (old : Nat) (new_signal f : Signal) : Signal :=
  if f.index = old then ⟨new_signal.index, xor new_signal.complement f.complement⟩ else f

/-- Modelled from the spec: the redirection of the fanins of one node in
`substitute_node`. -/
def redirect_node (old : Nat) (new_signal : Signal) : AigNode → AigNode
  | AigNode.gate a b => AigNode.gate (redirect old new_signal a) (redirect old new_signal b)
  | nd => nd

/-- Modelled from the spec: `substitute_node(old, new_signal)` redirects every fanout edge
of `old` (in gates and in primary outputs) to `new_signal`. The orphaned node is kept. -/
def substitute_node (g : Aig) (old : Nat) (new_signal : Signal) : Aig :=
  { nodes := g.nodes.map (redirect_node old new_signal),
    outputs := g.outputs.map (redirect old new_signal),
    levels := g.levels, crit := g.crit }

/-- Modelled from the spec: the level of node `i` by the recurrence of the data model
(primary inputs and the constant 0, an AND gate `1 + max` of its fanin nodes), unfolded at
most `fuel` times; `update_levels` runs it with as much fuel as there are nodes. -/
def level_of (nodes : List AigNode) : Nat → Nat → Nat
  | 0, _ => 0
  | fuel + 1, i =>
    match nodes.getD i AigNode.constant with
    | AigNode.gate a b => 1 + max (level_of nodes fuel a.index) (level_of nodes fuel b.index)
    | _ => 0

/-- Modelled from the spec: the depth under the levels `lv`, the maximum level over
primary-output driver nodes. -/
def depth_of (lv : List Nat) (outputs : List Signal) : Nat :=
  (outputs.map (fun f => lv.getD f.index 0)).foldr max 0

/-- Modelled from the spec: whether the gate `p` has `i` among its fanin nodes (used by
the critical-path computation). -/
def has_fanin (nodes : List AigNode) (p i : Nat) : Bool :=
  match nodes.getD p AigNode.constant with
  | AigNode.gate a b => a.index = i || b.index = i
  | _ => false

/-- Modelled from the spec: whether node `i` lies on a longest input-to-output path under
the levels `lv`; it drives a primary output at full depth, or it is a fanin, one level
below, of a gate that lies on such a path. `fuel` bounds the number of steps towards the
output. -/
def crit_of (nodes : List AigNode) (outputs : List Signal) (lv : List Nat) : Nat → Nat → Bool
  | 0, i => outputs.any (fun f => f.index = i) && lv.getD i 0 = depth_of lv outputs
  | fuel + 1, i =>
    (outputs.any (fun f => f.index = i) && lv.getD i 0 = depth_of lv outputs)
    || (List.range nodes.length).any (fun p =>
          has_fanin nodes p i && lv.getD p 0 = lv.getD i 0 + 1
            && crit_of nodes outputs lv fuel p)

/-- Modelled from the spec: `update_levels()` recomputes all node levels and critical-path
annotations from the graph. -/
def update_levels (g : Aig) : Aig :=
  let lv := (List.range g.nodes.length).map (level_of g.nodes g.nodes.length)
  { nodes := g.nodes, outputs := g.outputs, levels := lv,
    crit := (List.range g.nodes.length).map
      (fun i => crit_of g.nodes g.outputs lv (depth_of lv g.outputs - lv.getD i 0) i) }

/-- Modelled from the spec: the depth of the circuit under the cached levels. -/
def depth (g : Aig) : Nat := depth_of g.levels g.outputs

/-- Well-formedness of the graph: node 0 is the constant, and the fanins of every gate and
the primary outputs refer to nodes of the graph. -/
def wf (g : Aig) : Bool :=
  (g.nodes.head? == some AigNode.constant)
  && (List.range g.nodes.length).all
      (fun i => (foreach_fanin g i).all (fun f => f.index < g.nodes.length))
  && g.outputs.all (fun f => f.index < g.nodes.length)

/-- Acyclicity: the nodes can be ranked so that every fanin of a gate ranks below it. -/
def acyclic (g : Aig) : Prop :=
  ∃ r : Nat → Nat, ∀ i a b, foreach_fanin g i = [a, b] → r a.index < r i ∧ r b.index < r i

/-- Modelled from the spec: the Boolean function of the AIG (two-input AND gates,
inversion on the edges). The value of node `i` under the assignment `asg` of the primary
inputs, unfolding the gates at most `fuel` deep; `none` when the fuel does not suffice or a
node is missing. -/
def eval_node (nodes : List AigNode) (asg : Nat → Bool) : Nat → Nat → Option Bool
  | 0, _ => none
  | fuel + 1, i =>
    match nodes[i]? with
    | some (AigNode.gate a b) =>
      match eval_node nodes asg fuel a.index, eval_node nodes asg fuel b.index with
      | some va, some vb => some ((xor va a.complement) && (xor vb b.complement))
      | _, _ => none
    | some AigNode.pi => some (asg i)
    | some AigNode.constant => some false
    | none => none

/-- Modelled from the spec: the value of a signal, the value of its node, inverted on a
complemented edge. -/
def eval_signal (nodes : List AigNode) (asg : Nat → Bool) (fuel : Nat) (f : Signal) :
    Option Bool :=
  (eval_node nodes asg fuel f.index).map (fun v => xor v f.complement)

/-- The signal `f` denotes the Boolean value `v` in the graph `g` under the assignment
`asg`: evaluation with enough fuel returns `v`. -/
def denotes (g : Aig) (asg : Nat → Bool) (f : Signal) (v : Bool) : Prop :=
  ∃ fuel, eval_signal g.nodes asg fuel f = some v

/-- Executable check of `level_recurrence` for the cached levels. -/
def levels_ok (g : Aig) : Bool :=
  (List.range (max g.nodes.length g.levels.length)).all (fun i =>
    match foreach_fanin g i with
    | [a, b] => level g i == 1 + max (level g a.index) (level g b.index)
    | _ => level g i == 0)

/-- The primary outputs at full depth are flagged critical. -/
def outputs_critical (g : Aig) : Prop :=
  ∀ f ∈ g.outputs, level g f.index = depth g → is_on_critical_path g f.index = true

/-- Executable check of `critical_path_closed` and `outputs_critical` for the cached
flags. -/
def crit_ok (g : Aig) : Bool :=
  (List.range g.nodes.length).all (fun i =>
    (foreach_fanin g i).all (fun f =>
      !(is_on_critical_path g i && level g f.index + 1 == level g i)
        || is_on_critical_path g f.index))
  && g.outputs.all (fun f => !(level g f.index == depth g) || is_on_critical_path g f.index)

/-- The number of nodes flagged critical. -/
def crit_count (g : Aig) : Nat :=
  ((List.range g.crit.length).filter (fun i => is_on_critical_path g i)).length

/-- The number of critical-path gates at level `l`. -/
def crit_gates_at (g : Aig) (l : Nat) : Nat :=
  ((List.range g.crit.length).filter (fun i =>
    is_on_critical_path g i && (level g i == l) && ((foreach_fanin g i).length == 2))).length

/-- The level of node `i` as `update_levels` computes it. -/
def lv (g : Aig) (i : Nat) : Nat := level_of g.nodes g.nodes.length i

/-- The number of nodes of the graph that rank below `i`. -/
def below (g : Aig) (r : Nat → Nat) (i : Nat) : Nat :=
  ((Finset.range g.nodes.length).filter (fun m => r m < r i)).card

/-- The graph `g2` is the graph `g` with nodes appended; outputs and annotation are the
same. -/
def extends_graph (g g2 : Aig) : Prop :=
  (∃ ex, g2.nodes = g.nodes ++ ex) ∧ g2.outputs = g.outputs ∧ g2.levels = g.levels
    ∧ g2.crit = g.crit

/-- The graph with one gate appended. -/
def with_gate (g : Aig) (lo hi : Signal) : Aig :=
  { nodes := g.nodes ++ [AigNode.gate lo hi], outputs := g.outputs,
    levels := g.levels, crit := g.crit }

end Aig

/-- Modelled from the spec: the concrete network as an instance of the interface. -/
def aig : Ntk Aig where
  foreach_gate := Aig.foreach_gate
  foreach_fanin := Aig.foreach_fanin
  level := Aig.level
  is_on_critical_path := Aig.is_on_critical_path
  create_and := Aig.create_and
  substitute_node := Aig.substitute_node
  update_levels := Aig.update_levels

/-! ## What each rule matches and does -/

section characterisation

variable {σ : Type}

/-- The conditions under which `try_associativity` rewrites, on the level-sorted fanins
`c0`, `c1` of `n` and `g0`, `g1` of `c0`. -/
def assoc_fires (h : Ntk σ) (s : σ) (n : Nat) (c0 c1 g0 g1 : Signal) : Prop :=
  h.is_on_critical_path s n = true
  ∧ sorted_fanins h s n = some (c0, c1)
  ∧ 2 ≤ h.level s c0.index - h.level s c1.index
  ∧ h.is_on_critical_path s c0.index = true
  ∧ h.is_on_critical_path s c1.index = false
  ∧ c0.complement = false
  ∧ sorted_fanins h s c0.index = some (g0, g1)
  ∧ h.level s g0.index ≠ h.level s g1.index

/-- The two `create_and` calls of `try_associativity`: the pair of the signal `top_and` and
the state in which it was created. -/
def assoc_replacement (h : Ntk σ) (s : σ) (c1 g0 g1 : Signal) : Signal × σ :=
  h.create_and (h.create_and s c1 g1).2 (h.create_and s c1 g1).1 g0

/-- The conditions under which `try_distributivity` rewrites, on the fanins `c0`, `c1` of
`n` (in stored order) and the level-sorted fanins `a0`, `a1` of `c0` and `b0`, `b1` of
`c1`. -/
def dist_fires (h : Ntk σ) (s : σ) (n : Nat) (c0 c1 a0 a1 b0 b1 : Signal) : Prop :=
  h.is_on_critical_path s n = true
  ∧ h.foreach_fanin s n = [c0, c1]
  ∧ h.is_on_critical_path s c0.index = true
  ∧ h.is_on_critical_path s c1.index = true
  ∧ h.level s c0.index ≠ 0
  ∧ h.level s c1.index ≠ 0
  ∧ c0.complement = true
  ∧ c1.complement = true
  ∧ sorted_fanins h s c0.index = some (a0, a1)
  ∧ h.is_on_critical_path s a0.index = true
  ∧ h.is_on_critical_path s a1.index = false
  ∧ sorted_fanins h s c1.index = some (b0, b1)
  ∧ h.is_on_critical_path s b0.index = true
  ∧ h.is_on_critical_path s b1.index = false
  ∧ a0 = b0
  ∧ h.level s a0.index = h.level s b0.index

/-- The two `create_and` calls of `try_distributivity`: the signal `top_and` and the state
in which it was created. The rule substitutes `!top_and`. -/
def dist_replacement (h : Ntk σ) (s : σ) (a0 a1 b1 : Signal) : Signal × σ :=
  h.create_and (h.create_and s a1.not b1.not).2 a0 (h.create_and s a1.not b1.not).1.not

/-- The conditions under which `try_three_level_distributivity` rewrites, on the
level-sorted fanins `c0`, `c1` of `n`, `nep0`, `nep1` of `c0` and `gn0`, `gn1` of `nep0`. -/
def three_fires (h : Ntk σ) (s : σ) (n : Nat) (c0 c1 nep0 nep1 gn0 gn1 : Signal) : Prop :=
  h.is_on_critical_path s n = true
  ∧ sorted_fanins h s n = some (c0, c1)
  ∧ 3 ≤ h.level s c0.index - h.level s c1.index
  ∧ h.is_on_critical_path s c0.index = true
  ∧ h.is_on_critical_path s c1.index = false
  ∧ c0.complement = true
  ∧ sorted_fanins h s c0.index = some (nep0, nep1)
  ∧ nep0.complement = true
  ∧ nep1.complement = true
  ∧ h.is_on_critical_path s nep1.index = false
  ∧ sorted_fanins h s nep0.index = some (gn0, gn1)
  ∧ h.is_on_critical_path s gn1.index = false

/-- The four `create_and` calls of `try_three_level_distributivity`: the signals
`x3_and_x4`, `x2_and_x4`, `g_and_x2x4`, `top_node` and the state after the last call. The
rule substitutes `!top_node`. -/
def three_replacement (h : Ntk σ) (s : σ) (c1 nep1 gn0 gn1 : Signal) :
    Signal × Signal × Signal × Signal × σ :=
  let x3_and_x4 := h.create_and s nep1.not c1
  let x2_and_x4 := h.create_and x3_and_x4.2 gn1 c1
  let g_and_x2x4 := h.create_and x2_and_x4.2 gn0 x2_and_x4.1
  let top_node := h.create_and g_and_x2x4.2 g_and_x2x4.1.not x3_and_x4.1.not
  (x3_and_x4.1, x2_and_x4.1, g_and_x2x4.1, top_node.1, top_node.2)

/-- The levels of the state `s` satisfy the recurrence of the data model: a gate (a node
with two fanins) has level `1 + max` of the levels of its fanin nodes, a node without fanins
(a primary input or the constant) has level 0. -/
def level_recurrence (h : Ntk σ) (s : σ) : Prop :=
  (∀ m a b, h.foreach_fanin s m = [a, b] →
      h.level s m = 1 + max (h.level s (get_node a)) (h.level s (get_node b)))
  ∧ (∀ m, h.foreach_fanin s m = [] → h.level s m = 0)

/-- The part of the consistency of the critical-path flags with the levels that the rules
rely on: a longest path through a gate continues through every fanin that sits exactly one
level below it, so such a fanin of a critical gate is critical. -/
def critical_path_closed (h : Ntk σ) (s : σ) : Prop :=
  ∀ m a b, h.foreach_fanin s m = [a, b] → h.is_on_critical_path s m = true →
    (h.level s (get_node a) + 1 = h.level s m → h.is_on_critical_path s (get_node a) = true)
    ∧ (h.level s (get_node b) + 1 = h.level s m → h.is_on_critical_path s (get_node b) = true)

/-- A coherent level annotation: the levels satisfy the recurrence and the critical-path
flags are closed under tight fanins. -/
def coherent (h : Ntk σ) (s : σ) : Prop :=
  level_recurrence h s ∧ critical_path_closed h s

/-- The level that the recurrence gives the replacement of `try_associativity`,
`AND(AND(c1, g1), g0)`. -/
def assoc_replacement_level (h : Ntk σ) (s : σ) (c1 g0 g1 : Signal) : Nat :=
  max (h.level s (get_node g0)) (1 + max (h.level s (get_node c1)) (h.level s (get_node g1))) + 1

/-- The level that the recurrence gives the replacement of `try_distributivity`,
`AND(s, !AND(!a1, !b1))`. -/
def dist_replacement_level (h : Ntk σ) (s : σ) (a0 a1 b1 : Signal) : Nat :=
  1 + max (h.level s (get_node a0)) (1 + max (h.level s (get_node a1)) (h.level s (get_node b1)))

/-- The level that the recurrence gives the replacement of
`try_three_level_distributivity`, over its four new gates `x3_and_x4`, `x2_and_x4`,
`g_and_x2x4` and `top_node`. -/
def three_replacement_level (h : Ntk σ) (s : σ) (c1 nep1 gn0 gn1 : Signal) : Nat :=
  let x3_and_x4 := 1 + max (h.level s (get_node nep1)) (h.level s (get_node c1))
  let x2_and_x4 := 1 + max (h.level s (get_node gn1)) (h.level s (get_node c1))
  let g_and_x2x4 := 1 + max (h.level s (get_node gn0)) x2_and_x4
  1 + max g_and_x2x4 x3_and_x4

/-! ## Observing the mutator calls -/

/-- A call of one of the three mutators of the network interface. -/
inductive HostCall where
  | create_and : Signal → Signal → HostCall
  | substitute_node : Nat → Signal → HostCall
  | update_levels : HostCall
deriving DecidableEq

/-- The network `h` with a log: every call of a mutator is appended to the list next to the
state, the queries read the state as before. -/
def traced (h : Ntk σ) : Ntk (σ × List HostCall) where
  foreach_gate st := h.foreach_gate st.1
  foreach_fanin st n := h.foreach_fanin st.1 n
  level st n := h.level st.1 n
  is_on_critical_path st n := h.is_on_critical_path st.1 n
  create_and st a b :=
    ((h.create_and st.1 a b).1, ((h.create_and st.1 a b).2, st.2 ++ [HostCall.create_and a b]))
  substitute_node st n f := (h.substitute_node st.1 n f, st.2 ++ [HostCall.substitute_node n f])
  update_levels st := (h.update_levels st.1, st.2 ++ [HostCall.update_levels])

end characterisation

/-! ## Example networks -/

/-- The left-deep chain `((((a·b)·c)·d)·e)` over the primary inputs 1 to 5, gates 6 to 9,
output 9. -/
def example_chain : Aig :=
  { nodes := [AigNode.constant, AigNode.pi, AigNode.pi, AigNode.pi, AigNode.pi, AigNode.pi,
      AigNode.gate ⟨1, false⟩ ⟨2, false⟩, AigNode.gate ⟨6, false⟩ ⟨3, false⟩,
      AigNode.gate ⟨7, false⟩ ⟨4, false⟩, AigNode.gate ⟨8, false⟩ ⟨5, false⟩],
    outputs := [⟨9, false⟩], levels := [], crit := [] }

/-- The network `¬(s·p) · ¬(s·q)` with `s = x1·x2` (node 5), `p`, `q` the primary inputs 3
and 4, gates 6 `= s·p`, 7 `= s·q`, 8 the output. -/
def example_dist : Aig :=
  { nodes := [AigNode.constant, AigNode.pi, AigNode.pi, AigNode.pi, AigNode.pi,
      AigNode.gate ⟨1, false⟩ ⟨2, false⟩, AigNode.gate ⟨5, false⟩ ⟨3, false⟩,
      AigNode.gate ⟨5, false⟩ ⟨4, false⟩, AigNode.gate ⟨6, true⟩ ⟨7, true⟩],
    outputs := [⟨8, false⟩], levels := [], crit := [] }

/-- The network `((g·x2) + x3) · x4` with `x2`, `x3`, `x4` the primary inputs 1, 2, 3 and
`g = x5·x6` (node 6): gates 7 `= g·x2`, 8 `= ¬7·¬x3`, 9 `= ¬8·x4` the output. -/
def example_three : Aig :=
  { nodes := [AigNode.constant, AigNode.pi, AigNode.pi, AigNode.pi, AigNode.pi, AigNode.pi,
      AigNode.gate ⟨4, false⟩ ⟨5, false⟩, AigNode.gate ⟨6, false⟩ ⟨1, false⟩,
      AigNode.gate ⟨7, true⟩ ⟨2, true⟩, AigNode.gate ⟨8, true⟩ ⟨3, false⟩],
    outputs := [⟨9, false⟩], levels := [], crit := [] }

/-! ## Coherent annotations of the concrete network -/

/-- A coherent level annotation of a well-formed graph: the cached levels satisfy the
recurrence, and the cached critical-path flags are consistent with them (closed under
tight fanins, and set on the primary outputs at full depth). -/
def Aig.annotated (g : Aig) : Prop :=
  g.wf = true ∧ level_recurrence aig g ∧ critical_path_closed aig g ∧ Aig.outputs_critical g

/-- The graph `g2` and the signal `t` are a replacement built over `g`: `g2` extends `g`, is
well-formed and acyclic and keeps the levels of the nodes of `g`, and `t` is a signal of
`g2` whose level is at most `bound`. -/
def Aig.replacement_ok (g g2 : Aig) (t : Signal) (bound : Nat) : Prop :=
  Aig.extends_graph g g2 ∧ g2.wf = true ∧ g2.acyclic ∧ t.index < g2.nodes.length
    ∧ (∀ i, i < g.nodes.length → Aig.lv g2 i = Aig.lv g i)
    ∧ Aig.lv g2 t.index ≤ bound

/-- The measure of the driver decreases from `g` to `g2`: the depth drops, or it stays and
the number of nodes flagged critical drops. -/
def Aig.measure_lt (g2 g : Aig) : Prop :=
  Aig.depth g2 < Aig.depth g
    ∨ (Aig.depth g2 = Aig.depth g ∧ Aig.crit_count g2 < Aig.crit_count g)


/-! ## Definitions for the claims on matching, dispatch and the driver -/

/-- Whether a logged call is a `substitute_node`. -/
def HostCall.is_substitute : HostCall → Bool
  | HostCall.substitute_node _ _ => true
  | _ => false

/-- The nodes substituted in a log of mutator calls, in order. -/
def substituted : List HostCall → List Nat
  | [] => []
  | HostCall.substitute_node n _ :: rest => n :: substituted rest
  | _ :: rest => substituted rest

/-- The network state `example_three` with its computed levels, and with critical-path
flags as an arbitrary oracle may report them: gate 7 (the higher-level fanin node of gate 8)
is reported off the critical path, all other flags are the computed ones. -/
def example_three_unflagged : Aig :=
  { nodes := example_three.nodes, outputs := example_three.outputs,
    levels := [0, 0, 0, 0, 0, 0, 1, 2, 3, 4],
    crit := [false, false, false, false, true, true, true, false, true, true] }


section restarting

variable {σ : Type}

/-- The traversal of the driver as the specification's design notes word it ("restarts the
sweep after every success rather than continuing the current traversal"): the gates are
visited in order up to the first one on which `try_algebraic_rules` returns true; the
result is the state after that rewrite, `none` when every gate declines. -/
def first_rewrite (h : Ntk σ) : List Nat → σ → Option σ
  | [], _ => none
  | n :: rest, s =>
    let r := try_algebraic_rules h s n
    if r.1 then some r.2 else first_rewrite h rest r.2

/-- The driver as the specification's design notes word it: after a successful rewrite the
levels are recomputed and the sweep restarts from the first gate; it ends when a sweep makes
no rewrite. `fuel` bounds the number of sweeps. -/
def run_restarting (h : Ntk σ) : Nat → σ → Option σ
  | 0, _ => none
  | fuel + 1, s =>
    match first_rewrite h (h.foreach_gate s) s with
    | some s2 => run_restarting h fuel (h.update_levels s2)
    | none => some s

end restarting

/-- Three left-deep chains with an output each, over disjoint primary inputs 1 to 13:
gates 14 to 16 are `((x1·x2)·x3)·x4` (depth 3), gates 17 to 20 are
`(((x5·x6)·x7)·x8)·x9` (depth 4), gates 21 to 23 are `((x10·x11)·x12)·x13` (depth 3). -/
def example_three_chains : Aig :=
  { nodes := [AigNode.constant,
      AigNode.pi, AigNode.pi, AigNode.pi, AigNode.pi, AigNode.pi, AigNode.pi, AigNode.pi,
      AigNode.pi, AigNode.pi, AigNode.pi, AigNode.pi, AigNode.pi, AigNode.pi,
      AigNode.gate ⟨1, false⟩ ⟨2, false⟩, AigNode.gate ⟨14, false⟩ ⟨3, false⟩,
      AigNode.gate ⟨15, false⟩ ⟨4, false⟩,
      AigNode.gate ⟨5, false⟩ ⟨6, false⟩, AigNode.gate ⟨17, false⟩ ⟨7, false⟩,
      AigNode.gate ⟨18, false⟩ ⟨8, false⟩, AigNode.gate ⟨19, false⟩ ⟨9, false⟩,
      AigNode.gate ⟨10, false⟩ ⟨11, false⟩, AigNode.gate ⟨21, false⟩ ⟨12, false⟩,
      AigNode.gate ⟨22, false⟩ ⟨13, false⟩],
    outputs := [⟨16, false⟩, ⟨20, false⟩, ⟨23, false⟩], levels := [], crit := [] }


/-- The state that the rewriting of `example_chain` returns: gate 8 has been replaced by
gate 11 `= (a·b)·(c·d)` with the new gate 10 `= c·d`, and gate 9 `= 11·e` drives the
output; gates 7 and 8 are left without fanout. -/
def example_chain_rewritten : Aig :=
  { nodes := [AigNode.constant, AigNode.pi, AigNode.pi, AigNode.pi, AigNode.pi, AigNode.pi,
      AigNode.gate ⟨1, false⟩ ⟨2, false⟩, AigNode.gate ⟨6, false⟩ ⟨3, false⟩,
      AigNode.gate ⟨7, false⟩ ⟨4, false⟩, AigNode.gate ⟨11, false⟩ ⟨5, false⟩,
      AigNode.gate ⟨3, false⟩ ⟨4, false⟩, AigNode.gate ⟨6, false⟩ ⟨10, false⟩],
    outputs := [⟨9, false⟩],
    levels := [0, 0, 0, 0, 0, 0, 1, 2, 3, 3, 1, 2],
    crit := [false, true, true, true, true, false, true, false, false, true, true, true] }

/-- The network `(a·b)·c` over the primary inputs 1 to 3: gate 4 `= a·b`, gate 5 the
output. -/
def example_shallow : Aig :=
  { nodes := [AigNode.constant, AigNode.pi, AigNode.pi, AigNode.pi,
      AigNode.gate ⟨1, false⟩ ⟨2, false⟩, AigNode.gate ⟨4, false⟩ ⟨3, false⟩],
    outputs := [⟨5, false⟩], levels := [], crit := [] }

/-- The balanced uncomplemented AND tree over the primary inputs 1 to 8: gates 9 to 12 on
the inputs, 13 and 14 above them, 15 the output. -/
def example_balanced : Aig :=
  { nodes := [AigNode.constant, AigNode.pi, AigNode.pi, AigNode.pi, AigNode.pi, AigNode.pi,
      AigNode.pi, AigNode.pi, AigNode.pi,
      AigNode.gate ⟨1, false⟩ ⟨2, false⟩, AigNode.gate ⟨3, false⟩ ⟨4, false⟩,
      AigNode.gate ⟨5, false⟩ ⟨6, false⟩, AigNode.gate ⟨7, false⟩ ⟨8, false⟩,
      AigNode.gate ⟨9, false⟩ ⟨10, false⟩, AigNode.gate ⟨11, false⟩ ⟨12, false⟩,
      AigNode.gate ⟨13, false⟩ ⟨14, false⟩],
    outputs := [⟨15, false⟩], levels := [], crit := [] }

/-- The network `¬(a·b) · c` with `a = p·q` (gate 5) over the primary inputs `p`, `q`, `b`,
`c` (1 to 4): gate 6 `= a·b` has level 2, gate 7 `= ¬6·c` is the output, and the levels of
its fanins differ by 2. -/
def example_complement : Aig :=
  { nodes := [AigNode.constant, AigNode.pi, AigNode.pi, AigNode.pi, AigNode.pi,
      AigNode.gate ⟨1, false⟩ ⟨2, false⟩, AigNode.gate ⟨5, false⟩ ⟨3, false⟩,
      AigNode.gate ⟨6, true⟩ ⟨4, false⟩],
    outputs := [⟨7, false⟩], levels := [], crit := [] }

section shapes

variable {σ : Type}

/-- The gate `n` has two fanins whose levels differ by less than 2 and whose edges are not
both complemented. -/
def shallow_shape (h : Ntk σ) (s : σ) (n : Nat) : Bool :=
  match h.foreach_fanin s n with
  | [x, y] =>
    decide (h.level s (get_node x) - h.level s (get_node y) < 2)
      && decide (h.level s (get_node y) - h.level s (get_node x) < 2)
      && !(is_complemented x && is_complemented y)
  | _ => false

/-- The gate `n` has two fanins, `hi` at a level not below that of `lo`, the edge to `hi`
complemented, the edge to `lo` not, and the levels differ by less than 3. -/
def complement_shape (h : Ntk σ) (s : σ) (n : Nat) : Bool :=
  match h.foreach_fanin s n with
  | [x, y] =>
    (decide (h.level s (get_node y) ≤ h.level s (get_node x))
        && is_complemented x && !is_complemented y
        && decide (h.level s (get_node x) - h.level s (get_node y) < 3))
    || (decide (h.level s (get_node x) ≤ h.level s (get_node y))
        && is_complemented y && !is_complemented x
        && decide (h.level s (get_node y) - h.level s (get_node x) < 3))
  | _ => false

/-- The rule `try_distributivity` with the match test `a0 == b0` alone, without the
conjunct `level_nephews[0] == level_nephews_s[0]`; everything else is as in the source. -/
def try_distributivity_signal_only (h : Ntk σ) (s : σ) (n : Nat) : Bool × σ :=
  if h.is_on_critical_path s n = false then (false, s) else
  match h.foreach_fanin s n with
  | [c0, c1] =>
    if h.is_on_critical_path s (get_node c0) = false
        || h.is_on_critical_path s (get_node c1) = false then (false, s) else
    if h.level s (get_node c0) = 0 || h.level s (get_node c1) = 0 then (false, s) else
    if (!is_complemented c0) || (!is_complemented c1) then (false, s) else
    match h.foreach_fanin s (get_node c0) with
    | [u, v] =>
      let a := sort_by_level h s u v
      if h.is_on_critical_path s (get_node a.1) = false
          || h.is_on_critical_path s (get_node a.2) = true then (false, s) else
      match h.foreach_fanin s (get_node c1) with
      | [p, q] =>
        let b := sort_by_level h s p q
        if h.is_on_critical_path s (get_node b.1) = false
            || h.is_on_critical_path s (get_node b.2) = true then (false, s) else
        if a.1 = b.1 then
          let lower_and := h.create_and s a.2.not b.2.not
          let top_and := h.create_and lower_and.2 a.1 lower_and.1.not
          (true, h.substitute_node top_and.2 n top_and.1.not)
        else (false, s)
      | _ => (false, s)
    | _ => (false, s)
  | _ => (false, s)

/-- A dispatcher that tries the given rules in the order of the list, each on the state the
one before left, and stops at the first that returns true; `try_algebraic_rules` is the
order associativity, distributivity, three-level distributivity. -/
def try_in_order (rules : List (σ → Nat → Bool × σ)) (s : σ) (n : Nat) : Bool × σ :=
  match rules with
  | [] => (false, s)
  | r :: rest => if (r s n).1 then (true, (r s n).2) else try_in_order rest (r s n).2 n

end shapes


/-! ## Definitions for the claim on acyclicity -/

/-- Whether the node `n` occurs in the transitive fanin of the node `m`: it is a fanin node
of `m`, or it occurs in the transitive fanin of one; fanin edges are followed at most `fuel`
deep. -/
def Aig.in_transitive_fanin (nodes : List AigNode) (n : Nat) : Nat → Nat → Bool
  | 0, _ => false
  | fuel + 1, m =>
    match nodes.getD m AigNode.constant with
    | AigNode.gate a b =>
      decide (a.index = n) || decide (b.index = n)
        || Aig.in_transitive_fanin nodes n fuel a.index
        || Aig.in_transitive_fanin nodes n fuel b.index
    | _ => false

/-- The chain `((a·b)·c)·d` over the primary inputs 1 to 4 (gates 5, 6, 7) next to the gate
8 `= c·d`, with the outputs 7 and 8: the gate that associativity builds first at gate 7,
`c·d`, is in the graph already. -/
def example_hashed : Aig :=
  { nodes := [AigNode.constant, AigNode.pi, AigNode.pi, AigNode.pi, AigNode.pi,
      AigNode.gate ⟨1, false⟩ ⟨2, false⟩, AigNode.gate ⟨5, false⟩ ⟨3, false⟩,
      AigNode.gate ⟨6, false⟩ ⟨4, false⟩, AigNode.gate ⟨3, false⟩ ⟨4, false⟩],
    outputs := [⟨7, false⟩, ⟨8, false⟩], levels := [], crit := [] }


/-! ## Definitions for the critical path through a gate -/

section continuation

variable {σ : Type}

/-- A consistency of the critical-path flags with the levels, weaker than
`critical_path_closed`: a gate on the critical path has, among its fanins of maximal
level, one that is on the critical path (a longest path through the gate goes on through a
fanin of maximal level). -/
def critical_path_continues (h : Ntk σ) (s : σ) : Prop :=
  ∀ m a b, h.foreach_fanin s m = [a, b] → h.is_on_critical_path s m = true →
    (h.is_on_critical_path s (get_node a) = true
        ∧ h.level s (get_node b) ≤ h.level s (get_node a))
    ∨ (h.is_on_critical_path s (get_node b) = true
        ∧ h.level s (get_node a) ≤ h.level s (get_node b))

end continuation

/-- Executable check of `critical_path_continues` for the cached flags. -/
def Aig.crit_continues_ok (g : Aig) : Bool :=
  (List.range g.nodes.length).all (fun i =>
    match Aig.foreach_fanin g i with
    | [a, b] =>
      !Aig.is_on_critical_path g i
        || (Aig.is_on_critical_path g a.index
              && decide (Aig.level g b.index ≤ Aig.level g a.index))
        || (Aig.is_on_critical_path g b.index
              && decide (Aig.level g a.index ≤ Aig.level g b.index))
    | _ => true)

/-- The network `((g·x2) + y) · x4` in which `y = (x4a·x5)·x6` (gates 10, 11) sits at the
level of `g·x2` (gates 8, 9): the gate 12 `= ¬9·¬11` has two fanins of level 2, the output is
gate 13 `= ¬12·x7`. The levels follow the recurrence; of the two longest paths only the one
through gate 9 is flagged. -/
def example_three_tie : Aig :=
  { nodes := [AigNode.constant, AigNode.pi, AigNode.pi, AigNode.pi, AigNode.pi, AigNode.pi,
      AigNode.pi, AigNode.pi,
      AigNode.gate ⟨1, false⟩ ⟨2, false⟩, AigNode.gate ⟨8, false⟩ ⟨3, false⟩,
      AigNode.gate ⟨4, false⟩ ⟨5, false⟩, AigNode.gate ⟨10, false⟩ ⟨6, false⟩,
      AigNode.gate ⟨9, true⟩ ⟨11, true⟩, AigNode.gate ⟨12, true⟩ ⟨7, false⟩],
    outputs := [⟨13, false⟩],
    levels := [0, 0, 0, 0, 0, 0, 0, 0, 1, 2, 1, 2, 3, 4],
    crit := [false, true, true, false, false, false, false, false, true, true, false, false,
      true, true] }


/-! ## Lemmas on the rules -/

section rule_lemmas

variable {σ : Type}

theorem try_associativity_decline (h : Ntk σ) (s : σ) (n : Nat)
    (hf : (try_associativity h s n).1 = false) : (try_associativity h s n).2 = s := by
  simp only [try_associativity] at hf ⊢
  split
  · rfl
  split
  · split
    · rfl
    split
    · rfl
    split
    · rfl
    split
    · split
      · rfl
      · rename_i h1 _ _ _ h2 h3 h4 h5 _ _ _ h6 h7
        simp [h1, h2, h3, h4, h5, h6, h7] at hf
    · rfl
  · rfl

theorem try_associativity_fires (h : Ntk σ) (s : σ) (n : Nat)
    (hf : (try_associativity h s n).1 = true) :
    ∃ c0 c1 g0 g1, assoc_fires h s n c0 c1 g0 g1
      ∧ (try_associativity h s n).2
          = h.substitute_node (assoc_replacement h s c1 g0 g1).2 n
              (assoc_replacement h s c1 g0 g1).1 := by
  simp only [try_associativity] at hf ⊢
  split at hf
  · simp at hf
  split at hf
  · rename_i h1 _ x y hxy
    split at hf
    · simp at hf
    split at hf
    · simp at hf
    split at hf
    · simp at hf
    split at hf
    · rename_i h2 h3 h4 _ u v huv
      split at hf
      · simp at hf
      rename_i h5
      refine ⟨(sort_by_level h s x y).1, (sort_by_level h s x y).2,
        (sort_by_level h s u v).1, (sort_by_level h s u v).2, ?_, ?_⟩
      · simp only [get_node, is_complemented] at *
        simp only [assoc_fires, sorted_fanins, hxy, huv]
        simp at h1 h2 h3 h4
        refine ⟨h1, trivial, by omega, h3.1, h3.2, h4, trivial, h5⟩
      · simp only [get_node, is_complemented] at *
        simp [h1, hxy, h2, h3, h4, huv, h5, assoc_replacement]
    · simp at hf
  · simp at hf

theorem try_distributivity_decline (h : Ntk σ) (s : σ) (n : Nat)
    (hf : (try_distributivity h s n).1 = false) : (try_distributivity h s n).2 = s := by
  simp only [try_distributivity] at hf ⊢
  repeat' split
  all_goals first | rfl | simp_all

theorem try_three_level_distributivity_decline (h : Ntk σ) (s : σ) (n : Nat)
    (hf : (try_three_level_distributivity h s n).1 = false) :
    (try_three_level_distributivity h s n).2 = s := by
  simp only [try_three_level_distributivity] at hf ⊢
  repeat' split
  all_goals first | rfl | simp_all

theorem try_distributivity_fires (h : Ntk σ) (s : σ) (n : Nat)
    (hf : (try_distributivity h s n).1 = true) :
    ∃ c0 c1 a0 a1 b0 b1, dist_fires h s n c0 c1 a0 a1 b0 b1
      ∧ (try_distributivity h s n).2
          = h.substitute_node (dist_replacement h s a0 a1 b1).2 n
              (dist_replacement h s a0 a1 b1).1.not := by
  simp only [try_distributivity] at hf ⊢
  split at hf
  · simp at hf
  split at hf
  · rename_i h1 _ c0 c1 hc
    split at hf
    · simp at hf
    split at hf
    · simp at hf
    split at hf
    · simp at hf
    split at hf
    · rename_i h2 h3 h4 _ u v huv
      split at hf
      · simp at hf
      split at hf
      · rename_i h5 _ p q hpq
        split at hf
        · simp at hf
        split at hf
        · rename_i h6 h7
          refine ⟨c0, c1, (sort_by_level h s u v).1, (sort_by_level h s u v).2,
            (sort_by_level h s p q).1, (sort_by_level h s p q).2, ?_, ?_⟩
          · simp only [get_node, is_complemented] at *
            simp only [dist_fires, sorted_fanins, hc, huv, hpq]
            simp at h1 h2 h3 h4 h5 h6
            refine ⟨h1, trivial, h2.1, h2.2, h3.1, h3.2, h4.1, h4.2, trivial, h5.1, h5.2,
              trivial, h6.1, h6.2, h7.1, h7.2⟩
          · simp only [get_node, is_complemented] at *
            simp at h1 h2 h3 h4 h5 h6
            simp [h1, hc, h2, h3, h4, huv, h5, hpq, h6, h7, dist_replacement]
        · simp at hf
      · simp at hf
    · simp at hf
  · simp at hf

theorem try_three_level_distributivity_fires (h : Ntk σ) (s : σ) (n : Nat)
    (hf : (try_three_level_distributivity h s n).1 = true) :
    ∃ c0 c1 nep0 nep1 gn0 gn1, three_fires h s n c0 c1 nep0 nep1 gn0 gn1
      ∧ (try_three_level_distributivity h s n).2
          = h.substitute_node (three_replacement h s c1 nep1 gn0 gn1).2.2.2.2 n
              (three_replacement h s c1 nep1 gn0 gn1).2.2.2.1.not := by
  simp only [try_three_level_distributivity] at hf ⊢
  split at hf
  · simp at hf
  split at hf
  · rename_i h1 _ x y hxy
    split at hf
    · simp at hf
    split at hf
    · simp at hf
    split at hf
    · simp at hf
    split at hf
    · rename_i h2 h3 h4 _ u v huv
      split at hf
      · simp at hf
      split at hf
      · simp at hf
      split at hf
      · rename_i h5 h6 _ p q hpq
        split at hf
        · simp at hf
        rename_i h7
        refine ⟨(sort_by_level h s x y).1, (sort_by_level h s x y).2,
          (sort_by_level h s u v).1, (sort_by_level h s u v).2,
          (sort_by_level h s p q).1, (sort_by_level h s p q).2, ?_, ?_⟩
        · simp only [get_node, is_complemented] at *
          simp only [three_fires, sorted_fanins, hxy, huv, hpq]
          simp at h1 h2 h3 h4 h5 h6 h7
          refine ⟨h1, trivial, by omega, h3.1, h3.2, h4, trivial, h5.1, h5.2, h6, trivial, h7⟩
        · simp only [get_node, is_complemented] at *
          simp at h1 h3 h4 h5 h6 h7
          simp [h1, hxy, h2, h3, h4, huv, h5, h6, hpq, h7, three_replacement]
      · simp at hf
    · simp at hf
  · simp at hf

theorem try_algebraic_rules_decline (h : Ntk σ) (s : σ) (n : Nat)
    (hf : (try_algebraic_rules h s n).1 = false) :
    (try_algebraic_rules h s n).2 = s
      ∧ (try_associativity h s n).1 = false
      ∧ (try_distributivity h s n).1 = false
      ∧ (try_three_level_distributivity h s n).1 = false := by
  simp only [try_algebraic_rules] at hf ⊢
  cases h1 : (try_associativity h s n).1
  · have e1 := try_associativity_decline h s n h1
    simp only [h1, e1] at hf ⊢
    cases h2 : (try_distributivity h s n).1
    · have e2 := try_distributivity_decline h s n h2
      simp only [h2, e2] at hf ⊢
      cases h3 : (try_three_level_distributivity h s n).1
      · have e3 := try_three_level_distributivity_decline h s n h3
        simp [h3, e3]
      · simp [h3] at hf
    · simp [h2] at hf
  · simp [h1] at hf

theorem sorted_fanins_spec (h : Ntk σ) (s : σ) (n : Nat) (c0 c1 : Signal)
    (hs : sorted_fanins h s n = some (c0, c1)) :
    h.level s c1.index ≤ h.level s c0.index
      ∧ (h.foreach_fanin s n = [c0, c1] ∨ h.foreach_fanin s n = [c1, c0]) := by
  unfold sorted_fanins at hs
  split at hs
  · rename_i x y hxy
    simp only [sort_by_level, get_node, Option.some.injEq] at hs
    split at hs
    · rename_i hlt
      simp only [Prod.mk.injEq] at hs
      obtain ⟨rfl, rfl⟩ := hs
      exact ⟨by omega, Or.inr hxy⟩
    · rename_i hlt
      simp only [Prod.mk.injEq] at hs
      obtain ⟨rfl, rfl⟩ := hs
      exact ⟨by omega, Or.inl hxy⟩
  · simp at hs

theorem level_of_sorted (h : Ntk σ) (s : σ) (n : Nat) (c0 c1 : Signal)
    (hrec : level_recurrence h s) (hs : sorted_fanins h s n = some (c0, c1)) :
    h.level s c1.index ≤ h.level s c0.index ∧ h.level s n = 1 + h.level s c0.index := by
  obtain ⟨hle, hfi⟩ := sorted_fanins_spec h s n c0 c1 hs
  refine ⟨hle, ?_⟩
  rcases hfi with hfi | hfi
  · have := hrec.1 n c0 c1 hfi
    simp only [get_node] at this
    omega
  · have := hrec.1 n c1 c0 hfi
    simp only [get_node] at this
    omega

theorem critical_of_sorted (h : Ntk σ) (s : σ) (n : Nat) (c0 c1 : Signal)
    (hco : coherent h s) (hs : sorted_fanins h s n = some (c0, c1))
    (hn : h.is_on_critical_path s n = true) :
    h.is_on_critical_path s c0.index = true
      ∧ (h.is_on_critical_path s c1.index = false → h.level s c1.index < h.level s c0.index) := by
  obtain ⟨hle, hlv⟩ := level_of_sorted h s n c0 c1 hco.1 hs
  obtain ⟨-, hfi⟩ := sorted_fanins_spec h s n c0 c1 hs
  rcases hfi with hfi | hfi
  · have hc := hco.2 n c0 c1 hfi hn
    simp only [get_node] at hc
    refine ⟨hc.1 (by omega), fun h1 => ?_⟩
    by_contra hlt
    have := hc.2 (by omega)
    simp [h1] at this
  · have hc := hco.2 n c1 c0 hfi hn
    simp only [get_node] at hc
    refine ⟨hc.2 (by omega), fun h1 => ?_⟩
    by_contra hlt
    have := hc.1 (by omega)
    simp [h1] at this

theorem assoc_level_bound (h : Ntk σ) (s : σ) (n : Nat) (c0 c1 g0 g1 : Signal)
    (hrec : level_recurrence h s) (hm : assoc_fires h s n c0 c1 g0 g1) :
    assoc_replacement_level h s c1 g0 g1 < h.level s n := by
  obtain ⟨-, hc, hd, -, -, -, hg, hne⟩ := hm
  obtain ⟨h1, h2⟩ := level_of_sorted h s n c0 c1 hrec hc
  obtain ⟨h3, h4⟩ := level_of_sorted h s c0.index g0 g1 hrec hg
  simp only [assoc_replacement_level, get_node]
  omega

theorem dist_level_bound_weak (h : Ntk σ) (s : σ) (n : Nat) (c0 c1 a0 a1 b0 b1 : Signal)
    (hrec : level_recurrence h s) (hm : dist_fires h s n c0 c1 a0 a1 b0 b1) :
    dist_replacement_level h s a0 a1 b1 ≤ h.level s n := by
  obtain ⟨-, hc, -, -, -, -, -, -, ha, -, -, hb, -, -, hab, -⟩ := hm
  have hn := hrec.1 n c0 c1 hc
  obtain ⟨h3, h4⟩ := level_of_sorted h s c0.index a0 a1 hrec ha
  obtain ⟨h5, h6⟩ := level_of_sorted h s c1.index b0 b1 hrec hb
  subst hab
  simp only [dist_replacement_level, get_node] at *
  omega

theorem dist_level_bound (h : Ntk σ) (s : σ) (n : Nat) (c0 c1 a0 a1 b0 b1 : Signal)
    (hco : coherent h s) (hm : dist_fires h s n c0 c1 a0 a1 b0 b1) :
    dist_replacement_level h s a0 a1 b1 < h.level s n := by
  obtain ⟨-, hc, hc0, hc1, -, -, -, -, ha, -, ha1, hb, -, hb1, hab, -⟩ := hm
  have hn := hco.1.1 n c0 c1 hc
  obtain ⟨h3, h4⟩ := level_of_sorted h s c0.index a0 a1 hco.1 ha
  obtain ⟨h5, h6⟩ := level_of_sorted h s c1.index b0 b1 hco.1 hb
  have h7 := (critical_of_sorted h s c0.index a0 a1 hco ha hc0).2 ha1
  have h8 := (critical_of_sorted h s c1.index b0 b1 hco hb hc1).2 hb1
  subst hab
  simp only [dist_replacement_level, get_node] at *
  omega

theorem three_level_bound_weak (h : Ntk σ) (s : σ) (n : Nat) (c0 c1 nep0 nep1 gn0 gn1 : Signal)
    (hrec : level_recurrence h s) (hm : three_fires h s n c0 c1 nep0 nep1 gn0 gn1) :
    three_replacement_level h s c1 nep1 gn0 gn1 ≤ h.level s n := by
  obtain ⟨-, hc, hd, -, -, -, hnep, -, -, -, hgn, -⟩ := hm
  obtain ⟨h1, h2⟩ := level_of_sorted h s n c0 c1 hrec hc
  obtain ⟨h3, h4⟩ := level_of_sorted h s c0.index nep0 nep1 hrec hnep
  obtain ⟨h5, h6⟩ := level_of_sorted h s nep0.index gn0 gn1 hrec hgn
  simp only [three_replacement_level, get_node]
  omega

theorem three_level_bound (h : Ntk σ) (s : σ) (n : Nat) (c0 c1 nep0 nep1 gn0 gn1 : Signal)
    (hco : coherent h s) (hm : three_fires h s n c0 c1 nep0 nep1 gn0 gn1) :
    three_replacement_level h s c1 nep1 gn0 gn1 + 1 = h.level s n := by
  obtain ⟨-, hc, hd, hc0, -, -, hnep, -, -, hnep1, hgn, hgn1⟩ := hm
  obtain ⟨h1, h2⟩ := level_of_sorted h s n c0 c1 hco.1 hc
  obtain ⟨h3, h4⟩ := level_of_sorted h s c0.index nep0 nep1 hco.1 hnep
  obtain ⟨h5, h6⟩ := level_of_sorted h s nep0.index gn0 gn1 hco.1 hgn
  obtain ⟨h7, h8⟩ := critical_of_sorted h s c0.index nep0 nep1 hco hnep hc0
  have h9 := (critical_of_sorted h s nep0.index gn0 gn1 hco hgn h7).2 hgn1
  have h10 := h8 hnep1
  simp only [three_replacement_level, get_node]
  omega

theorem sorted_fanins_unfold (h : Ntk σ) (s : σ) (n : Nat) (c0 c1 : Signal)
    (hs : sorted_fanins h s n = some (c0, c1)) :
    ∃ x y, h.foreach_fanin s n = [x, y] ∧ sort_by_level h s x y = (c0, c1) := by
  unfold sorted_fanins at hs
  split at hs
  · rename_i x y hxy
    exact ⟨x, y, hxy, by simpa using hs⟩
  · simp at hs

theorem try_associativity_of_fires (h : Ntk σ) (s : σ) (n : Nat) (c0 c1 g0 g1 : Signal)
    (hm : assoc_fires h s n c0 c1 g0 g1) : (try_associativity h s n).1 = true := by
  obtain ⟨h1, hc, hd, h3, h4, h5, hg, hne⟩ := hm
  obtain ⟨x, y, hxy, hs1⟩ := sorted_fanins_unfold h s n c0 c1 hc
  obtain ⟨u, v, huv, hs2⟩ := sorted_fanins_unfold h s c0.index g0 g1 hg
  have hd2 : ¬ (h.level s c0.index - h.level s c1.index < 2) := by omega
  simp only [try_associativity, h1, hxy, hs1, get_node, is_complemented, huv, hs2, hd2, h3, h4,
    h5, hne]
  simp

theorem try_distributivity_of_fires (h : Ntk σ) (s : σ) (n : Nat) (c0 c1 a0 a1 b0 b1 : Signal)
    (hm : dist_fires h s n c0 c1 a0 a1 b0 b1) : (try_distributivity h s n).1 = true := by
  obtain ⟨h1, hc, h2, h3, h4, h5, h6, h7, ha, h8, h9, hb, h10, h11, h12, h13⟩ := hm
  obtain ⟨u, v, huv, hs1⟩ := sorted_fanins_unfold h s c0.index a0 a1 ha
  obtain ⟨p, q, hpq, hs2⟩ := sorted_fanins_unfold h s c1.index b0 b1 hb
  simp only [try_distributivity, h1, hc, get_node, is_complemented, h2, h3, h4, h5, h6, h7,
    huv, hs1, h8, h9, hpq, hs2, h10, h11, h12, h13]
  simp

theorem try_three_level_distributivity_of_fires (h : Ntk σ) (s : σ) (n : Nat)
    (c0 c1 nep0 nep1 gn0 gn1 : Signal)
    (hm : three_fires h s n c0 c1 nep0 nep1 gn0 gn1) :
    (try_three_level_distributivity h s n).1 = true := by
  obtain ⟨h1, hc, hd, h2, h3, h4, hnep, h5, h6, h7, hgn, h8⟩ := hm
  obtain ⟨x, y, hxy, hs1⟩ := sorted_fanins_unfold h s n c0 c1 hc
  obtain ⟨u, v, huv, hs2⟩ := sorted_fanins_unfold h s c0.index nep0 nep1 hnep
  obtain ⟨p, q, hpq, hs3⟩ := sorted_fanins_unfold h s nep0.index gn0 gn1 hgn
  have hd2 : ¬ (h.level s c0.index - h.level s c1.index < 3) := by omega
  simp only [try_three_level_distributivity, h1, hxy, hs1, get_node, is_complemented, hd2, h2,
    h3, h4, huv, hs2, h5, h6, h7, hpq, hs3, h8]
  simp

theorem traced_try_associativity (h : Ntk σ) (s : σ) (log : List HostCall) (n : Nat) :
    (try_associativity (traced h) (s, log) n).1 = (try_associativity h s n).1 := by
  cases hb : (try_associativity h s n).1
  · cases ht : (try_associativity (traced h) (s, log) n).1
    · rfl
    · obtain ⟨c0, c1, g0, g1, hm, -⟩ := try_associativity_fires (traced h) (s, log) n ht
      have hm2 : assoc_fires h s n c0 c1 g0 g1 := hm
      rw [try_associativity_of_fires h s n c0 c1 g0 g1 hm2] at hb
      exact absurd hb (by simp)
  · obtain ⟨c0, c1, g0, g1, hm, -⟩ := try_associativity_fires h s n hb
    have hm2 : assoc_fires (traced h) (s, log) n c0 c1 g0 g1 := hm
    exact try_associativity_of_fires (traced h) (s, log) n c0 c1 g0 g1 hm2

theorem traced_try_distributivity (h : Ntk σ) (s : σ) (log : List HostCall) (n : Nat) :
    (try_distributivity (traced h) (s, log) n).1 = (try_distributivity h s n).1 := by
  cases hb : (try_distributivity h s n).1
  · cases ht : (try_distributivity (traced h) (s, log) n).1
    · rfl
    · obtain ⟨c0, c1, a0, a1, b0, b1, hm, -⟩ :=
        try_distributivity_fires (traced h) (s, log) n ht
      have hm2 : dist_fires h s n c0 c1 a0 a1 b0 b1 := hm
      rw [try_distributivity_of_fires h s n c0 c1 a0 a1 b0 b1 hm2] at hb
      exact absurd hb (by simp)
  · obtain ⟨c0, c1, a0, a1, b0, b1, hm, -⟩ := try_distributivity_fires h s n hb
    have hm2 : dist_fires (traced h) (s, log) n c0 c1 a0 a1 b0 b1 := hm
    exact try_distributivity_of_fires (traced h) (s, log) n c0 c1 a0 a1 b0 b1 hm2

theorem traced_try_three_level_distributivity (h : Ntk σ) (s : σ) (log : List HostCall)
    (n : Nat) :
    (try_three_level_distributivity (traced h) (s, log) n).1
      = (try_three_level_distributivity h s n).1 := by
  cases hb : (try_three_level_distributivity h s n).1
  · cases ht : (try_three_level_distributivity (traced h) (s, log) n).1
    · rfl
    · obtain ⟨c0, c1, nep0, nep1, gn0, gn1, hm, -⟩ :=
        try_three_level_distributivity_fires (traced h) (s, log) n ht
      have hm2 : three_fires h s n c0 c1 nep0 nep1 gn0 gn1 := hm
      rw [try_three_level_distributivity_of_fires h s n c0 c1 nep0 nep1 gn0 gn1 hm2] at hb
      exact absurd hb (by simp)
  · obtain ⟨c0, c1, nep0, nep1, gn0, gn1, hm, -⟩ :=
      try_three_level_distributivity_fires h s n hb
    have hm2 : three_fires (traced h) (s, log) n c0 c1 nep0 nep1 gn0 gn1 := hm
    exact try_three_level_distributivity_of_fires (traced h) (s, log) n c0 c1 nep0 nep1 gn0 gn1
      hm2

theorem try_algebraic_rules_false_iff (h : Ntk σ) (s : σ) (n : Nat) :
    (try_algebraic_rules h s n).1 = false ↔
      ((try_associativity h s n).1 = false ∧ (try_distributivity h s n).1 = false
        ∧ (try_three_level_distributivity h s n).1 = false) := by
  constructor
  · intro hf
    exact (try_algebraic_rules_decline h s n hf).2
  · rintro ⟨h1, h2, h3⟩
    have e1 := try_associativity_decline h s n h1
    have e2 := try_distributivity_decline h s n h2
    simp only [try_algebraic_rules, h1, e1, h2, e2, h3]
    simp

theorem traced_try_algebraic_rules_decline (h : Ntk σ) (s : σ) (log : List HostCall) (n : Nat)
    (hf : (try_algebraic_rules h s n).1 = false) :
    try_algebraic_rules (traced h) (s, log) n = (false, (s, log)) := by
  have hf2 : (try_algebraic_rules (traced h) (s, log) n).1 = false := by
    rw [try_algebraic_rules_false_iff] at hf ⊢
    rw [traced_try_associativity, traced_try_distributivity,
      traced_try_three_level_distributivity]
    exact hf
  have := (try_algebraic_rules_decline (traced h) (s, log) n hf2).1
  exact Prod.ext hf2 this

theorem sweep_of_decline (h : Ntk σ) (l : List Nat) (s : σ) (cont : Bool)
    (hd : ∀ n ∈ l, (try_algebraic_rules h s n).1 = false) : sweep h l s cont = (s, cont) := by
  induction l with
  | nil => rfl
  | cons n rest ih =>
    have h1 := hd n (by simp)
    have h2 := (try_algebraic_rules_decline h s n h1).1
    simp only [sweep, h1, h2]
    exact ih (fun m hm => hd m (by simp [hm]))

theorem sweep_without_rewrite (h : Ntk σ) (l : List Nat) :
    ∀ (s : σ) (cont : Bool) (s2 : σ), sweep h l s cont = (s2, false) →
      cont = false ∧ s2 = s ∧ ∀ n ∈ l, (try_algebraic_rules h s n).1 = false := by
  induction l with
  | nil =>
    intro s cont s2 hs
    simp only [sweep, Prod.mk.injEq] at hs
    exact ⟨hs.2, hs.1.symm, by simp⟩
  | cons n rest ih =>
    intro s cont s2 hs
    cases h1 : (try_algebraic_rules h s n).1
    · have h2 := (try_algebraic_rules_decline h s n h1).1
      simp only [sweep, h1, h2] at hs
      obtain ⟨hc, he, hr⟩ := ih s cont s2 hs
      refine ⟨hc, he, ?_⟩
      intro m hm
      simp only [List.mem_cons] at hm
      rcases hm with rfl | hm
      · exact h1
      · exact hr m hm
    · simp only [sweep, h1] at hs
      have := (ih _ true s2 hs).1
      simp at this

theorem run_result_stable (h : Ntk σ) (fuel : Nat) :
    ∀ (s s2 : σ), run h fuel s = some s2 →
      sweep h (h.foreach_gate s2) s2 false = (s2, false) := by
  induction fuel with
  | zero => intro s s2 hr; simp [run] at hr
  | succ fuel ih =>
    intro s s2 hr
    simp only [run] at hr
    cases hc : (sweep h (h.foreach_gate s) s false).2
    · simp only [hc] at hr
      have hs : sweep h (h.foreach_gate s) s false = (s2, false) := by
        refine Prod.ext ?_ hc
        simpa using hr
      obtain ⟨-, he, -⟩ := sweep_without_rewrite h _ s false s2 hs
      rw [he]
      rw [he] at hs
      exact hs
    · simp only [hc] at hr
      exact ih _ s2 hr

theorem sweep_levels_fresh (h : Ntk σ)
    (hid : ∀ x, h.update_levels (h.update_levels x) = h.update_levels x) (l : List Nat) :
    ∀ (s : σ) (cont : Bool), h.update_levels s = s →
      h.update_levels (sweep h l s cont).1 = (sweep h l s cont).1 := by
  induction l with
  | nil => intro s cont hs; exact hs
  | cons n rest ih =>
    intro s cont hs
    cases h1 : (try_algebraic_rules h s n).1
    · have h2 := (try_algebraic_rules_decline h s n h1).1
      simp only [sweep, h1, h2]
      exact ih s cont hs
    · simp only [sweep, h1]
      exact ih _ true (hid _)

theorem run_levels_fresh (h : Ntk σ)
    (hid : ∀ x, h.update_levels (h.update_levels x) = h.update_levels x) (fuel : Nat) :
    ∀ (s s2 : σ), h.update_levels s = s → run h fuel s = some s2 →
      h.update_levels s2 = s2 := by
  induction fuel with
  | zero => intro s s2 _ hr; simp [run] at hr
  | succ fuel ih =>
    intro s s2 hs hr
    simp only [run] at hr
    have hf := sweep_levels_fresh h hid (h.foreach_gate s) s false hs
    cases hc : (sweep h (h.foreach_gate s) s false).2
    · simp only [hc] at hr
      have e : (sweep h (h.foreach_gate s) s false).1 = s2 := by simpa using hr
      rw [e] at hf
      exact hf
    · simp only [hc] at hr
      exact ih _ s2 hf hr

end rule_lemmas

/-! ## The concrete network: structure and evaluation -/

namespace Aig

theorem foreach_fanin_pair (g : Aig) (i : Nat) (a b : Signal) :
    foreach_fanin g i = [a, b] ↔ g.nodes[i]? = some (AigNode.gate a b) := by
  unfold foreach_fanin
  rw [List.getD_eq_getElem?_getD]
  cases hn : g.nodes[i]? with
  | none => simp
  | some nd => cases nd <;> simp

theorem foreach_fanin_cases (g : Aig) (i : Nat) :
    foreach_fanin g i = [] ∨ ∃ a b, foreach_fanin g i = [a, b] := by
  unfold foreach_fanin
  split
  · exact Or.inr ⟨_, _, rfl⟩
  · exact Or.inl rfl

theorem foreach_fanin_lt (g : Aig) (i : Nat) (a b : Signal)
    (h : foreach_fanin g i = [a, b]) : i < g.nodes.length := by
  rw [foreach_fanin_pair] at h
  exact (List.getElem?_eq_some_iff.1 h).1

theorem wf_constant (g : Aig) (h : g.wf = true) : g.nodes[0]? = some AigNode.constant := by
  simp only [wf, Bool.and_eq_true, beq_iff_eq] at h
  rw [← List.head?_eq_getElem?]
  exact h.1.1

theorem wf_fanin (g : Aig) (h : g.wf = true) (i : Nat) (a b : Signal)
    (hi : foreach_fanin g i = [a, b]) :
    a.index < g.nodes.length ∧ b.index < g.nodes.length := by
  have hlt := foreach_fanin_lt g i a b hi
  simp only [wf, Bool.and_eq_true, List.all_eq_true, List.mem_range, decide_eq_true_eq] at h
  have := h.1.2 i hlt
  rw [hi] at this
  exact ⟨this a (by simp), this b (by simp)⟩

theorem wf_output (g : Aig) (h : g.wf = true) (f : Signal) (hf : f ∈ g.outputs) :
    f.index < g.nodes.length := by
  simp only [wf, Bool.and_eq_true, List.all_eq_true, decide_eq_true_eq] at h
  exact h.2 f hf

theorem wf_intro (g : Aig) (h0 : g.nodes[0]? = some AigNode.constant)
    (h1 : ∀ i a b, foreach_fanin g i = [a, b] →
      a.index < g.nodes.length ∧ b.index < g.nodes.length)
    (h2 : ∀ f ∈ g.outputs, f.index < g.nodes.length) : g.wf = true := by
  simp only [wf, Bool.and_eq_true, List.all_eq_true, List.mem_range, decide_eq_true_eq,
    beq_iff_eq]
  refine ⟨⟨?_, ?_⟩, h2⟩
  · rw [List.head?_eq_getElem?]; exact h0
  · intro i _ f hf
    rcases foreach_fanin_cases g i with he | ⟨a, b, he⟩
    · rw [he] at hf; simp at hf
    · have := h1 i a b he
      rw [he] at hf
      simp only [List.mem_cons, List.mem_singleton, List.not_mem_nil, or_false] at hf
      rcases hf with rfl | rfl
      · exact this.1
      · exact this.2

theorem eval_node_succ (nodes : List AigNode) (asg : Nat → Bool) (k : Nat) :
    ∀ i v, eval_node nodes asg k i = some v → eval_node nodes asg (k + 1) i = some v := by
  induction k with
  | zero => intro i v h; simp [eval_node] at h
  | succ k ih =>
    intro i v h
    rw [eval_node] at h ⊢
    cases hn : nodes[i]? with
    | none => simp [hn] at h
    | some nd =>
      cases nd with
      | constant => simpa [hn] using h
      | pi => simpa [hn] using h
      | gate a b =>
        simp only [hn] at h ⊢
        cases ha : eval_node nodes asg k a.index with
        | none => simp [ha] at h
        | some va =>
          cases hb : eval_node nodes asg k b.index with
          | none => simp [ha, hb] at h
          | some vb =>
            rw [ih a.index va ha, ih b.index vb hb]
            simpa [ha, hb] using h

theorem eval_node_le (nodes : List AigNode) (asg : Nat → Bool) (k k2 : Nat) (hk : k ≤ k2)
    (i : Nat) (v : Bool) (h : eval_node nodes asg k i = some v) :
    eval_node nodes asg k2 i = some v := by
  induction hk with
  | refl => exact h
  | step _ ih => exact eval_node_succ nodes asg _ i v ih

theorem eval_node_append (nodes ex : List AigNode) (asg : Nat → Bool) (k : Nat) :
    ∀ i v, eval_node nodes asg k i = some v → eval_node (nodes ++ ex) asg k i = some v := by
  induction k with
  | zero => intro i v h; simp [eval_node] at h
  | succ k ih =>
    intro i v h
    rw [eval_node] at h ⊢
    cases hn : nodes[i]? with
    | none => simp [hn] at h
    | some nd =>
      have hlt : i < nodes.length := (List.getElem?_eq_some_iff.1 hn).1
      have hn2 : (nodes ++ ex)[i]? = some nd := by
        rw [List.getElem?_append_left hlt]; exact hn
      cases nd with
      | constant => simpa [hn, hn2] using h
      | pi => simpa [hn, hn2] using h
      | gate a b =>
        simp only [hn, hn2] at h ⊢
        cases ha : eval_node nodes asg k a.index with
        | none => simp [ha] at h
        | some va =>
          cases hb : eval_node nodes asg k b.index with
          | none => simp [ha, hb] at h
          | some vb =>
            rw [ih a.index va ha, ih b.index vb hb]
            simpa [ha, hb] using h

theorem denotes_iff (g : Aig) (asg : Nat → Bool) (f : Signal) (v : Bool) :
    denotes g asg f v ↔ ∃ k w, eval_node g.nodes asg k f.index = some w
      ∧ v = xor w f.complement := by
  unfold denotes eval_signal
  constructor
  · rintro ⟨k, hk⟩
    cases hw : eval_node g.nodes asg k f.index with
    | none => simp [hw] at hk
    | some w => exact ⟨k, w, hw, by simpa [hw, eq_comm] using hk⟩
  · rintro ⟨k, w, hw, rfl⟩
    exact ⟨k, by simp [hw]⟩

theorem denotes_unique (g : Aig) (asg : Nat → Bool) (f : Signal) (v w : Bool)
    (hv : denotes g asg f v) (hw : denotes g asg f w) : v = w := by
  rw [denotes_iff] at hv hw
  obtain ⟨k1, v1, h1, rfl⟩ := hv
  obtain ⟨k2, v2, h2, rfl⟩ := hw
  have e1 := eval_node_le g.nodes asg k1 (max k1 k2) (le_max_left _ _) _ _ h1
  have e2 := eval_node_le g.nodes asg k2 (max k1 k2) (le_max_right _ _) _ _ h2
  rw [e1] at e2
  injection e2 with e2
  rw [e2]

theorem denotes_not (g : Aig) (asg : Nat → Bool) (f : Signal) (v : Bool)
    (h : denotes g asg f v) : denotes g asg f.not (!v) := by
  rw [denotes_iff] at h ⊢
  obtain ⟨k, w, hw, rfl⟩ := h
  exact ⟨k, w, hw, by cases w <;> cases hc : f.complement <;> simp [Signal.not, hc]⟩

theorem denotes_gate (g : Aig) (asg : Nat → Bool) (i : Nat) (a b : Signal) (va vb : Bool)
    (hi : foreach_fanin g i = [a, b]) (ha : denotes g asg a va) (hb : denotes g asg b vb) :
    denotes g asg ⟨i, false⟩ (va && vb) := by
  rw [foreach_fanin_pair] at hi
  rw [denotes_iff] at ha hb ⊢
  obtain ⟨k1, v1, h1, rfl⟩ := ha
  obtain ⟨k2, v2, h2, rfl⟩ := hb
  have e1 := eval_node_le g.nodes asg k1 (max k1 k2) (le_max_left _ _) _ _ h1
  have e2 := eval_node_le g.nodes asg k2 (max k1 k2) (le_max_right _ _) _ _ h2
  refine ⟨max k1 k2 + 1, (xor v1 a.complement) && (xor v2 b.complement), ?_, by simp⟩
  rw [eval_node]
  simp only [hi, e1, e2]

theorem denotes_complemented (g : Aig) (asg : Nat → Bool) (f : Signal) (v : Bool)
    (h : denotes g asg ⟨f.index, false⟩ v) : denotes g asg f (xor v f.complement) := by
  rw [denotes_iff] at h ⊢
  obtain ⟨k, w, hw, rfl⟩ := h
  exact ⟨k, w, hw, by simp⟩

theorem denotes_constant (g : Aig) (asg : Nat → Bool) (h : g.wf = true) :
    denotes g asg ⟨0, false⟩ false := by
  rw [denotes_iff]
  refine ⟨1, false, ?_, by simp⟩
  rw [eval_node]
  simp [wf_constant g h]

theorem denotes_zero (g : Aig) (asg : Nat → Bool) (h : g.wf = true) (f : Signal) (v : Bool)
    (hf : f.index = 0) (hv : denotes g asg f v) : v = f.complement := by
  have h0 := denotes_complemented g asg f false (hf ▸ denotes_constant g asg h)
  have := denotes_unique g asg f _ _ hv h0
  simpa using this

theorem denotes_extend (g g2 : Aig) (ex : List AigNode) (asg : Nat → Bool) (f : Signal)
    (v : Bool) (he : g2.nodes = g.nodes ++ ex) (h : denotes g asg f v) :
    denotes g2 asg f v := by
  rw [denotes_iff] at h ⊢
  obtain ⟨k, w, hw, rfl⟩ := h
  exact ⟨k, w, by rw [he]; exact eval_node_append g.nodes ex asg k _ _ hw, rfl⟩

theorem denotes_leaf (g : Aig) (asg : Nat → Bool) (i : Nat) (hlt : i < g.nodes.length)
    (he : foreach_fanin g i = []) : ∃ v, denotes g asg ⟨i, false⟩ v := by
  have hne : ∀ a b, g.nodes[i]? ≠ some (AigNode.gate a b) := by
    intro a b hab
    rw [← foreach_fanin_pair] at hab
    rw [hab] at he; simp at he
  obtain ⟨nd, hnd⟩ : ∃ nd, g.nodes[i]? = some nd :=
    ⟨g.nodes[i], List.getElem?_eq_getElem hlt⟩
  cases nd with
  | constant =>
    exact ⟨false, (denotes_iff _ _ _ _).2 ⟨1, false, by rw [eval_node]; simp [hnd], rfl⟩⟩
  | pi =>
    exact ⟨asg i, (denotes_iff _ _ _ _).2 ⟨1, asg i, by rw [eval_node]; simp [hnd], by simp⟩⟩
  | gate a b => exact absurd hnd (hne a b)

theorem denotes_total (g : Aig) (asg : Nat → Bool) (hw : g.wf = true) (hac : g.acyclic)
    (f : Signal) (hf : f.index < g.nodes.length) : ∃ v, denotes g asg f v := by
  obtain ⟨r, hr⟩ := hac
  have key : ∀ m i, r i ≤ m → i < g.nodes.length →
      ∃ v, denotes g asg ⟨i, false⟩ v := by
    intro m
    induction m with
    | zero =>
      intro i hi hlt
      rcases foreach_fanin_cases g i with he | ⟨a, b, he⟩
      · exact denotes_leaf g asg i hlt he
      · have := hr i a b he
        omega
    | succ m ih =>
      intro i hi hlt
      rcases foreach_fanin_cases g i with he | ⟨a, b, he⟩
      · exact denotes_leaf g asg i hlt he
      · have hlo := hr i a b he
        have hin := wf_fanin g hw i a b he
        obtain ⟨va, hva⟩ := ih a.index (by omega) hin.1
        obtain ⟨vb, hvb⟩ := ih b.index (by omega) hin.2
        exact ⟨_, denotes_gate g asg i a b _ _ he
          (denotes_complemented g asg a va hva) (denotes_complemented g asg b vb hvb)⟩
  obtain ⟨v, hv⟩ := key (r f.index) f.index le_rfl hf
  exact ⟨_, denotes_complemented g asg f v hv⟩

end Aig

namespace Aig

theorem extends_refl (g : Aig) : extends_graph g g :=
  ⟨⟨[], by simp⟩, rfl, rfl, rfl⟩

theorem extends_trans (g g2 g3 : Aig) (h1 : extends_graph g g2) (h2 : extends_graph g2 g3) :
    extends_graph g g3 := by
  obtain ⟨⟨e1, h1⟩, a1, b1, c1⟩ := h1
  obtain ⟨⟨e2, h2⟩, a2, b2, c2⟩ := h2
  exact ⟨⟨e1 ++ e2, by rw [h2, h1, List.append_assoc]⟩, a2.trans a1, b2.trans b1, c2.trans c1⟩

theorem extends_length (g g2 : Aig) (h : extends_graph g g2) :
    g.nodes.length ≤ g2.nodes.length := by
  obtain ⟨⟨ex, h⟩, -⟩ := h
  rw [h, List.length_append]; omega

theorem extends_fanin (g g2 : Aig) (h : extends_graph g g2) (i : Nat)
    (hi : i < g.nodes.length) : foreach_fanin g2 i = foreach_fanin g i := by
  obtain ⟨⟨ex, h⟩, -⟩ := h
  unfold foreach_fanin
  rw [List.getD_eq_getElem?_getD, List.getD_eq_getElem?_getD, h, List.getElem?_append_left hi]

theorem extends_level (g g2 : Aig) (h : extends_graph g g2) (i : Nat) :
    level g2 i = level g i := by
  unfold level; rw [h.2.2.1]

theorem extends_crit (g g2 : Aig) (h : extends_graph g g2) (i : Nat) :
    is_on_critical_path g2 i = is_on_critical_path g i := by
  unfold is_on_critical_path; rw [h.2.2.2]

theorem extends_denotes (g g2 : Aig) (h : extends_graph g g2) (asg : Nat → Bool) (f : Signal)
    (v : Bool) (hv : denotes g asg f v) : denotes g2 asg f v := by
  obtain ⟨⟨ex, h⟩, -⟩ := h
  exact denotes_extend g g2 ex asg f v h hv

theorem create_and_ordered_extends (g : Aig) (lo hi : Signal) :
    extends_graph g (create_and_ordered g lo hi).2 := by
  unfold create_and_ordered
  split_ifs
  all_goals first
    | exact extends_refl g
    | exact ⟨⟨[AigNode.gate lo hi], rfl⟩, rfl, rfl, rfl⟩

theorem create_and_extends (g : Aig) (a b : Signal) :
    extends_graph g (create_and g a b).2 := by
  unfold create_and
  split_ifs
  · exact create_and_ordered_extends g b a
  · exact create_and_ordered_extends g a b

/-- What `create_and_ordered` returns: one of its operands, the constant, or a gate of the
resulting graph with the operands as fanins. -/
theorem create_and_ordered_result (g : Aig) (lo hi : Signal) :
    (create_and_ordered g lo hi).1 = lo ∨ (create_and_ordered g lo hi).1 = hi
      ∨ (create_and_ordered g lo hi).1 = ⟨0, false⟩
      ∨ ((create_and_ordered g lo hi).1.complement = false
          ∧ foreach_fanin (create_and_ordered g lo hi).2 (create_and_ordered g lo hi).1.index
              = [lo, hi]) := by
  unfold create_and_ordered
  split_ifs with h1 h2 h3 h4 h5
  · exact Or.inl rfl
  · exact Or.inr (Or.inr (Or.inl rfl))
  · exact Or.inr (Or.inl rfl)
  · exact Or.inr (Or.inr (Or.inl rfl))
  · refine Or.inr (Or.inr (Or.inr ⟨rfl, ?_⟩))
    rw [foreach_fanin_pair]
    simp only
    rw [List.getElem?_eq_getElem h5]
    congr 1
    exact List.indexOf_get h5
  · refine Or.inr (Or.inr (Or.inr ⟨rfl, ?_⟩))
    rw [foreach_fanin_pair]
    simp

theorem create_and_ordered_gate (g : Aig) (lo hi : Signal) (h1 : lo.index ≠ hi.index)
    (h2 : lo.index ≠ 0) :
    (create_and_ordered g lo hi).1.complement = false
      ∧ foreach_fanin (create_and_ordered g lo hi).2 (create_and_ordered g lo hi).1.index
          = [lo, hi] := by
  unfold create_and_ordered
  rw [if_neg h1, if_neg h2]
  split_ifs with h5
  · refine ⟨rfl, ?_⟩
    rw [foreach_fanin_pair]
    simp only
    rw [List.getElem?_eq_getElem h5]
    congr 1
    exact List.indexOf_get h5
  · refine ⟨rfl, ?_⟩
    rw [foreach_fanin_pair]
    simp

theorem create_and_ordered_denotes (g : Aig) (lo hi : Signal) (hw : g.wf = true)
    (asg : Nat → Bool) (va vb : Bool) (ha : denotes g asg lo va) (hb : denotes g asg hi vb) :
    denotes (create_and_ordered g lo hi).2 asg (create_and_ordered g lo hi).1 (va && vb) := by
  have hex := create_and_ordered_extends g lo hi
  have ha2 := extends_denotes g _ hex asg lo va ha
  have hb2 := extends_denotes g _ hex asg hi vb hb
  by_cases h1 : lo.index = hi.index
  · by_cases h2 : lo.complement = hi.complement
    · have e : lo = hi := by
        cases lo; cases hi; simp_all
      subst e
      have := denotes_unique g asg lo _ _ ha hb
      subst this
      unfold create_and_ordered
      rw [if_pos h1, if_pos h2]
      simpa using ha
    · have e : hi = lo.not := by
        cases lo; cases hi
        simp only [Signal.not, Signal.mk.injEq] at *
        refine ⟨h1.symm, ?_⟩
        rename_i c1 _ c2
        cases c1 <;> cases c2 <;> simp_all
      have := denotes_unique g asg hi _ _ hb (e ▸ denotes_not g asg lo va ha)
      subst this
      have hc := denotes_constant g asg hw
      unfold create_and_ordered
      rw [if_pos h1, if_neg h2]
      simpa using hc
  · by_cases h2 : lo.index = 0
    · have hv := denotes_zero g asg hw lo va h2 ha
      subst hv
      unfold create_and_ordered
      rw [if_neg h1, if_pos h2]
      by_cases h3 : lo.complement = true
      · rw [if_pos h3]
        simpa [h3] using hb
      · have hc := denotes_constant g asg hw
        rw [if_neg h3]
        simp only [Bool.not_eq_true] at h3
        simpa [h3] using hc
    · obtain ⟨hc, hf⟩ := create_and_ordered_gate g lo hi h1 h2
      have := denotes_gate _ asg _ lo hi va vb hf ha2 hb2
      have e : (create_and_ordered g lo hi).1
          = ⟨(create_and_ordered g lo hi).1.index, false⟩ := by
        rw [← hc]
      rw [e]
      exact this

theorem create_and_denotes (g : Aig) (a b : Signal) (hw : g.wf = true)
    (asg : Nat → Bool) (va vb : Bool) (ha : denotes g asg a va) (hb : denotes g asg b vb) :
    denotes (create_and g a b).2 asg (create_and g a b).1 (va && vb) := by
  unfold create_and
  split_ifs
  · rw [Bool.and_comm]
    exact create_and_ordered_denotes g b a hw asg vb va hb ha
  · exact create_and_ordered_denotes g a b hw asg va vb ha hb

theorem with_gate_fanin (g : Aig) (lo hi : Signal) (i : Nat) :
    foreach_fanin (with_gate g lo hi) i
      = if i = g.nodes.length then [lo, hi] else foreach_fanin g i := by
  unfold foreach_fanin with_gate
  rw [List.getD_eq_getElem?_getD, List.getD_eq_getElem?_getD]
  simp only
  rcases Nat.lt_trichotomy i g.nodes.length with h | h | h
  · rw [List.getElem?_append_left h, if_neg (by omega)]
  · subst h
    simp
  · rw [if_neg (by omega), List.getElem?_eq_none (by simp; omega),
      List.getElem?_eq_none (by omega)]

theorem create_and_ordered_cases (g : Aig) (lo hi : Signal) (hl : 0 < g.nodes.length)
    (hlo : lo.index < g.nodes.length) (hhi : hi.index < g.nodes.length) :
    ((create_and_ordered g lo hi).2 = g
        ∧ (create_and_ordered g lo hi).1.index < g.nodes.length) ∨
      ((create_and_ordered g lo hi).2 = with_gate g lo hi
        ∧ (create_and_ordered g lo hi).1 = ⟨g.nodes.length, false⟩
        ∧ lo.index ≠ hi.index) := by
  unfold create_and_ordered
  split_ifs with h1 h2 h3 h4 h5
  all_goals first
    | exact Or.inl ⟨rfl, by assumption⟩
    | exact Or.inr ⟨rfl, rfl, h1⟩

theorem with_gate_wf (g : Aig) (lo hi : Signal) (hw : g.wf = true)
    (hlo : lo.index < g.nodes.length) (hhi : hi.index < g.nodes.length) :
    (with_gate g lo hi).wf = true := by
  have hlen : (with_gate g lo hi).nodes.length = g.nodes.length + 1 := by
    simp [with_gate]
  apply wf_intro
  · have h0 := wf_constant g hw
    have hl : 0 < g.nodes.length := (List.getElem?_eq_some_iff.1 h0).1
    show (g.nodes ++ [AigNode.gate lo hi])[0]? = _
    rw [List.getElem?_append_left hl]; exact h0
  · intro i a b hi
    rw [with_gate_fanin] at hi
    rw [hlen]
    split_ifs at hi with h
    · simp only [List.cons.injEq, and_true] at hi
      obtain ⟨rfl, rfl⟩ := hi
      omega
    · have := wf_fanin g hw i a b hi
      omega
  · intro f hf
    rw [hlen]
    have := wf_output g hw f hf
    omega

theorem with_gate_acyclic (g : Aig) (lo hi : Signal) (hw : g.wf = true) (hac : g.acyclic)
    (hlo : lo.index < g.nodes.length) (hhi : hi.index < g.nodes.length) :
    (with_gate g lo hi).acyclic := by
  obtain ⟨r, hr⟩ := hac
  refine ⟨fun i => if i < g.nodes.length then r i else 1 + max (r lo.index) (r hi.index), ?_⟩
  intro i a b hi
  rw [with_gate_fanin] at hi
  split_ifs at hi with h
  · simp only [List.cons.injEq, and_true] at hi
    obtain ⟨rfl, rfl⟩ := hi
    subst h
    simp only [hlo, hhi, if_true, lt_irrefl, if_false]
    omega
  · have h1 := hr i a b hi
    have h2 := wf_fanin g hw i a b hi
    have h3 := foreach_fanin_lt g i a b hi
    simp only [h2.1, h2.2, h3, if_true]
    exact h1

theorem create_and_ordered_wf (g : Aig) (lo hi : Signal) (hw : g.wf = true)
    (hlo : lo.index < g.nodes.length) (hhi : hi.index < g.nodes.length) :
    (create_and_ordered g lo hi).2.wf = true
      ∧ (create_and_ordered g lo hi).1.index < (create_and_ordered g lo hi).2.nodes.length
      ∧ (g.acyclic → (create_and_ordered g lo hi).2.acyclic) := by
  have h0 := wf_constant g hw
  have hl : 0 < g.nodes.length := (List.getElem?_eq_some_iff.1 h0).1
  rcases create_and_ordered_cases g lo hi hl hlo hhi with ⟨h, hs⟩ | ⟨h, hs, -⟩
  · rw [h]
    exact ⟨hw, hs, id⟩
  · rw [h, hs]
    refine ⟨with_gate_wf g lo hi hw hlo hhi, by simp [with_gate], fun hac => ?_⟩
    exact with_gate_acyclic g lo hi hw hac hlo hhi

theorem create_and_wf (g : Aig) (a b : Signal) (hw : g.wf = true)
    (ha : a.index < g.nodes.length) (hb : b.index < g.nodes.length) :
    (create_and g a b).2.wf = true
      ∧ (create_and g a b).1.index < (create_and g a b).2.nodes.length
      ∧ (g.acyclic → (create_and g a b).2.acyclic) := by
  unfold create_and
  split_ifs
  · exact create_and_ordered_wf g b a hw hb ha
  · exact create_and_ordered_wf g a b hw ha hb

theorem denotes_lt (g : Aig) (asg : Nat → Bool) (f : Signal) (v : Bool)
    (h : denotes g asg f v) : f.index < g.nodes.length := by
  obtain ⟨k, w, hk, -⟩ := (denotes_iff g asg f v).1 h
  cases k with
  | zero => simp [eval_node] at hk
  | succ k =>
    rw [eval_node] at hk
    by_contra hlt
    rw [List.getElem?_eq_none (by omega)] at hk
    simp at hk

/-- One `create_and` call on a well-formed graph: the graph is extended, stays well-formed
(and acyclic), and the returned signal denotes the AND of the operands. -/
theorem create_and_sound (g : Aig) (a b : Signal) (hw : g.wf = true) (asg : Nat → Bool)
    (va vb : Bool) (ha : denotes g asg a va) (hb : denotes g asg b vb) :
    (create_and g a b).2.wf = true ∧ extends_graph g (create_and g a b).2
      ∧ denotes (create_and g a b).2 asg (create_and g a b).1 (va && vb) :=
  ⟨(create_and_wf g a b hw (denotes_lt g asg a va ha) (denotes_lt g asg b vb hb)).1,
    create_and_extends g a b, create_and_denotes g a b hw asg va vb ha hb⟩

theorem sorted_fanins_denotes (g : Aig) (n : Nat) (c0 c1 : Signal) (asg : Nat → Bool)
    (v0 v1 : Bool) (hs : sorted_fanins aig g n = some (c0, c1))
    (h0 : denotes g asg c0 v0) (h1 : denotes g asg c1 v1) :
    denotes g asg ⟨n, false⟩ (v0 && v1) := by
  obtain ⟨-, hfi⟩ := sorted_fanins_spec aig g n c0 c1 hs
  rcases hfi with hfi | hfi
  · exact denotes_gate g asg n c0 c1 v0 v1 hfi h0 h1
  · rw [Bool.and_comm]
    exact denotes_gate g asg n c1 c0 v1 v0 hfi h1 h0

theorem sorted_fanins_lt (g : Aig) (hw : g.wf = true) (n : Nat) (c0 c1 : Signal)
    (hs : sorted_fanins aig g n = some (c0, c1)) :
    c0.index < g.nodes.length ∧ c1.index < g.nodes.length ∧ n < g.nodes.length := by
  obtain ⟨-, hfi⟩ := sorted_fanins_spec aig g n c0 c1 hs
  rcases hfi with hfi | hfi
  · have := wf_fanin g hw n c0 c1 hfi
    exact ⟨this.1, this.2, foreach_fanin_lt g n c0 c1 hfi⟩
  · have := wf_fanin g hw n c1 c0 hfi
    exact ⟨this.2, this.1, foreach_fanin_lt g n c1 c0 hfi⟩

theorem update_levels_idempotent (g : Aig) :
    update_levels (update_levels g) = update_levels g := rfl

theorem levels_ok_recurrence (g : Aig) (h : g.levels_ok = true) : level_recurrence aig g := by
  simp only [levels_ok, List.all_eq_true, List.mem_range] at h
  constructor
  · intro m a b hm
    have hlt : m < g.nodes.length := foreach_fanin_lt g m a b hm
    have := h m (lt_of_lt_of_le hlt (le_max_left _ _))
    have hm2 : foreach_fanin g m = [a, b] := hm
    rw [hm2] at this
    simpa [get_node, aig] using this
  · intro m hm
    have hm2 : foreach_fanin g m = [] := hm
    by_cases hlt : m < max g.nodes.length g.levels.length
    · have := h m hlt
      rw [hm2] at this
      simpa [aig] using this
    · show level g m = 0
      unfold level
      rw [List.getD_eq_getElem?_getD, List.getElem?_eq_none]
      · rfl
      · have := le_max_right g.nodes.length g.levels.length
        omega

theorem acyclic_of_recurrence (g : Aig) (h : level_recurrence aig g) : g.acyclic := by
  refine ⟨fun i => level g i, ?_⟩
  intro i a b hi
  have := h.1 i a b hi
  simp only [get_node, aig] at this
  show level g a.index < level g i ∧ level g b.index < level g i
  omega

theorem crit_ok_closed (g : Aig) (h : g.crit_ok = true) :
    critical_path_closed aig g ∧ outputs_critical g := by
  simp only [crit_ok, Bool.and_eq_true, List.all_eq_true, List.mem_range, Bool.or_eq_true,
    Bool.not_eq_true', Bool.and_eq_false_imp, beq_iff_eq, beq_eq_false_iff_ne, ne_eq] at h
  constructor
  · intro m a b hm hc
    have hm2 : foreach_fanin g m = [a, b] := hm
    have := h.1 m (foreach_fanin_lt g m a b hm2)
    rw [hm2] at this
    have h1 := this a (by simp)
    have h2 := this b (by simp)
    simp only [get_node, aig] at *
    constructor
    · intro hl
      rcases h1 with h1 | h1
      · exact absurd hl (h1 hc)
      · exact h1
    · intro hl
      rcases h2 with h2 | h2
      · exact absurd hl (h2 hc)
      · exact h2
  · intro f hf hl
    rcases h.2 f hf with h1 | h1
    · exact absurd hl h1
    · exact h1

end Aig

/-! ## Levels of the concrete network -/

namespace Aig

theorem level_of_gate (g : Aig) (k i : Nat) (a b : Signal) (h : foreach_fanin g i = [a, b]) :
    level_of g.nodes (k + 1) i
      = 1 + max (level_of g.nodes k a.index) (level_of g.nodes k b.index) := by
  rw [foreach_fanin_pair] at h
  rw [level_of, List.getD_eq_getElem?_getD, h]
  rfl

theorem level_of_leaf (g : Aig) (k i : Nat) (h : foreach_fanin g i = []) :
    level_of g.nodes k i = 0 := by
  cases k with
  | zero => rfl
  | succ k =>
    unfold foreach_fanin at h
    rw [level_of]
    split
    · rename_i a b hab
      rw [hab] at h
      simp at h
    · rfl

theorem level_of_le (g : Aig) (k : Nat) : ∀ i, level_of g.nodes k i ≤ k := by
  induction k with
  | zero => intro i; simp [level_of]
  | succ k ih =>
    intro i
    rcases foreach_fanin_cases g i with he | ⟨a, b, he⟩
    · rw [level_of_leaf g _ i he]; omega
    · rw [level_of_gate g k i a b he]
      have := ih a.index
      have := ih b.index
      omega

theorem level_of_stable (g : Aig) (k : Nat) :
    ∀ i, level_of g.nodes k i < k → level_of g.nodes (k + 1) i = level_of g.nodes k i := by
  induction k with
  | zero => intro i h; omega
  | succ k ih =>
    intro i h
    rcases foreach_fanin_cases g i with he | ⟨a, b, he⟩
    · rw [level_of_leaf g _ i he, level_of_leaf g _ i he]
    · rw [level_of_gate g k i a b he] at h ⊢
      rw [level_of_gate g (k + 1) i a b he]
      rw [ih a.index (by omega), ih b.index (by omega)]

theorem level_of_stable_le (g : Aig) (k k2 : Nat) (hk : k ≤ k2) (i : Nat)
    (h : level_of g.nodes k i < k) : level_of g.nodes k2 i = level_of g.nodes k i := by
  induction hk with
  | refl => rfl
  | step hle ih =>
    rename_i m
    rw [level_of_stable g m i (by rw [ih]; exact lt_of_lt_of_le h hle), ih]

/-- A node function that dominates the recurrence bounds the computed levels. -/
theorem level_of_le_rank (g : Aig) (r : Nat → Nat)
    (hr : ∀ i a b, foreach_fanin g i = [a, b] → r a.index < r i ∧ r b.index < r i) (k : Nat) :
    ∀ i, level_of g.nodes k i ≤ r i := by
  induction k with
  | zero => intro i; simp [level_of]
  | succ k ih =>
    intro i
    rcases foreach_fanin_cases g i with he | ⟨a, b, he⟩
    · rw [level_of_leaf g _ i he]; omega
    · rw [level_of_gate g k i a b he]
      have := hr i a b he
      have := ih a.index
      have := ih b.index
      omega

theorem below_lt (g : Aig) (r : Nat → Nat) (i : Nat) (hi : i < g.nodes.length) :
    below g r i < g.nodes.length := by
  unfold below
  have hss : (Finset.range g.nodes.length).filter (fun m => r m < r i)
      ⊂ Finset.range g.nodes.length := by
    rw [Finset.ssubset_iff_of_subset (Finset.filter_subset _ _)]
    exact ⟨i, Finset.mem_range.2 hi, by simp⟩
  have := Finset.card_lt_card hss
  simpa using this

theorem below_mono (g : Aig) (r : Nat → Nat) (a i : Nat) (ha : a < g.nodes.length)
    (hr : r a < r i) : below g r a + 1 ≤ below g r i := by
  unfold below
  have hnot : a ∉ (Finset.range g.nodes.length).filter (fun m => r m < r a) := by simp
  rw [← Finset.card_insert_of_not_mem hnot]
  apply Finset.card_le_card
  intro m hm
  simp only [Finset.mem_insert, Finset.mem_filter, Finset.mem_range] at hm ⊢
  rcases hm with rfl | ⟨h1, h2⟩
  · exact ⟨ha, hr⟩
  · exact ⟨h1, by omega⟩

theorem level_of_le_below (g : Aig) (hw : g.wf = true) (r : Nat → Nat)
    (hr : ∀ i a b, foreach_fanin g i = [a, b] → r a.index < r i ∧ r b.index < r i) (k : Nat) :
    ∀ i, level_of g.nodes k i ≤ below g r i := by
  induction k with
  | zero => intro i; simp [level_of]
  | succ k ih =>
    intro i
    rcases foreach_fanin_cases g i with he | ⟨a, b, he⟩
    · rw [level_of_leaf g _ i he]; omega
    · rw [level_of_gate g k i a b he]
      have h1 := hr i a b he
      have h2 := wf_fanin g hw i a b he
      have := below_mono g r a.index i h2.1 h1.1
      have := below_mono g r b.index i h2.2 h1.2
      have := ih a.index
      have := ih b.index
      omega

theorem wf_length_pos (g : Aig) (hw : g.wf = true) : 0 < g.nodes.length :=
  (List.getElem?_eq_some_iff.1 (wf_constant g hw)).1

theorem foreach_fanin_out_of_range (g : Aig) (i : Nat) (hi : g.nodes.length ≤ i) :
    foreach_fanin g i = [] := by
  rcases foreach_fanin_cases g i with he | ⟨a, b, he⟩
  · exact he
  · have := foreach_fanin_lt g i a b he
    omega

/-- On a well-formed acyclic graph no level computation runs out of fuel. -/
theorem level_of_lt_length (g : Aig) (hw : g.wf = true) (hac : g.acyclic) (k i : Nat) :
    level_of g.nodes k i < g.nodes.length := by
  obtain ⟨r, hr⟩ := hac
  by_cases hi : i < g.nodes.length
  · exact lt_of_le_of_lt (level_of_le_below g hw r hr k i) (below_lt g r i hi)
  · rw [level_of_leaf g k i (foreach_fanin_out_of_range g i (by omega))]
    exact wf_length_pos g hw

theorem level_of_fanin_lt (g : Aig) (hw : g.wf = true) (hac : g.acyclic) (k i : Nat)
    (a b : Signal) (he : foreach_fanin g i = [a, b]) :
    level_of g.nodes k a.index + 1 < g.nodes.length
      ∧ level_of g.nodes k b.index + 1 < g.nodes.length := by
  obtain ⟨r, hr⟩ := hac
  have h1 := hr i a b he
  have h2 := wf_fanin g hw i a b he
  have h3 := below_lt g r i (foreach_fanin_lt g i a b he)
  have := below_mono g r a.index i h2.1 h1.1
  have := below_mono g r b.index i h2.2 h1.2
  have := level_of_le_below g hw r hr k a.index
  have := level_of_le_below g hw r hr k b.index
  omega

theorem lv_gate (g : Aig) (hw : g.wf = true) (hac : g.acyclic) (i : Nat) (a b : Signal)
    (he : foreach_fanin g i = [a, b]) : lv g i = 1 + max (lv g a.index) (lv g b.index) := by
  unfold lv
  have hpos := wf_length_pos g hw
  obtain ⟨m, hm⟩ : ∃ m, g.nodes.length = m + 1 := ⟨g.nodes.length - 1, by omega⟩
  have hf := level_of_fanin_lt g hw hac m i a b he
  rw [hm] at hf ⊢
  rw [level_of_gate g m i a b he, level_of_stable g m a.index (by omega),
    level_of_stable g m b.index (by omega)]

theorem lv_leaf (g : Aig) (i : Nat) (he : foreach_fanin g i = []) : lv g i = 0 :=
  level_of_leaf g _ i he

theorem lv_fuel (g : Aig) (hw : g.wf = true) (hac : g.acyclic) (k i : Nat)
    (hk : g.nodes.length ≤ k) : level_of g.nodes k i = lv g i :=
  level_of_stable_le g _ k hk i (level_of_lt_length g hw hac _ i)

/-- The computed levels are the only solution of the recurrence. -/
theorem lv_unique (g : Aig) (hw : g.wf = true) (hac : g.acyclic) (L : Nat → Nat)
    (hg : ∀ i a b, foreach_fanin g i = [a, b] → L i = 1 + max (L a.index) (L b.index))
    (hl : ∀ i, foreach_fanin g i = [] → L i = 0) : ∀ i, L i = lv g i := by
  have key : ∀ m i, L i ≤ m → L i = lv g i := by
    intro m
    induction m with
    | zero =>
      intro i hi
      rcases foreach_fanin_cases g i with he | ⟨a, b, he⟩
      · rw [hl i he, lv_leaf g i he]
      · have := hg i a b he
        omega
    | succ m ih =>
      intro i hi
      rcases foreach_fanin_cases g i with he | ⟨a, b, he⟩
      · rw [hl i he, lv_leaf g i he]
      · have h1 := hg i a b he
        rw [lv_gate g hw hac i a b he, ← ih a.index (by omega), ← ih b.index (by omega)]
        exact h1
  intro i
  exact key (L i) i le_rfl

theorem level_eq_lv (g : Aig) (hw : g.wf = true) (hrec : level_recurrence aig g) (i : Nat) :
    level g i = lv g i :=
  lv_unique g hw (acyclic_of_recurrence g hrec) (fun i => level g i)
    (fun i a b he => hrec.1 i a b he) (fun i he => hrec.2 i he) i

theorem update_levels_level (g : Aig) (i : Nat) :
    level (update_levels g) i = lv g i := by
  unfold level update_levels lv
  simp only
  rw [List.getD_eq_getElem?_getD]
  by_cases hi : i < g.nodes.length
  · rw [List.getElem?_eq_getElem (by simpa using hi)]
    simp
  · rw [List.getElem?_eq_none (by simpa using hi)]
    simp only [Option.getD_none]
    exact (level_of_leaf g _ i (foreach_fanin_out_of_range g i (by omega))).symm

theorem update_levels_fanin (g : Aig) (i : Nat) :
    foreach_fanin (update_levels g) i = foreach_fanin g i := rfl

theorem update_levels_wf (g : Aig) : (update_levels g).wf = g.wf := rfl

theorem update_levels_recurrence (g : Aig) (hw : g.wf = true) (hac : g.acyclic) :
    level_recurrence aig (update_levels g) := by
  constructor
  · intro m a b hm
    show level (update_levels g) m
      = 1 + max (level (update_levels g) a.index) (level (update_levels g) b.index)
    rw [update_levels_level, update_levels_level, update_levels_level]
    exact lv_gate g hw hac m a b hm
  · intro m hm
    show level (update_levels g) m = 0
    rw [update_levels_level]
    exact lv_leaf g m hm

end Aig

/-! ## Levels under `create_and` and `substitute_node` -/

namespace Aig

/-- Appending nodes does not change the computed level of the nodes already there. -/
theorem lv_extends (g g2 : Aig) (hex : extends_graph g g2) (hw : g.wf = true)
    (hac : g.acyclic) (hw2 : g2.wf = true) (hac2 : g2.acyclic) (i : Nat)
    (hi : i < g.nodes.length) : lv g2 i = lv g i := by
  have hu := lv_unique g hw hac (fun j => if j < g.nodes.length then lv g2 j else 0) ?_ ?_ i
  · simpa [hi] using hu
  · intro j a b he
    have hj := foreach_fanin_lt g j a b he
    have hab := wf_fanin g hw j a b he
    simp only [hj, hab.1, hab.2, if_true]
    have he2 : foreach_fanin g2 j = [a, b] := by rw [extends_fanin g g2 hex j hj]; exact he
    exact lv_gate g2 hw2 hac2 j a b he2
  · intro j he
    by_cases hj : j < g.nodes.length
    · simp only [hj, if_true]
      have he2 : foreach_fanin g2 j = [] := by rw [extends_fanin g g2 hex j hj]; exact he
      exact lv_leaf g2 j he2
    · simp [hj]

theorem lv_zero (g : Aig) (hw : g.wf = true) : lv g 0 = 0 := by
  apply lv_leaf
  rcases foreach_fanin_cases g 0 with he | ⟨a, b, he⟩
  · exact he
  · rw [foreach_fanin_pair, wf_constant g hw] at he
    simp at he

theorem create_and_ordered_level (g : Aig) (lo hi : Signal) (hw : g.wf = true)
    (hac : g.acyclic) (hlo : lo.index < g.nodes.length) (hhi : hi.index < g.nodes.length) :
    lv (create_and_ordered g lo hi).2 (create_and_ordered g lo hi).1.index
      ≤ 1 + max (lv g lo.index) (lv g hi.index) := by
  obtain ⟨hw2, -, hac2⟩ := create_and_ordered_wf g lo hi hw hlo hhi
  have hac2 := hac2 hac
  have hex := create_and_ordered_extends g lo hi
  have elo := lv_extends g _ hex hw hac hw2 hac2 lo.index hlo
  have ehi := lv_extends g _ hex hw hac hw2 hac2 hi.index hhi
  rcases create_and_ordered_result g lo hi with h | h | h | ⟨-, hf⟩
  · rw [h, elo]; omega
  · rw [h, ehi]; omega
  · rw [h, lv_zero _ hw2]; omega
  · rw [lv_gate _ hw2 hac2 _ lo hi hf, elo, ehi]

theorem create_and_level (g : Aig) (a b : Signal) (hw : g.wf = true)
    (hac : g.acyclic) (ha : a.index < g.nodes.length) (hb : b.index < g.nodes.length) :
    lv (create_and g a b).2 (create_and g a b).1.index
      ≤ 1 + max (lv g a.index) (lv g b.index) := by
  unfold create_and
  split_ifs
  · rw [max_comm]
    exact create_and_ordered_level g b a hw hac hb ha
  · exact create_and_ordered_level g a b hw hac ha hb

/-- One `create_and` call on a well-formed acyclic graph, with all that the level
reasoning needs. -/
theorem create_and_step (g : Aig) (a b : Signal) (hw : g.wf = true)
    (hac : g.acyclic) (ha : a.index < g.nodes.length) (hb : b.index < g.nodes.length) :
    extends_graph g (create_and g a b).2
      ∧ (create_and g a b).2.wf = true ∧ (create_and g a b).2.acyclic
      ∧ (create_and g a b).1.index < (create_and g a b).2.nodes.length
      ∧ (∀ i, i < g.nodes.length → lv (create_and g a b).2 i = lv g i)
      ∧ lv (create_and g a b).2 (create_and g a b).1.index
          ≤ 1 + max (lv g a.index) (lv g b.index) := by
  obtain ⟨hw2, hlt, hac2⟩ := create_and_wf g a b hw ha hb
  exact ⟨create_and_extends g a b, hw2, hac2 hac, hlt,
    fun i hi => lv_extends g _ (create_and_extends g a b) hw hac hw2 (hac2 hac) i hi,
    create_and_level g a b hw hac ha hb⟩

theorem substitute_node_fanin (g : Aig) (old : Nat) (t : Signal) (i : Nat) :
    foreach_fanin (substitute_node g old t) i = (foreach_fanin g i).map (redirect old t) := by
  unfold foreach_fanin substitute_node
  simp only [List.getD_eq_getElem?_getD, List.getElem?_map]
  cases hn : g.nodes[i]? with
  | none => simp
  | some nd => cases nd <;> simp [redirect_node]

theorem substitute_node_fanin_pair (g : Aig) (old : Nat) (t : Signal) (i : Nat)
    (a2 b2 : Signal) (h : foreach_fanin (substitute_node g old t) i = [a2, b2]) :
    ∃ a b, foreach_fanin g i = [a, b] ∧ a2 = redirect old t a ∧ b2 = redirect old t b := by
  rw [substitute_node_fanin] at h
  rcases foreach_fanin_cases g i with he | ⟨a, b, he⟩
  · rw [he] at h; simp at h
  · rw [he] at h
    simp only [List.map_cons, List.map_nil, List.cons.injEq, and_true] at h
    exact ⟨a, b, he, h.1.symm, h.2.symm⟩

theorem redirect_index (old : Nat) (t f : Signal) :
    (redirect old t f).index = if f.index = old then t.index else f.index := by
  unfold redirect
  split_ifs <;> rfl

theorem substitute_node_length (g : Aig) (old : Nat) (t : Signal) :
    (substitute_node g old t).nodes.length = g.nodes.length := by
  simp [substitute_node]

theorem substitute_node_wf (g : Aig) (old : Nat) (t : Signal) (hw : g.wf = true)
    (ht : t.index < g.nodes.length) : (substitute_node g old t).wf = true := by
  apply wf_intro
  · have h0 := wf_constant g hw
    show (g.nodes.map (redirect_node old t))[0]? = _
    rw [List.getElem?_map, h0]
    rfl
  · intro i a2 b2 h
    obtain ⟨a, b, he, rfl, rfl⟩ := substitute_node_fanin_pair g old t i a2 b2 h
    have := wf_fanin g hw i a b he
    rw [substitute_node_length, redirect_index, redirect_index]
    constructor <;> split_ifs <;> omega
  · intro f hf
    simp only [substitute_node, List.mem_map] at hf
    obtain ⟨f0, hf0, rfl⟩ := hf
    have := wf_output g hw f0 hf0
    rw [substitute_node_length, redirect_index]
    split_ifs <;> omega

/-- After a substitution by a signal that is not above the substituted node, the levels of
the graph before still rank the graph. -/
theorem substitute_node_rank (g : Aig) (old : Nat) (t : Signal) (hw : g.wf = true)
    (hac : g.acyclic) (hle : lv g t.index ≤ lv g old) (i : Nat) (a2 b2 : Signal)
    (h : foreach_fanin (substitute_node g old t) i = [a2, b2]) :
    lv g a2.index < lv g i ∧ lv g b2.index < lv g i := by
  obtain ⟨a, b, he, rfl, rfl⟩ := substitute_node_fanin_pair g old t i a2 b2 h
  have := lv_gate g hw hac i a b he
  rw [redirect_index, redirect_index]
  constructor
  · split_ifs with h1
    · rw [← h1] at hle; omega
    · omega
  · split_ifs with h1
    · rw [← h1] at hle; omega
    · omega

theorem substitute_node_acyclic (g : Aig) (old : Nat) (t : Signal) (hw : g.wf = true)
    (hac : g.acyclic) (hle : lv g t.index ≤ lv g old) : (substitute_node g old t).acyclic :=
  ⟨fun i => lv g i, substitute_node_rank g old t hw hac hle⟩

theorem substitute_node_level_le (g : Aig) (old : Nat) (t : Signal) (hw : g.wf = true)
    (hac : g.acyclic) (hle : lv g t.index ≤ lv g old) (i : Nat) :
    lv (substitute_node g old t) i ≤ lv g i :=
  level_of_le_rank (substitute_node g old t) (fun i => lv g i)
    (substitute_node_rank g old t hw hac hle) _ i

theorem depth_of_le (lv1 lv2 : List Nat) (o1 o2 : List Signal)
    (h : ∀ f ∈ o1, ∃ f2 ∈ o2, lv1.getD f.index 0 ≤ lv2.getD f2.index 0) :
    depth_of lv1 o1 ≤ depth_of lv2 o2 := by
  unfold depth_of
  induction o1 with
  | nil => simp
  | cons f rest ih =>
    simp only [List.map_cons, List.foldr_cons]
    apply max_le
    · obtain ⟨f2, hf2, hle⟩ := h f (by simp)
      refine le_trans hle ?_
      clear h ih
      induction o2 with
      | nil => simp at hf2
      | cons x xs ih2 =>
        simp only [List.map_cons, List.foldr_cons]
        simp only [List.mem_cons] at hf2
        rcases hf2 with rfl | hf2
        · exact le_max_left _ _
        · exact le_trans (ih2 hf2) (le_max_right _ _)
    · exact ih (fun f hf => h f (by simp [hf]))

theorem level_le_depth (g : Aig) (f : Signal) (hf : f ∈ g.outputs) :
    level g f.index ≤ depth g := by
  unfold depth level
  have := depth_of_le g.levels g.levels [f] g.outputs
    (fun x hx => ⟨f, hf, by simp at hx; rw [hx]⟩)
  simpa [depth_of] using this

end Aig

/-! ## One successful rewrite on the concrete network -/

namespace Aig

theorem try_algebraic_rules_fires (g : Aig) (n : Nat)
    (hf : (try_algebraic_rules aig g n).1 = true) :
    ((try_associativity aig g n).1 = true
        ∧ (try_algebraic_rules aig g n).2 = (try_associativity aig g n).2)
    ∨ ((try_distributivity aig g n).1 = true
        ∧ (try_algebraic_rules aig g n).2 = (try_distributivity aig g n).2)
    ∨ ((try_three_level_distributivity aig g n).1 = true
        ∧ (try_algebraic_rules aig g n).2 = (try_three_level_distributivity aig g n).2) := by
  simp only [try_algebraic_rules] at hf ⊢
  cases h1 : (try_associativity aig g n).1
  · have e1 := try_associativity_decline aig g n h1
    simp only [h1, e1] at hf ⊢
    cases h2 : (try_distributivity aig g n).1
    · have e2 := try_distributivity_decline aig g n h2
      simp only [h2, e2] at hf ⊢
      cases h3 : (try_three_level_distributivity aig g n).1
      · simp [h3] at hf
      · simp
    · simp
  · simp

theorem replacement_ok_create (g g2 : Aig) (t : Signal) (bound : Nat) (a b : Signal)
    (hex : extends_graph g g2) (hw2 : g2.wf = true) (hac2 : g2.acyclic)
    (hold : ∀ i, i < g.nodes.length → lv g2 i = lv g i)
    (ha : a.index < g2.nodes.length) (hb : b.index < g2.nodes.length)
    (ht : t = (create_and g2 a b).1)
    (hbound : 1 + max (lv g2 a.index) (lv g2 b.index) ≤ bound) :
    replacement_ok g (create_and g2 a b).2 t bound := by
  obtain ⟨h1, h2, h3, h4, h5, h6⟩ := create_and_step g2 a b hw2 hac2 ha hb
  subst ht
  refine ⟨extends_trans g g2 _ hex h1, h2, h3, h4, ?_, le_trans h6 hbound⟩
  intro i hi
  rw [h5 i (lt_of_lt_of_le hi (extends_length g g2 hex)), hold i hi]

theorem assoc_replacement_ok (g : Aig) (hw : g.wf = true) (hrec : level_recurrence aig g)
    (n : Nat) (c0 c1 g0 g1 : Signal) (hm : assoc_fires aig g n c0 c1 g0 g1) :
    replacement_ok g (assoc_replacement aig g c1 g0 g1).2 (assoc_replacement aig g c1 g0 g1).1
      (assoc_replacement_level aig g c1 g0 g1) := by
  have hac := acyclic_of_recurrence g hrec
  obtain ⟨-, hc, -, -, -, -, hg, -⟩ := hm
  obtain ⟨-, hc1, -⟩ := sorted_fanins_lt g hw n c0 c1 hc
  obtain ⟨hg0, hg1, -⟩ := sorted_fanins_lt g hw c0.index g0 g1 hg
  obtain ⟨h1, h2, h3, h4, h5, h6⟩ := create_and_step g c1 g1 hw hac hc1 hg1
  have hlen := extends_length g _ h1
  refine replacement_ok_create g (create_and g c1 g1).2 _ _ (create_and g c1 g1).1 g0 h1 h2
    h3 h5 h4 (by omega) rfl ?_
  rw [h5 g0.index hg0]
  simp only [assoc_replacement_level, get_node]
  show _ ≤ max (level g g0.index) (1 + max (level g c1.index) (level g g1.index)) + 1
  rw [level_eq_lv g hw hrec, level_eq_lv g hw hrec, level_eq_lv g hw hrec]
  omega

theorem signal_not_index (f : Signal) : f.not.index = f.index := rfl

theorem aig_create_and (g : Aig) (a b : Signal) : aig.create_and g a b = create_and g a b :=
  rfl

theorem replacement_ok_not (g g2 : Aig) (t : Signal) (bound : Nat)
    (h : replacement_ok g g2 t bound) : replacement_ok g g2 t.not bound := h

theorem dist_replacement_ok (g : Aig) (hw : g.wf = true) (hrec : level_recurrence aig g)
    (n : Nat) (c0 c1 a0 a1 b0 b1 : Signal) (hm : dist_fires aig g n c0 c1 a0 a1 b0 b1) :
    replacement_ok g (dist_replacement aig g a0 a1 b1).2 (dist_replacement aig g a0 a1 b1).1.not
      (dist_replacement_level aig g a0 a1 b1) := by
  have hac := acyclic_of_recurrence g hrec
  obtain ⟨-, -, -, -, -, -, -, -, ha, -, -, hb, -, -, -, -⟩ := hm
  obtain ⟨ha0, ha1, -⟩ := sorted_fanins_lt g hw c0.index a0 a1 ha
  obtain ⟨-, hb1, -⟩ := sorted_fanins_lt g hw c1.index b0 b1 hb
  obtain ⟨h1, h2, h3, h4, h5, h6⟩ := create_and_step g a1.not b1.not hw hac ha1 hb1
  have hlen := extends_length g _ h1
  apply replacement_ok_not
  refine replacement_ok_create g (create_and g a1.not b1.not).2 _ _ a0
    (create_and g a1.not b1.not).1.not h1 h2 h3 h5 (by omega) h4 rfl ?_
  rw [h5 a0.index ha0]
  simp only [dist_replacement_level, get_node, signal_not_index] at h6 ⊢
  show _ ≤ 1 + max (level g a0.index) (1 + max (level g a1.index) (level g b1.index))
  rw [level_eq_lv g hw hrec, level_eq_lv g hw hrec, level_eq_lv g hw hrec]
  omega

theorem three_replacement_ok (g : Aig) (hw : g.wf = true) (hrec : level_recurrence aig g)
    (n : Nat) (c0 c1 nep0 nep1 gn0 gn1 : Signal)
    (hm : three_fires aig g n c0 c1 nep0 nep1 gn0 gn1) :
    replacement_ok g (three_replacement aig g c1 nep1 gn0 gn1).2.2.2.2
      (three_replacement aig g c1 nep1 gn0 gn1).2.2.2.1.not
      (three_replacement_level aig g c1 nep1 gn0 gn1) := by
  have hac := acyclic_of_recurrence g hrec
  obtain ⟨-, hc, -, -, -, -, hnep, -, -, -, hgn, -⟩ := hm
  obtain ⟨-, hc1, -⟩ := sorted_fanins_lt g hw n c0 c1 hc
  obtain ⟨-, hnep1, -⟩ := sorted_fanins_lt g hw c0.index nep0 nep1 hnep
  obtain ⟨hgn0, hgn1, -⟩ := sorted_fanins_lt g hw nep0.index gn0 gn1 hgn
  obtain ⟨h1, h2, h3, h4, h5, h6⟩ := create_and_step g nep1.not c1 hw hac hnep1 hc1
  have hlen1 := extends_length g _ h1
  obtain ⟨k1, k2, k3, k4, k5, k6⟩ :=
    create_and_step (create_and g nep1.not c1).2 gn1 c1 h2 h3 (by omega) (by omega)
  have hlen2 := extends_length _ _ k1
  obtain ⟨m1, m2, m3, m4, m5, m6⟩ :=
    create_and_step (create_and (create_and g nep1.not c1).2 gn1 c1).2 gn0
      (create_and (create_and g nep1.not c1).2 gn1 c1).1 k2 k3 (by omega) k4
  have hlen3 := extends_length _ _ m1
  have hex3 := extends_trans g _ _ (extends_trans g _ _ h1 k1) m1
  have hold3 : ∀ i, i < g.nodes.length →
      lv (create_and (create_and (create_and g nep1.not c1).2 gn1 c1).2 gn0
        (create_and (create_and g nep1.not c1).2 gn1 c1).1).2 i = lv g i := by
    intro i hi
    rw [m5 i (by omega), k5 i (by omega), h5 i hi]
  apply replacement_ok_not
  refine replacement_ok_create g _ _ _
    (create_and (create_and (create_and g nep1.not c1).2 gn1 c1).2 gn0
        (create_and (create_and g nep1.not c1).2 gn1 c1).1).1.not
    (create_and g nep1.not c1).1.not hex3 m2 m3 hold3 m4
    (lt_of_lt_of_le h4 (le_trans hlen2 hlen3)) rfl ?_
  simp only [signal_not_index, aig_create_and] at h6 k6 m6 ⊢
  rw [h5 gn1.index hgn1, h5 c1.index hc1] at k6
  rw [k5 gn0.index (by omega), h5 gn0.index hgn0] at m6
  rw [m5 (create_and g nep1.not c1).1.index (by omega),
    k5 (create_and g nep1.not c1).1.index h4]
  simp only [three_replacement_level, get_node]
  show _ ≤ 1 + max (1 + max (level g gn0.index) (1 + max (level g gn1.index) (level g c1.index)))
    (1 + max (level g nep1.index) (level g c1.index))
  rw [level_eq_lv g hw hrec, level_eq_lv g hw hrec, level_eq_lv g hw hrec,
    level_eq_lv g hw hrec]
  omega

/-- A successful `try_algebraic_rules` on a well-formed graph whose levels satisfy the
recurrence: the state after the call is a substitution of `n` by a replacement built over
`g` whose level is at most the level of `n`, and strictly less when the annotation is
coherent. -/
theorem try_algebraic_rules_step (g : Aig) (hw : g.wf = true)
    (hrec : level_recurrence aig g) (n : Nat)
    (hf : (try_algebraic_rules aig g n).1 = true) :
    ∃ g2 t bound, replacement_ok g g2 t bound ∧ bound ≤ level g n
      ∧ (critical_path_closed aig g → bound < level g n)
      ∧ is_on_critical_path g n = true ∧ n < g.nodes.length
      ∧ (foreach_fanin g n).length = 2
      ∧ (try_algebraic_rules aig g n).2 = substitute_node g2 n t := by
  rcases try_algebraic_rules_fires g n hf with ⟨h1, e⟩ | ⟨h1, e⟩ | ⟨h1, e⟩
  · obtain ⟨c0, c1, g0, g1, hm, hr⟩ := try_associativity_fires aig g n h1
    obtain ⟨x, y, hxy, -⟩ := sorted_fanins_unfold aig g n c0 c1 hm.2.1
    have hxy2 : foreach_fanin g n = [x, y] := hxy
    exact ⟨_, _, _, assoc_replacement_ok g hw hrec n c0 c1 g0 g1 hm,
      le_of_lt (assoc_level_bound aig g n c0 c1 g0 g1 hrec hm),
      fun _ => assoc_level_bound aig g n c0 c1 g0 g1 hrec hm, hm.1,
      foreach_fanin_lt g n x y hxy, by rw [hxy2]; rfl, e.trans hr⟩
  · obtain ⟨c0, c1, a0, a1, b0, b1, hm, hr⟩ := try_distributivity_fires aig g n h1
    have hxy2 : foreach_fanin g n = [c0, c1] := hm.2.1
    exact ⟨_, _, _, dist_replacement_ok g hw hrec n c0 c1 a0 a1 b0 b1 hm,
      dist_level_bound_weak aig g n c0 c1 a0 a1 b0 b1 hrec hm,
      fun hc => dist_level_bound aig g n c0 c1 a0 a1 b0 b1 ⟨hrec, hc⟩ hm, hm.1,
      foreach_fanin_lt g n c0 c1 hxy2, by rw [hxy2]; rfl, e.trans hr⟩
  · obtain ⟨c0, c1, nep0, nep1, gn0, gn1, hm, hr⟩ :=
      try_three_level_distributivity_fires aig g n h1
    obtain ⟨x, y, hxy, -⟩ := sorted_fanins_unfold aig g n c0 c1 hm.2.1
    have hxy2 : foreach_fanin g n = [x, y] := hxy
    have hb := three_level_bound_weak aig g n c0 c1 nep0 nep1 gn0 gn1 hrec hm
    refine ⟨_, _, _, three_replacement_ok g hw hrec n c0 c1 nep0 nep1 gn0 gn1 hm,
      hb, fun hc => ?_, hm.1, foreach_fanin_lt g n x y hxy, by rw [hxy2]; rfl, e.trans hr⟩
    have := three_level_bound aig g n c0 c1 nep0 nep1 gn0 gn1 ⟨hrec, hc⟩ hm
    show three_replacement_level aig g c1 nep1 gn0 gn1 < aig.level g n
    omega

end Aig

/-! ## The depth does not increase -/

namespace Aig

theorem update_levels_getD (g : Aig) (i : Nat) :
    (update_levels g).levels.getD i 0 = lv g i := update_levels_level g i

/-- The state after a successful rewrite and `update_levels`: it is well-formed, its levels
satisfy the recurrence, no node is deeper than before, and the depth has not increased. -/
theorem rewrite_levels (g g2 : Aig) (t : Signal) (bound n : Nat) (hw : g.wf = true)
    (hrec : level_recurrence aig g) (hok : replacement_ok g g2 t bound)
    (hb : bound ≤ level g n) (hn : n < g.nodes.length) :
    (update_levels (substitute_node g2 n t)).wf = true
      ∧ level_recurrence aig (update_levels (substitute_node g2 n t))
      ∧ (substitute_node g2 n t).acyclic
      ∧ (∀ i, level (update_levels (substitute_node g2 n t)) i ≤ lv g2 i)
      ∧ (∀ i, i < g.nodes.length → lv g2 i = level g i)
      ∧ lv g2 t.index ≤ level g n
      ∧ depth (update_levels (substitute_node g2 n t)) ≤ depth g := by
  obtain ⟨hex, hw2, hac2, ht, hold, hlt⟩ := hok
  have hold2 : ∀ i, i < g.nodes.length → lv g2 i = level g i := by
    intro i hi
    rw [hold i hi, level_eq_lv g hw hrec]
  have hle : lv g2 t.index ≤ lv g2 n := by
    rw [hold2 n hn]; omega
  have hw3 := substitute_node_wf g2 n t hw2 ht
  have hac3 := substitute_node_acyclic g2 n t hw2 hac2 hle
  have hlev : ∀ i, level (update_levels (substitute_node g2 n t)) i ≤ lv g2 i := by
    intro i
    rw [update_levels_level]
    exact substitute_node_level_le g2 n t hw2 hac2 hle i
  refine ⟨hw3, update_levels_recurrence _ hw3 hac3, hac3, hlev, hold2, by omega, ?_⟩
  unfold depth
  apply depth_of_le
  intro f2 hf2
  have hf2' : f2 ∈ (g.outputs.map (redirect n t)) := by
    have : (update_levels (substitute_node g2 n t)).outputs
        = g2.outputs.map (redirect n t) := rfl
    rw [this, hex.2.1] at hf2
    exact hf2
  obtain ⟨f, hf, rfl⟩ := List.mem_map.1 hf2'
  refine ⟨f, hf, ?_⟩
  have h1 := hlev (redirect n t f).index
  have hfr := wf_output g hw f hf
  have h2 : lv g2 (redirect n t f).index ≤ level g f.index := by
    rw [redirect_index]
    split_ifs with hfn
    · rw [hfn]; omega
    · rw [hold2 f.index hfr]
  exact le_trans h1 h2

theorem rewrite_depth (g : Aig) (hw : g.wf = true) (hrec : level_recurrence aig g) (n : Nat)
    (hf : (try_algebraic_rules aig g n).1 = true) :
    (update_levels (try_algebraic_rules aig g n).2).wf = true
      ∧ level_recurrence aig (update_levels (try_algebraic_rules aig g n).2)
      ∧ depth (update_levels (try_algebraic_rules aig g n).2) ≤ depth g := by
  obtain ⟨g2, t, bound, hok, hb, -, -, hn, -, e⟩ := try_algebraic_rules_step g hw hrec n hf
  rw [e]
  obtain ⟨h1, h2, -, -, -, -, h3⟩ := rewrite_levels g g2 t bound n hw hrec hok hb hn
  exact ⟨h1, h2, h3⟩

theorem sweep_depth (l : List Nat) :
    ∀ (g : Aig) (cont : Bool), g.wf = true → level_recurrence aig g →
      (sweep aig l g cont).1.wf = true ∧ level_recurrence aig (sweep aig l g cont).1
        ∧ depth (sweep aig l g cont).1 ≤ depth g := by
  induction l with
  | nil => intro g cont hw hrec; exact ⟨hw, hrec, le_rfl⟩
  | cons n rest ih =>
    intro g cont hw hrec
    cases h1 : (try_algebraic_rules aig g n).1
    · have h2 := (try_algebraic_rules_decline aig g n h1).1
      simp only [sweep, h1, h2]
      exact ih g cont hw hrec
    · simp only [sweep, h1]
      obtain ⟨a1, a2, a3⟩ := rewrite_depth g hw hrec n h1
      obtain ⟨b1, b2, b3⟩ := ih _ true a1 a2
      exact ⟨b1, b2, le_trans b3 a3⟩

theorem run_depth (fuel : Nat) :
    ∀ (g g2 : Aig), g.wf = true → level_recurrence aig g → run aig fuel g = some g2 →
      g2.wf = true ∧ level_recurrence aig g2 ∧ depth g2 ≤ depth g := by
  induction fuel with
  | zero => intro g g2 _ _ hr; simp [run] at hr
  | succ fuel ih =>
    intro g g2 hw hrec hr
    simp only [run] at hr
    obtain ⟨a1, a2, a3⟩ := sweep_depth (aig.foreach_gate g) g false hw hrec
    cases hc : (sweep aig (aig.foreach_gate g) g false).2
    · simp only [hc] at hr
      have e : (sweep aig (aig.foreach_gate g) g false).1 = g2 := by simpa using hr
      rw [e] at a1 a2 a3
      exact ⟨a1, a2, a3⟩
    · simp only [hc] at hr
      obtain ⟨b1, b2, b3⟩ := ih _ g2 a1 a2 hr
      exact ⟨b1, b2, le_trans b3 a3⟩

end Aig

/-! ## Critical-path flags of the concrete network -/

namespace Aig

theorem has_fanin_iff (g : Aig) (p i : Nat) :
    has_fanin g.nodes p i = true ↔
      ∃ a b, foreach_fanin g p = [a, b] ∧ (a.index = i ∨ b.index = i) := by
  unfold has_fanin foreach_fanin
  cases g.nodes.getD p AigNode.constant with
  | constant => simp
  | pi => simp
  | gate a b =>
    simp only [Bool.or_eq_true, decide_eq_true_eq, List.cons.injEq, and_true]
    constructor
    · intro h
      exact ⟨a, b, ⟨rfl, rfl⟩, h⟩
    · rintro ⟨_, _, ⟨rfl, rfl⟩, h⟩
      exact h

theorem po_iff (outs : List Signal) (lvl : List Nat) (i : Nat) :
    (outs.any (fun f => f.index = i) && decide (lvl.getD i 0 = depth_of lvl outs)) = true ↔
      (∃ f ∈ outs, f.index = i) ∧ lvl.getD i 0 = depth_of lvl outs := by
  simp

theorem crit_of_zero (g : Aig) (lvl : List Nat) (i : Nat) :
    crit_of g.nodes g.outputs lvl 0 i = true ↔
      (∃ f ∈ g.outputs, f.index = i) ∧ lvl.getD i 0 = depth_of lvl g.outputs := by
  rw [crit_of]
  exact po_iff g.outputs lvl i

theorem crit_of_succ (g : Aig) (lvl : List Nat) (k i : Nat) :
    crit_of g.nodes g.outputs lvl (k + 1) i = true ↔
      ((∃ f ∈ g.outputs, f.index = i) ∧ lvl.getD i 0 = depth_of lvl g.outputs)
      ∨ ∃ p, p < g.nodes.length ∧ has_fanin g.nodes p i = true
          ∧ lvl.getD p 0 = lvl.getD i 0 + 1 ∧ crit_of g.nodes g.outputs lvl k p = true := by
  rw [crit_of, Bool.or_eq_true, po_iff]
  simp only [List.any_eq_true, List.mem_range, Bool.and_eq_true, decide_eq_true_eq]
  constructor
  · rintro (h | ⟨p, hp, ⟨h1, h2⟩, h3⟩)
    · exact Or.inl h
    · exact Or.inr ⟨p, hp, h1, h2, h3⟩
  · rintro (h | ⟨p, hp, h1, h2, h3⟩)
    · exact Or.inl h
    · exact Or.inr ⟨p, hp, ⟨h1, h2⟩, h3⟩

theorem crit_of_level_le (g : Aig) (lvl : List Nat) (k : Nat) :
    ∀ i, crit_of g.nodes g.outputs lvl k i = true → lvl.getD i 0 ≤ depth_of lvl g.outputs := by
  induction k with
  | zero =>
    intro i h
    rw [crit_of_zero] at h
    omega
  | succ k ih =>
    intro i h
    rw [crit_of_succ] at h
    rcases h with h | ⟨p, -, -, h2, h3⟩
    · omega
    · have := ih p h3
      omega

theorem update_levels_crit (g : Aig) (i : Nat) :
    is_on_critical_path (update_levels g) i = true ↔
      i < g.nodes.length
      ∧ crit_of g.nodes g.outputs (update_levels g).levels
          (depth (update_levels g) - level (update_levels g) i) i = true := by
  unfold is_on_critical_path
  rw [List.getD_eq_getElem?_getD]
  by_cases hi : i < g.nodes.length
  · have : (update_levels g).crit[i]? = some (crit_of g.nodes g.outputs (update_levels g).levels
        (depth (update_levels g) - level (update_levels g) i) i) := by
      simp only [update_levels, List.getElem?_map]
      rw [List.getElem?_range hi]
      rfl
    rw [this]
    simp [hi]
  · have : (update_levels g).crit[i]? = none := by
      rw [List.getElem?_eq_none]
      simp [update_levels]
      omega
    rw [this]
    simp [hi]

theorem update_levels_closed (g : Aig) (hw : g.wf = true) :
    critical_path_closed aig (update_levels g) := by
  intro m a b hm hc
  have hm2 : foreach_fanin g m = [a, b] := hm
  have hin := wf_fanin g hw m a b hm2
  have hc2 : is_on_critical_path (update_levels g) m = true := hc
  rw [update_levels_crit] at hc2
  obtain ⟨hmlt, hcrit⟩ := hc2
  have hle := crit_of_level_le g _ _ m hcrit
  have key : ∀ f : Signal, (f.index = a.index ∨ f.index = b.index) →
      level (update_levels g) f.index + 1 = level (update_levels g) m →
      is_on_critical_path (update_levels g) f.index = true := by
    intro f hf hl
    have hfl : f.index < g.nodes.length := by
      rcases hf with h | h <;> rw [h] <;> omega
    rw [update_levels_crit]
    refine ⟨hfl, ?_⟩
    have hd : depth (update_levels g) - level (update_levels g) f.index
        = (depth (update_levels g) - level (update_levels g) m) + 1 := by
      have : level (update_levels g) m ≤ depth (update_levels g) := hle
      omega
    rw [hd, crit_of_succ]
    refine Or.inr ⟨m, hmlt, ?_, hl.symm, hcrit⟩
    rw [has_fanin_iff]
    exact ⟨a, b, hm2, by rcases hf with h | h <;> simp [h]⟩
  exact ⟨key a (Or.inl rfl), key b (Or.inr rfl)⟩

theorem update_levels_outputs_critical (g : Aig) (hw : g.wf = true) :
    outputs_critical (update_levels g) := by
  intro f hf hl
  rw [update_levels_crit]
  refine ⟨wf_output g hw f hf, ?_⟩
  have : depth (update_levels g) - level (update_levels g) f.index = 0 := by omega
  rw [this, crit_of_zero]
  exact ⟨⟨f, hf, rfl⟩, hl⟩

theorem update_levels_annotated (g : Aig) (hw : g.wf = true) (hac : g.acyclic) :
    (update_levels g).annotated :=
  ⟨hw, update_levels_recurrence g hw hac, update_levels_closed g hw,
    update_levels_outputs_critical g hw⟩

end Aig

/-! ## A rewrite removes a node from the critical paths -/

namespace Aig

/-- After a rewrite at `n` that keeps the depth, every node on a critical path of the new
annotation was on a critical path before, at the same level, and is not `n`. -/
theorem crit_back (g g2 : Aig) (t : Signal) (bound n : Nat) (ha : g.annotated)
    (hok : replacement_ok g g2 t bound) (hb : bound < level g n) (hn : n < g.nodes.length)
    (hd : depth (update_levels (substitute_node g2 n t)) = depth g) (k : Nat) :
    ∀ i, crit_of (substitute_node g2 n t).nodes (substitute_node g2 n t).outputs
        (update_levels (substitute_node g2 n t)).levels k i = true →
      i < g.nodes.length ∧ is_on_critical_path g i = true
        ∧ level (update_levels (substitute_node g2 n t)) i = level g i ∧ i ≠ n := by
  obtain ⟨hw, hrec, hcl, hpo⟩ := ha
  obtain ⟨-, -, -, hlev, hold, htb, -⟩ :=
    rewrite_levels g g2 t bound n hw hrec hok (le_of_lt hb) hn
  have hex := hok.1
  have hlt : lv g2 t.index ≤ bound := hok.2.2.2.2.2
  have hpo_case : ∀ i, ((∃ f ∈ (substitute_node g2 n t).outputs, f.index = i)
      ∧ (update_levels (substitute_node g2 n t)).levels.getD i 0
          = depth_of (update_levels (substitute_node g2 n t)).levels
              (substitute_node g2 n t).outputs) →
      i < g.nodes.length ∧ is_on_critical_path g i = true
        ∧ level (update_levels (substitute_node g2 n t)) i = level g i ∧ i ≠ n := by
    rintro i ⟨⟨f2, hf2, rfl⟩, hl⟩
    have hl2 : level (update_levels (substitute_node g2 n t)) f2.index = depth g := by
      rw [← hd]; exact hl
    have hf2' : f2 ∈ (g.outputs.map (redirect n t)) := by
      have : (substitute_node g2 n t).outputs = g2.outputs.map (redirect n t) := rfl
      rw [this, hex.2.1] at hf2
      exact hf2
    obtain ⟨f, hf, rfl⟩ := List.mem_map.1 hf2'
    have hfr := wf_output g hw f hf
    have hfd := level_le_depth g f hf
    have h1 := hlev (redirect n t f).index
    rw [redirect_index] at h1 hl2 ⊢
    by_cases hfn : f.index = n
    · rw [if_pos hfn] at h1 hl2
      rw [hfn] at hfd
      omega
    · rw [if_neg hfn] at h1 hl2 ⊢
      rw [hold f.index hfr] at h1
      have he : level g f.index = depth g := by omega
      exact ⟨hfr, hpo f hf he, by omega, hfn⟩
  induction k with
  | zero =>
    intro i h
    rw [crit_of_zero] at h
    exact hpo_case i h
  | succ k ih =>
    intro i h
    rw [crit_of_succ] at h
    rcases h with h | ⟨p, -, hfan, hlp, hcp⟩
    · exact hpo_case i h
    · obtain ⟨hp, hpc, hpl, -⟩ := ih p hcp
      rw [has_fanin_iff] at hfan
      obtain ⟨a2, b2, hab2, hor⟩ := hfan
      obtain ⟨a, b, hab, rfl, rfl⟩ := substitute_node_fanin_pair g2 n t p a2 b2 hab2
      rw [extends_fanin g g2 hex p hp] at hab
      have hin := wf_fanin g hw p a b hab
      have hrp := hrec.1 p a b hab
      have hcp2 := hcl p a b hab hpc
      simp only [get_node] at hrp hcp2
      have hrp2 : level g p = 1 + max (level g a.index) (level g b.index) := hrp
      have hlp2 : level (update_levels (substitute_node g2 n t)) p
          = level (update_levels (substitute_node g2 n t)) i + 1 := hlp
      have key : ∀ f : Signal, (f = a ∨ f = b) → (redirect n t f).index = i →
          i < g.nodes.length ∧ is_on_critical_path g i = true
            ∧ level (update_levels (substitute_node g2 n t)) i = level g i ∧ i ≠ n := by
        intro f hf hfi
        have hfl : f.index < g.nodes.length := by
          rcases hf with h | h <;> rw [h] <;> omega
        have hfp : level g f.index + 1 ≤ level g p := by
          rcases hf with h | h <;> rw [h] <;> omega
        have h1 := hlev i
        rw [redirect_index] at hfi
        by_cases hfn : f.index = n
        · rw [if_pos hfn] at hfi
          rw [← hfi] at h1 hlp2
          rw [hfn] at hfp
          omega
        · rw [if_neg hfn] at hfi
          rw [← hfi] at h1 hlp2 ⊢
          rw [hold f.index hfl] at h1
          have he : level g f.index + 1 = level g p := by omega
          refine ⟨hfl, ?_, by omega, hfn⟩
          rcases hf with h | h
          · rw [h] at he ⊢
            exact hcp2.1 he
          · rw [h] at he ⊢
            exact hcp2.2 he
      rcases hor with h | h
      · exact key a (Or.inl rfl) h
      · exact key b (Or.inr rfl) h

theorem getD_true_lt (l : List Bool) (i : Nat) (h : l.getD i false = true) : i < l.length := by
  by_contra hlt
  rw [List.getD_eq_getElem?_getD, List.getElem?_eq_none (by omega)] at h
  simp at h

theorem filter_range_length (p : Nat → Bool) (m : Nat) :
    ((List.range m).filter p).length = ((Finset.range m).filter (fun i => p i = true)).card := by
  rw [← List.toFinset_card_of_nodup ((List.nodup_range m).filter _)]
  congr 1
  ext i
  simp

/-- Counting flagged indices: a pointwise smaller flagging that misses one flagged index
counts strictly less. -/
theorem filter_count_lt (p q : Nat → Bool) (m1 m2 n : Nat)
    (hsub : ∀ i, i < m1 → p i = true → i < m2 ∧ q i = true)
    (hn2 : n < m2) (hq : q n = true) (hp : p n = false) :
    ((List.range m1).filter p).length < ((List.range m2).filter q).length := by
  rw [filter_range_length, filter_range_length]
  apply Finset.card_lt_card
  rw [Finset.ssubset_iff_of_subset]
  · refine ⟨n, by simp [hn2, hq], by simp [hp]⟩
  · intro i hi
    simp only [Finset.mem_filter, Finset.mem_range] at hi ⊢
    exact hsub i hi.1 hi.2

end Aig

/-! ## Termination of the driver -/

namespace Aig

theorem measure_lt_trans (a b c : Aig) (h1 : measure_lt a b) (h2 : measure_lt b c) :
    measure_lt a c := by
  unfold measure_lt at *
  omega

/-- A successful rewrite followed by `update_levels` on a coherently annotated graph gives
a coherently annotated graph again, and strictly decreases the measure: the depth drops, or
it stays and both the number of critical-path gates at the level of the rewritten node and
the number of flagged nodes drop. -/
theorem rewrite_measure (g : Aig) (ha : g.annotated) (n : Nat)
    (hf : (try_algebraic_rules aig g n).1 = true) :
    (update_levels (try_algebraic_rules aig g n).2).annotated
      ∧ (depth (update_levels (try_algebraic_rules aig g n).2) < depth g
        ∨ (depth (update_levels (try_algebraic_rules aig g n).2) = depth g
          ∧ crit_gates_at (update_levels (try_algebraic_rules aig g n).2) (level g n)
              < crit_gates_at g (level g n)
          ∧ crit_count (update_levels (try_algebraic_rules aig g n).2) < crit_count g)) := by
  have ha0 := ha
  obtain ⟨hw, hrec, hcl, hpo⟩ := ha
  obtain ⟨g2, t, bound, hok, hb, hbs, hcn, hn, hgate, e⟩ :=
    try_algebraic_rules_step g hw hrec n hf
  have hbs := hbs hcl
  rw [e]
  obtain ⟨hw4, -, hac3, -, -, -, hdep⟩ :=
    rewrite_levels g g2 t bound n hw hrec hok hb hn
  have hw3 : (substitute_node g2 n t).wf = true := hw4
  refine ⟨update_levels_annotated _ hw3 hac3, ?_⟩
  rcases Nat.lt_or_ge (depth (update_levels (substitute_node g2 n t))) (depth g) with hlt | hge
  · exact Or.inl hlt
  · have hd : depth (update_levels (substitute_node g2 n t)) = depth g := by omega
    have hback : ∀ i, is_on_critical_path (update_levels (substitute_node g2 n t)) i = true →
        i < g.nodes.length ∧ is_on_critical_path g i = true
          ∧ level (update_levels (substitute_node g2 n t)) i = level g i ∧ i ≠ n := by
      intro i hi
      rw [update_levels_crit] at hi
      exact crit_back g g2 t bound n ha0 hok hbs hn hd _ i hi.2
    have hnot : is_on_critical_path (update_levels (substitute_node g2 n t)) n = false := by
      cases hc : is_on_critical_path (update_levels (substitute_node g2 n t)) n
      · rfl
      · exact absurd rfl (hback n hc).2.2.2
    refine Or.inr ⟨hd, ?_, ?_⟩
    · unfold crit_gates_at
      apply filter_count_lt _ _ _ _ n
      · intro i _ hi
        simp only [Bool.and_eq_true, beq_iff_eq] at hi
        obtain ⟨⟨hc, hl⟩, hg⟩ := hi
        obtain ⟨hlt, hc0, hl0, -⟩ := hback i hc
        refine ⟨getD_true_lt _ _ hc0, ?_⟩
        simp only [Bool.and_eq_true, beq_iff_eq]
        refine ⟨⟨hc0, by omega⟩, ?_⟩
        have : foreach_fanin (update_levels (substitute_node g2 n t)) i
            = (foreach_fanin g2 i).map (redirect n t) := substitute_node_fanin g2 n t i
        rw [this, List.length_map, extends_fanin g g2 hok.1 i hlt] at hg
        exact hg
      · exact getD_true_lt _ _ hcn
      · simp only [Bool.and_eq_true, beq_iff_eq]
        exact ⟨⟨hcn, trivial⟩, hgate⟩
      · simp [hnot]
    · unfold crit_count
      apply filter_count_lt _ _ _ _ n
      · intro i _ hi
        obtain ⟨-, hc0, -, -⟩ := hback i hi
        exact ⟨getD_true_lt _ _ hc0, hc0⟩
      · exact getD_true_lt _ _ hcn
      · exact hcn
      · exact hnot

theorem rewrite_measure_lt (g : Aig) (ha : g.annotated) (n : Nat)
    (hf : (try_algebraic_rules aig g n).1 = true) :
    (update_levels (try_algebraic_rules aig g n).2).annotated
      ∧ measure_lt (update_levels (try_algebraic_rules aig g n).2) g := by
  obtain ⟨h1, h2⟩ := rewrite_measure g ha n hf
  refine ⟨h1, ?_⟩
  rcases h2 with h | ⟨h3, -, h4⟩
  · exact Or.inl h
  · exact Or.inr ⟨h3, h4⟩

theorem sweep_measure (l : List Nat) :
    ∀ (g : Aig) (cont : Bool), g.annotated →
      (sweep aig l g cont).1.annotated
        ∧ (sweep aig l g cont = (g, cont)
          ∨ ((sweep aig l g cont).2 = true ∧ measure_lt (sweep aig l g cont).1 g)) := by
  induction l with
  | nil => intro g cont ha; exact ⟨ha, Or.inl rfl⟩
  | cons n rest ih =>
    intro g cont ha
    cases h1 : (try_algebraic_rules aig g n).1
    · have h2 := (try_algebraic_rules_decline aig g n h1).1
      simp only [sweep, h1, h2]
      exact ih g cont ha
    · have es : sweep aig (n :: rest) g cont
          = sweep aig rest (update_levels (try_algebraic_rules aig g n).2) true := by
        simp only [sweep, h1]
        rfl
      rw [es]
      obtain ⟨a1, a2⟩ := rewrite_measure_lt g ha n h1
      obtain ⟨b1, b2⟩ := ih _ true a1
      refine ⟨b1, Or.inr ?_⟩
      rcases b2 with b2 | ⟨b2, b3⟩
      · rw [b2]
        exact ⟨rfl, a2⟩
      · exact ⟨b2, measure_lt_trans _ _ _ b3 a2⟩

theorem run_terminates_of_measure :
    ∀ (d c : Nat) (g : Aig), g.annotated → depth g = d → crit_count g = c →
      ∃ fuel g2, run aig fuel g = some g2 := by
  intro d
  induction d using Nat.strong_induction_on with
  | _ d ihd =>
    intro c
    induction c using Nat.strong_induction_on with
    | _ c ihc =>
      intro g ha hd hc
      obtain ⟨a1, a2⟩ := sweep_measure (aig.foreach_gate g) g false ha
      rcases a2 with a2 | ⟨a2, a3⟩
      · exact ⟨1, g, by simp [run, a2]⟩
      · have hrec : ∃ fuel g2, run aig fuel (sweep aig (aig.foreach_gate g) g false).1
            = some g2 := by
          rcases a3 with h | ⟨h1, h2⟩
          · exact ihd _ (by omega) _ _ a1 rfl rfl
          · exact ihc _ (by omega) _ a1 (by omega) rfl
        obtain ⟨fuel, g2, hr⟩ := hrec
        exact ⟨fuel + 1, g2, by simp [run, a2, hr]⟩

end Aig


/-! ## Lemmas on the dispatcher and on the log of the traced network -/

section dispatch_lemmas

variable {σ : Type}

theorem try_algebraic_rules_eq (h : Ntk σ) (s : σ) (n : Nat) :
    try_algebraic_rules h s n
      = if (try_associativity h s n).1 = true then (true, (try_associativity h s n).2)
        else if (try_distributivity h s n).1 = true then (true, (try_distributivity h s n).2)
        else if (try_three_level_distributivity h s n).1 = true
          then (true, (try_three_level_distributivity h s n).2)
        else (false, s) := by
  simp only [try_algebraic_rules]
  cases h1 : (try_associativity h s n).1
  · have e1 := try_associativity_decline h s n h1
    simp only [e1]
    cases h2 : (try_distributivity h s n).1
    · have e2 := try_distributivity_decline h s n h2
      simp only [e2]
      cases h3 : (try_three_level_distributivity h s n).1
      · have e3 := try_three_level_distributivity_decline h s n h3
        simp [e3]
      · simp
    · simp
  · simp

theorem traced_try_associativity_log (h : Ntk σ) (s : σ) (log : List HostCall) (n : Nat) :
    ∃ calls, (try_associativity (traced h) (s, log) n).2.2 = log ++ calls
      ∧ calls.countP HostCall.is_substitute
          = if (try_associativity (traced h) (s, log) n).1 = true then 1 else 0 := by
  cases hb : (try_associativity (traced h) (s, log) n).1
  · refine ⟨[], ?_, by simp⟩
    rw [try_associativity_decline (traced h) (s, log) n hb]
    simp
  · obtain ⟨c0, c1, g0, g1, -, hr⟩ := try_associativity_fires (traced h) (s, log) n hb
    rw [hr]
    exact ⟨[HostCall.create_and c1 g1,
        HostCall.create_and (h.create_and s c1 g1).1 g0,
        HostCall.substitute_node n (assoc_replacement h s c1 g0 g1).1],
      by simp [traced, assoc_replacement], by simp [HostCall.is_substitute]⟩

theorem traced_try_distributivity_log (h : Ntk σ) (s : σ) (log : List HostCall) (n : Nat) :
    ∃ calls, (try_distributivity (traced h) (s, log) n).2.2 = log ++ calls
      ∧ calls.countP HostCall.is_substitute
          = if (try_distributivity (traced h) (s, log) n).1 = true then 1 else 0 := by
  cases hb : (try_distributivity (traced h) (s, log) n).1
  · refine ⟨[], ?_, by simp⟩
    rw [try_distributivity_decline (traced h) (s, log) n hb]
    simp
  · obtain ⟨c0, c1, a0, a1, b0, b1, -, hr⟩ :=
      try_distributivity_fires (traced h) (s, log) n hb
    rw [hr]
    exact ⟨[HostCall.create_and a1.not b1.not,
        HostCall.create_and a0 (h.create_and s a1.not b1.not).1.not,
        HostCall.substitute_node n (dist_replacement h s a0 a1 b1).1.not],
      by simp [traced, dist_replacement], by simp [HostCall.is_substitute]⟩

theorem traced_try_three_level_distributivity_log (h : Ntk σ) (s : σ) (log : List HostCall)
    (n : Nat) :
    ∃ calls, (try_three_level_distributivity (traced h) (s, log) n).2.2 = log ++ calls
      ∧ calls.countP HostCall.is_substitute
          = if (try_three_level_distributivity (traced h) (s, log) n).1 = true then 1 else 0 := by
  cases hb : (try_three_level_distributivity (traced h) (s, log) n).1
  · refine ⟨[], ?_, by simp⟩
    rw [try_three_level_distributivity_decline (traced h) (s, log) n hb]
    simp
  · obtain ⟨c0, c1, nep0, nep1, gn0, gn1, -, hr⟩ :=
      try_three_level_distributivity_fires (traced h) (s, log) n hb
    rw [hr]
    exact ⟨[HostCall.create_and nep1.not c1,
        HostCall.create_and gn1 c1,
        HostCall.create_and gn0 (three_replacement h s c1 nep1 gn0 gn1).2.1,
        HostCall.create_and (three_replacement h s c1 nep1 gn0 gn1).2.2.1.not
          (three_replacement h s c1 nep1 gn0 gn1).1.not,
        HostCall.substitute_node n (three_replacement h s c1 nep1 gn0 gn1).2.2.2.1.not],
      by simp [traced, three_replacement], by simp [HostCall.is_substitute]⟩

theorem traced_try_algebraic_rules_log (h : Ntk σ) (s : σ) (log : List HostCall) (n : Nat) :
    ∃ calls, (try_algebraic_rules (traced h) (s, log) n).2.2 = log ++ calls
      ∧ calls.countP HostCall.is_substitute
          = if (try_algebraic_rules (traced h) (s, log) n).1 = true then 1 else 0 := by
  rw [try_algebraic_rules_eq]
  by_cases h1 : (try_associativity (traced h) (s, log) n).1 = true
  · obtain ⟨calls, e, c⟩ := traced_try_associativity_log h s log n
    exact ⟨calls, by simpa [h1] using e, by simpa [h1] using c⟩
  · by_cases h2 : (try_distributivity (traced h) (s, log) n).1 = true
    · obtain ⟨calls, e, c⟩ := traced_try_distributivity_log h s log n
      exact ⟨calls, by simpa [h1, h2] using e, by simpa [h1, h2] using c⟩
    · by_cases h3 : (try_three_level_distributivity (traced h) (s, log) n).1 = true
      · obtain ⟨calls, e, c⟩ := traced_try_three_level_distributivity_log h s log n
        exact ⟨calls, by simpa [h1, h2, h3] using e, by simpa [h1, h2, h3] using c⟩
      · exact ⟨[], by simp [h1, h2, h3], by simp [h1, h2, h3]⟩

theorem try_associativity_off_path (h : Ntk σ) (s : σ) (n : Nat)
    (hn : h.is_on_critical_path s n = false) : try_associativity h s n = (false, s) := by
  simp [try_associativity, hn]

theorem try_distributivity_off_path (h : Ntk σ) (s : σ) (n : Nat)
    (hn : h.is_on_critical_path s n = false) : try_distributivity h s n = (false, s) := by
  simp [try_distributivity, hn]

theorem try_three_level_distributivity_off_path (h : Ntk σ) (s : σ) (n : Nat)
    (hn : h.is_on_critical_path s n = false) :
    try_three_level_distributivity h s n = (false, s) := by
  simp [try_three_level_distributivity, hn]

theorem try_algebraic_rules_off_path (h : Ntk σ) (s : σ) (n : Nat)
    (hn : h.is_on_critical_path s n = false) : try_algebraic_rules h s n = (false, s) := by
  rw [try_algebraic_rules_eq, try_associativity_off_path h s n hn,
    try_distributivity_off_path h s n hn, try_three_level_distributivity_off_path h s n hn]
  simp

end dispatch_lemmas


/-! ## Lemmas on the traversal and on declining shapes -/

section traversal_lemmas

variable {σ : Type}

theorem sweep_cont_true (h : Ntk σ) (l : List Nat) :
    ∀ s : σ, (sweep h l s true).2 = true := by
  induction l with
  | nil => intro s; rfl
  | cons n rest ih =>
    intro s
    simp only [sweep]
    split
    · exact ih _
    · exact ih _

theorem sweep_append_decline (h : Ntk σ) (pre l : List Nat) (s : σ) (cont : Bool)
    (hd : ∀ m ∈ pre, (try_algebraic_rules h s m).1 = false) :
    sweep h (pre ++ l) s cont = sweep h l s cont := by
  induction pre with
  | nil => rfl
  | cons m rest ih =>
    have h1 := hd m (by simp)
    have h2 := (try_algebraic_rules_decline h s m h1).1
    simp only [List.cons_append, sweep, h1, h2]
    exact ih (fun k hk => hd k (by simp [hk]))

theorem sorted_fanins_of_pair (h : Ntk σ) (s : σ) (n : Nat) (x y c0 c1 : Signal)
    (hfi : h.foreach_fanin s n = [x, y]) (hs : sorted_fanins h s n = some (c0, c1)) :
    (c0 = x ∧ c1 = y ∧ h.level s y.index ≤ h.level s x.index)
      ∨ (c0 = y ∧ c1 = x ∧ h.level s x.index < h.level s y.index) := by
  simp only [sorted_fanins, hfi, sort_by_level, get_node, Option.some.injEq] at hs
  split at hs
  · rename_i hlt
    simp only [Prod.mk.injEq] at hs
    exact Or.inr ⟨hs.1.symm, hs.2.symm, hlt⟩
  · rename_i hlt
    simp only [Prod.mk.injEq] at hs
    exact Or.inl ⟨hs.1.symm, hs.2.symm, by omega⟩

theorem shallow_shape_declines (h : Ntk σ) (s : σ) (n : Nat)
    (hs : shallow_shape h s n = true) : try_algebraic_rules h s n = (false, s) := by
  unfold shallow_shape at hs
  split at hs
  · rename_i x y hfi
    simp only [get_node, is_complemented, Bool.and_eq_true, decide_eq_true_eq,
      Bool.not_eq_true', Bool.and_eq_false_imp] at hs
    obtain ⟨⟨h1, h2⟩, h3⟩ := hs
    have ha : (try_associativity h s n).1 = false := by
      cases hb : (try_associativity h s n).1
      · rfl
      · obtain ⟨c0, c1, g0, g1, hm, -⟩ := try_associativity_fires h s n hb
        rcases sorted_fanins_of_pair h s n x y c0 c1 hfi hm.2.1 with ⟨rfl, rfl, -⟩ | ⟨rfl, rfl, -⟩
        · have := hm.2.2.1; omega
        · have := hm.2.2.1; omega
    have hd : (try_distributivity h s n).1 = false := by
      cases hb : (try_distributivity h s n).1
      · rfl
      · obtain ⟨c0, c1, a0, a1, b0, b1, hm, -⟩ := try_distributivity_fires h s n hb
        have e := hm.2.1
        rw [hfi] at e
        simp only [List.cons.injEq, and_true] at e
        obtain ⟨rfl, rfl⟩ := e
        have := h3 hm.2.2.2.2.2.2.1
        rw [hm.2.2.2.2.2.2.2.1] at this
        simp at this
    have ht : (try_three_level_distributivity h s n).1 = false := by
      cases hb : (try_three_level_distributivity h s n).1
      · rfl
      · obtain ⟨c0, c1, nep0, nep1, gn0, gn1, hm, -⟩ :=
          try_three_level_distributivity_fires h s n hb
        rcases sorted_fanins_of_pair h s n x y c0 c1 hfi hm.2.1 with ⟨rfl, rfl, -⟩ | ⟨rfl, rfl, -⟩
        · have := hm.2.2.1; omega
        · have := hm.2.2.1; omega
    rw [try_algebraic_rules_eq]
    simp [ha, hd, ht]
  · simp at hs

theorem complement_shape_declines (h : Ntk σ) (s : σ) (n : Nat)
    (hs : complement_shape h s n = true) :
    (try_associativity h s n).1 = false ∧ (try_distributivity h s n).1 = false
      ∧ (try_three_level_distributivity h s n).1 = false := by
  unfold complement_shape at hs
  split at hs
  · rename_i x y hfi
    simp only [get_node, is_complemented, Bool.or_eq_true, Bool.and_eq_true,
      decide_eq_true_eq, Bool.not_eq_true'] at hs
    refine ⟨?_, ?_, ?_⟩
    · cases hb : (try_associativity h s n).1
      · rfl
      · obtain ⟨c0, c1, g0, g1, hm, -⟩ := try_associativity_fires h s n hb
        have hd := hm.2.2.1
        have hc := hm.2.2.2.2.2.1
        rcases sorted_fanins_of_pair h s n x y c0 c1 hfi hm.2.1
          with ⟨rfl, rfl, hl⟩ | ⟨rfl, rfl, hl⟩
        · rcases hs with ⟨⟨⟨-, hx⟩, -⟩, -⟩ | ⟨⟨⟨hle, -⟩, -⟩, -⟩
          · rw [hx] at hc; simp at hc
          · omega
        · rcases hs with ⟨⟨⟨hle, -⟩, -⟩, -⟩ | ⟨⟨⟨-, hy⟩, -⟩, -⟩
          · omega
          · rw [hy] at hc; simp at hc
    · cases hb : (try_distributivity h s n).1
      · rfl
      · obtain ⟨c0, c1, a0, a1, b0, b1, hm, -⟩ := try_distributivity_fires h s n hb
        have e := hm.2.1
        rw [hfi] at e
        simp only [List.cons.injEq, and_true] at e
        obtain ⟨rfl, rfl⟩ := e
        have hx := hm.2.2.2.2.2.2.1
        have hy := hm.2.2.2.2.2.2.2.1
        rcases hs with ⟨⟨-, hy2⟩, -⟩ | ⟨⟨-, hx2⟩, -⟩
        · rw [hy] at hy2; simp at hy2
        · rw [hx] at hx2; simp at hx2
    · cases hb : (try_three_level_distributivity h s n).1
      · rfl
      · obtain ⟨c0, c1, nep0, nep1, gn0, gn1, hm, -⟩ :=
          try_three_level_distributivity_fires h s n hb
        have hd := hm.2.2.1
        rcases sorted_fanins_of_pair h s n x y c0 c1 hfi hm.2.1
          with ⟨rfl, rfl, hl⟩ | ⟨rfl, rfl, hl⟩
        · rcases hs with ⟨⟨⟨hle, -⟩, -⟩, hlt⟩ | ⟨⟨⟨hle, -⟩, -⟩, hlt⟩ <;> omega
        · rcases hs with ⟨⟨⟨hle, -⟩, -⟩, hlt⟩ | ⟨⟨⟨hle, -⟩, -⟩, hlt⟩ <;> omega
  · simp at hs

theorem run_of_decline (h : Ntk σ) (s : σ) (k : Nat)
    (hd : ∀ n ∈ h.foreach_gate s, (try_algebraic_rules h s n).1 = false) :
    run h (k + 1) s = some s := by
  have := sweep_of_decline h (h.foreach_gate s) s false hd
  simp [run, this]

theorem try_distributivity_signal_only_eq (h : Ntk σ) (s : σ) (n : Nat) :
    try_distributivity_signal_only h s n = try_distributivity h s n := by
  have key : ∀ a b : Signal,
      (a = b ∧ h.level s (get_node a) = h.level s (get_node b)) ↔ a = b := by
    intro a b
    constructor
    · exact fun hab => hab.1
    · intro hab
      exact ⟨hab, by rw [hab]⟩
  simp only [try_distributivity_signal_only, try_distributivity, key]

theorem rules_exclusive (h : Ntk σ) (s : σ) (n : Nat) :
    ¬ ((try_associativity h s n).1 = true ∧ (try_distributivity h s n).1 = true)
    ∧ ¬ ((try_associativity h s n).1 = true
          ∧ (try_three_level_distributivity h s n).1 = true)
    ∧ ¬ ((try_distributivity h s n).1 = true
          ∧ (try_three_level_distributivity h s n).1 = true) := by
  refine ⟨?_, ?_, ?_⟩
  · rintro ⟨ha, hd⟩
    obtain ⟨c0, c1, g0, g1, hm, -⟩ := try_associativity_fires h s n ha
    obtain ⟨x, y, a0, a1, b0, b1, hm2, -⟩ := try_distributivity_fires h s n hd
    have hx := hm2.2.2.1
    have hy := hm2.2.2.2.1
    have hc1 := hm.2.2.2.2.1
    rcases sorted_fanins_of_pair h s n x y c0 c1 hm2.2.1 hm.2.1 with ⟨-, rfl, -⟩ | ⟨-, rfl, -⟩
    · rw [hy] at hc1; simp at hc1
    · rw [hx] at hc1; simp at hc1
  · rintro ⟨ha, ht⟩
    obtain ⟨c0, c1, g0, g1, hm, -⟩ := try_associativity_fires h s n ha
    obtain ⟨d0, d1, nep0, nep1, gn0, gn1, hm2, -⟩ :=
      try_three_level_distributivity_fires h s n ht
    have e := hm.2.1
    rw [hm2.2.1] at e
    simp only [Option.some.injEq, Prod.mk.injEq] at e
    have hc := hm.2.2.2.2.2.1
    have hc2 := hm2.2.2.2.2.2.1
    rw [e.1, hc] at hc2
    simp at hc2
  · rintro ⟨hd, ht⟩
    obtain ⟨x, y, a0, a1, b0, b1, hm2, -⟩ := try_distributivity_fires h s n hd
    obtain ⟨c0, c1, nep0, nep1, gn0, gn1, hm, -⟩ :=
      try_three_level_distributivity_fires h s n ht
    have hx := hm2.2.2.1
    have hy := hm2.2.2.2.1
    have hc1 := hm.2.2.2.2.1
    rcases sorted_fanins_of_pair h s n x y c0 c1 hm2.2.1 hm.2.1 with ⟨-, rfl, -⟩ | ⟨-, rfl, -⟩
    · rw [hy] at hc1; simp at hc1
    · rw [hx] at hc1; simp at hc1

end traversal_lemmas


/-! ## The transitive fanin and what `create_and` can return -/

namespace Aig

theorem in_transitive_fanin_gate (g : Aig) (n k m : Nat) (a b : Signal)
    (h : foreach_fanin g m = [a, b]) :
    in_transitive_fanin g.nodes n (k + 1) m
      = (decide (a.index = n) || decide (b.index = n)
          || in_transitive_fanin g.nodes n k a.index
          || in_transitive_fanin g.nodes n k b.index) := by
  rw [foreach_fanin_pair] at h
  rw [in_transitive_fanin, List.getD_eq_getElem?_getD, h]
  rfl

theorem in_transitive_fanin_leaf (g : Aig) (n k m : Nat) (h : foreach_fanin g m = []) :
    in_transitive_fanin g.nodes n k m = false := by
  cases k with
  | zero => rfl
  | succ k =>
    unfold foreach_fanin at h
    rw [in_transitive_fanin]
    split
    · rename_i a b hab
      rw [hab] at h
      simp at h
    · rfl

/-- A node in the transitive fanin of `m` has a smaller level than `m`. -/
theorem in_transitive_fanin_lv (g : Aig) (hw : g.wf = true) (hac : g.acyclic) (n : Nat) :
    ∀ k m, in_transitive_fanin g.nodes n k m = true → lv g n < lv g m := by
  intro k
  induction k with
  | zero => intro m h; simp [in_transitive_fanin] at h
  | succ k ih =>
    intro m h
    rcases foreach_fanin_cases g m with he | ⟨a, b, he⟩
    · rw [in_transitive_fanin_leaf g n _ m he] at h
      simp at h
    · rw [in_transitive_fanin_gate g n k m a b he] at h
      have hl := lv_gate g hw hac m a b he
      simp only [Bool.or_eq_true, decide_eq_true_eq] at h
      rcases h with ((h | h) | h) | h
      · rw [← h]; omega
      · rw [← h]; omega
      · have := ih a.index h; omega
      · have := ih b.index h; omega

/-- A signal whose level is at most that of `n` and whose node is not `n` does not have `n`
in its transitive fanin. -/
theorem not_in_transitive_fanin (g : Aig) (hw : g.wf = true) (hac : g.acyclic) (n m : Nat)
    (hle : lv g m ≤ lv g n) (k : Nat) : in_transitive_fanin g.nodes n k m = false := by
  cases h : in_transitive_fanin g.nodes n k m
  · rfl
  · have := in_transitive_fanin_lv g hw hac n k m h
    omega

/-- When `create_and_ordered` returns the node `X`, a gate with the fanins `p`, `q`, then
`X` is the node of an operand or the operands are `p` and `q`. -/
theorem create_and_ordered_hits (g : Aig) (lo hi : Signal) (hw : g.wf = true)
    (hlo : lo.index < g.nodes.length) (hhi : hi.index < g.nodes.length)
    (X : Nat) (p q : Signal)
    (hf : foreach_fanin (create_and_ordered g lo hi).2 X = [p, q])
    (hX : (create_and_ordered g lo hi).1.index = X) :
    lo.index = X ∨ hi.index = X ∨ (p = lo ∧ q = hi) := by
  rcases create_and_ordered_result g lo hi with h | h | h | ⟨-, h⟩
  · rw [h] at hX; exact Or.inl hX
  · rw [h] at hX; exact Or.inr (Or.inl hX)
  · rw [h] at hX
    have hw2 := (create_and_ordered_wf g lo hi hw hlo hhi).1
    have h0 := wf_constant _ hw2
    rw [← hX, foreach_fanin_pair] at hf
    rw [h0] at hf
    simp at hf
  · rw [hX, hf] at h
    simp only [List.cons.injEq, and_true] at h
    exact Or.inr (Or.inr h)

theorem create_and_hits (g : Aig) (a b : Signal) (hw : g.wf = true)
    (ha : a.index < g.nodes.length) (hb : b.index < g.nodes.length)
    (X : Nat) (p q : Signal)
    (hf : foreach_fanin (create_and g a b).2 X = [p, q])
    (hX : (create_and g a b).1.index = X) :
    a.index = X ∨ b.index = X
      ∨ (p.index = a.index ∧ q.index = b.index) ∨ (p.index = b.index ∧ q.index = a.index) := by
  unfold create_and at hf hX
  split_ifs at hf hX
  · rcases create_and_ordered_hits g b a hw hb ha X p q hf hX with h | h | ⟨h1, h2⟩
    · exact Or.inr (Or.inl h)
    · exact Or.inl h
    · exact Or.inr (Or.inr (Or.inr ⟨by rw [h1], by rw [h2]⟩))
  · rcases create_and_ordered_hits g a b hw ha hb X p q hf hX with h | h | ⟨h1, h2⟩
    · exact Or.inl h
    · exact Or.inr (Or.inl h)
    · exact Or.inr (Or.inr (Or.inl ⟨by rw [h1], by rw [h2]⟩))

end Aig

namespace Aig

/-- One `create_and` call on a graph `gk` built over `g`: the result is built over `g`, the
levels of the nodes of `gk` stay, the level of the returned node is bounded by the
recurrence, and the returned node is a gate of `g` only when it is the node of an operand or
the operands are the fanins of that gate. -/
theorem create_and_track (g gk : Aig) (a b : Signal)
    (hex : extends_graph g gk) (hwk : gk.wf = true) (hack : gk.acyclic)
    (hold : ∀ i, i < g.nodes.length → lv gk i = lv g i)
    (ha : a.index < gk.nodes.length) (hb : b.index < gk.nodes.length) :
    extends_graph g (create_and gk a b).2
      ∧ (create_and gk a b).2.wf = true ∧ (create_and gk a b).2.acyclic
      ∧ (∀ i, i < g.nodes.length → lv (create_and gk a b).2 i = lv g i)
      ∧ (create_and gk a b).1.index < (create_and gk a b).2.nodes.length
      ∧ gk.nodes.length ≤ (create_and gk a b).2.nodes.length
      ∧ (∀ i, i < gk.nodes.length → lv (create_and gk a b).2 i = lv gk i)
      ∧ lv (create_and gk a b).2 (create_and gk a b).1.index
          ≤ 1 + max (lv gk a.index) (lv gk b.index)
      ∧ (∀ X p q, foreach_fanin g X = [p, q] → (create_and gk a b).1.index = X →
          a.index = X ∨ b.index = X
            ∨ (p.index = a.index ∧ q.index = b.index)
            ∨ (p.index = b.index ∧ q.index = a.index)) := by
  obtain ⟨h1, h2, h3, h4, h5, h6⟩ := create_and_step gk a b hwk hack ha hb
  have hex2 := extends_trans g gk _ hex h1
  refine ⟨hex2, h2, h3, ?_, h4, extends_length gk _ h1, h5, h6, ?_⟩
  · intro i hi
    rw [h5 i (lt_of_lt_of_le hi (extends_length g gk hex)), hold i hi]
  · intro X p q hf hX
    have hXl := foreach_fanin_lt g X p q hf
    have hf2 : foreach_fanin (create_and gk a b).2 X = [p, q] := by
      rw [extends_fanin g _ hex2 X hXl]; exact hf
    exact create_and_hits gk a b hwk ha hb X p q hf2 hX

/-- The same for a gate of `g` given by its level-sorted fanins. -/
theorem sorted_fanins_hits (g : Aig) (X : Nat) (c d a b : Signal) (r : Nat)
    (hs : sorted_fanins aig g X = some (c, d))
    (h : ∀ p q, foreach_fanin g X = [p, q] → r = X →
          a.index = X ∨ b.index = X
            ∨ (p.index = a.index ∧ q.index = b.index)
            ∨ (p.index = b.index ∧ q.index = a.index))
    (hX : r = X) :
    a.index = X ∨ b.index = X
      ∨ (c.index = a.index ∧ d.index = b.index)
      ∨ (c.index = b.index ∧ d.index = a.index) := by
  rcases (sorted_fanins_spec aig g X c d hs).2 with hr | hr
  · exact h c d hr hX
  · rcases h d c hr hX with h1 | h1 | ⟨h1, h2⟩ | ⟨h1, h2⟩
    · exact Or.inl h1
    · exact Or.inr (Or.inl h1)
    · exact Or.inr (Or.inr (Or.inr ⟨h2, h1⟩))
    · exact Or.inr (Or.inr (Or.inl ⟨h2, h1⟩))

/-- The levels that the rules read, as computed levels. -/
theorem lv_of_sorted (g : Aig) (hw : g.wf = true) (hrec : level_recurrence aig g)
    (n : Nat) (c0 c1 : Signal) (hs : sorted_fanins aig g n = some (c0, c1)) :
    lv g c1.index ≤ lv g c0.index ∧ lv g n = 1 + lv g c0.index := by
  have h := level_of_sorted aig g n c0 c1 hrec hs
  have e : ∀ i, aig.level g i = lv g i := fun i => level_eq_lv g hw hrec i
  rw [e, e, e] at h
  exact h

end Aig

namespace Aig

/-- The replacement of `try_distributivity` is not the node `n` itself, also when
`create_and` returns a gate that exists already. -/
theorem dist_replacement_ne (g : Aig) (hw : g.wf = true) (hrec : level_recurrence aig g)
    (n : Nat) (c0 c1 a0 a1 b0 b1 : Signal) (hm : dist_fires aig g n c0 c1 a0 a1 b0 b1) :
    (dist_replacement aig g a0 a1 b1).1.not.index ≠ n := by
  have hac := acyclic_of_recurrence g hrec
  obtain ⟨-, hn, -, -, -, -, -, -, ha, -, -, hb, -, -, hab, -⟩ := hm
  subst hab
  obtain ⟨ha0, ha1, hc0⟩ := sorted_fanins_lt g hw c0.index a0 a1 ha
  obtain ⟨-, hb1, hc1⟩ := sorted_fanins_lt g hw c1.index a0 b1 hb
  have hnl := foreach_fanin_lt g n c0 c1 hn
  obtain ⟨l1, l2⟩ := lv_of_sorted g hw hrec c0.index a0 a1 ha
  obtain ⟨l3, l4⟩ := lv_of_sorted g hw hrec c1.index a0 b1 hb
  have l5 := lv_gate g hw hac n c0 c1 hn
  obtain ⟨p1, p2, p3, p4, p5, p6, p7, p8, -⟩ :=
    create_and_track g g a1.not b1.not (extends_refl g) hw hac (fun _ _ => rfl) ha1 hb1
  obtain ⟨q1, q2, q3, q4, q5, q6, q7, q8, q9⟩ :=
    create_and_track g _ a0 (create_and g a1.not b1.not).1.not p1 p2 p3 p4 (by omega) p5
  simp only [signal_not_index] at p8 q8 q9
  intro htop
  have htop2 : (create_and (create_and g a1.not b1.not).2 a0
      (create_and g a1.not b1.not).1.not).1.index = n := htop
  have en := q4 n hnl
  rcases q9 n c0 c1 hn htop2 with h | h | ⟨h1, h2⟩ | ⟨h1, h2⟩
  · have := congrArg (lv g) h
    omega
  · have := congrArg (lv (create_and g a1.not b1.not).2) h
    rw [p4 n hnl] at this
    omega
  · have := congrArg (lv g) h1
    omega
  · have := congrArg (lv g) h2
    omega

end Aig

namespace Aig

/-- The replacement of `try_three_level_distributivity` is not the node `n` itself, also
when `create_and` returns a gate that exists already. -/
theorem three_replacement_ne (g : Aig) (hw : g.wf = true) (hrec : level_recurrence aig g)
    (n : Nat) (c0 c1 nep0 nep1 gn0 gn1 : Signal)
    (hm : three_fires aig g n c0 c1 nep0 nep1 gn0 gn1) :
    (three_replacement aig g c1 nep1 gn0 gn1).2.2.2.1.not.index ≠ n := by
  have hac := acyclic_of_recurrence g hrec
  obtain ⟨-, hc, hd, -, -, -, hnep, -, -, -, hgn, -⟩ := hm
  obtain ⟨hc0, hc1, hn⟩ := sorted_fanins_lt g hw n c0 c1 hc
  obtain ⟨hnep0, hnep1, -⟩ := sorted_fanins_lt g hw c0.index nep0 nep1 hnep
  obtain ⟨hgn0, hgn1, -⟩ := sorted_fanins_lt g hw nep0.index gn0 gn1 hgn
  obtain ⟨l1, l2⟩ := lv_of_sorted g hw hrec n c0 c1 hc
  obtain ⟨l3, l4⟩ := lv_of_sorted g hw hrec c0.index nep0 nep1 hnep
  obtain ⟨l5, l6⟩ := lv_of_sorted g hw hrec nep0.index gn0 gn1 hgn
  have e : ∀ i, aig.level g i = lv g i := fun i => level_eq_lv g hw hrec i
  rw [e, e] at hd
  obtain ⟨p1, p2, p3, p4, p5, p6, p7, p8, p9⟩ :=
    create_and_track g g nep1.not c1 (extends_refl g) hw hac (fun _ _ => rfl) hnep1 hc1
  obtain ⟨q1, q2, q3, q4, q5, q6, q7, q8, q9⟩ :=
    create_and_track g _ gn1 c1 p1 p2 p3 p4 (by omega) (by omega)
  obtain ⟨r1, r2, r3, r4, r5, r6, r7, r8, r9⟩ :=
    create_and_track g _ gn0 (create_and (create_and g nep1.not c1).2 gn1 c1).1 q1 q2 q3 q4
      (by omega) q5
  obtain ⟨-, -, -, -, -, -, -, -, s9⟩ :=
    create_and_track g _
      (create_and (create_and (create_and g nep1.not c1).2 gn1 c1).2 gn0
        (create_and (create_and g nep1.not c1).2 gn1 c1).1).1.not
      (create_and g nep1.not c1).1.not r1 r2 r3 r4 r5
      (lt_of_lt_of_le p5 (le_trans q6 r6))
  simp only [signal_not_index] at p8 p9 s9
  rw [p4 gn1.index hgn1, p4 c1.index hc1] at q8
  rw [q4 gn0.index hgn0] at r8
  intro htop
  rcases sorted_fanins_hits g n c0 c1 _ _ _ hc (s9 n) htop with h | h | ⟨h1, -⟩ | ⟨h1, -⟩
  · have := congrArg (lv (create_and (create_and (create_and g nep1.not c1).2 gn1 c1).2 gn0
      (create_and (create_and g nep1.not c1).2 gn1 c1).1).2) h
    rw [r4 n hn] at this
    omega
  · have := congrArg (lv (create_and g nep1.not c1).2) h
    rw [p4 n hn] at this
    omega
  · rcases sorted_fanins_hits g c0.index nep0 nep1 _ _ _ hnep (r9 c0.index) h1.symm
      with k | k | ⟨k1, -⟩ | ⟨k1, -⟩
    · have := congrArg (lv g) k
      omega
    · have := congrArg (lv (create_and (create_and g nep1.not c1).2 gn1 c1).2) k
      rw [q4 c0.index hc0] at this
      omega
    · have := congrArg (lv g) k1
      omega
    · rcases sorted_fanins_hits g nep0.index gn0 gn1 _ _ _ hgn (q9 nep0.index) k1.symm
        with m | m | ⟨m1, m2⟩ | ⟨m1, -⟩
      · have := congrArg (lv g) m
        omega
      · have := congrArg (lv g) m
        omega
      · have := congrArg (lv g) m1
        have := congrArg (lv g) m2
        omega
      · have := congrArg (lv g) m1
        omega
  · rcases sorted_fanins_hits g c0.index nep0 nep1 _ _ _ hnep (p9 c0.index) h1.symm
      with k | k | ⟨k1, k2⟩ | ⟨k1, -⟩
    · have := congrArg (lv g) k
      omega
    · have := congrArg (lv g) k
      omega
    · have := congrArg (lv g) k1
      have := congrArg (lv g) k2
      omega
    · have := congrArg (lv g) k1
      omega

end Aig

namespace Aig

/-- Substituting the node `n` by a signal whose node is not `n` and does not have `n` in its
transitive fanin keeps the graph acyclic. -/
theorem substitute_node_acyclic_of_fanin (g : Aig) (n : Nat) (t : Signal) (hw : g.wf = true)
    (hac : g.acyclic) (hne : t.index ≠ n)
    (hnot : ∀ k, in_transitive_fanin g.nodes n k t.index = false) :
    (substitute_node g n t).acyclic := by
  classical
  have hK : ∀ j, lv g j < g.nodes.length := fun j => level_of_lt_length g hw hac _ j
  obtain ⟨reach, hreach⟩ : ∃ R : Nat → Prop,
      ∀ j, R j ↔ (j = n ∨ ∃ k, in_transitive_fanin g.nodes n k j = true) :=
    ⟨_, fun _ => Iff.rfl⟩
  have ht : ¬ reach t.index := by
    rw [hreach]
    rintro (h | ⟨k, h⟩)
    · exact hne h
    · rw [hnot k] at h
      exact Bool.false_ne_true h
  have hfan : ∀ i a b, foreach_fanin g i = [a, b] → ∀ f : Signal, (f = a ∨ f = b) →
      reach f.index → reach i := by
    intro i a b he f hf hr
    rw [hreach] at hr ⊢
    right
    rcases hr with hr | ⟨k, hr⟩
    · refine ⟨0 + 1, ?_⟩
      rw [in_transitive_fanin_gate g n 0 i a b he]
      rcases hf with rfl | rfl <;> simp [hr]
    · refine ⟨k + 1, ?_⟩
      rw [in_transitive_fanin_gate g n k i a b he]
      rcases hf with rfl | rfl <;> simp [hr]
  have main : ∀ i a b, foreach_fanin g i = [a, b] → ∀ f : Signal, (f = a ∨ f = b) →
      lv g (redirect n t f).index + (if reach (redirect n t f).index then g.nodes.length else 0)
        < lv g i + (if reach i then g.nodes.length else 0) := by
    intro i a b he f hf
    have hl := lv_gate g hw hac i a b he
    have hfl : lv g f.index < lv g i := by
      rcases hf with rfl | rfl <;> omega
    rw [redirect_index]
    by_cases h1 : f.index = n
    · have hi := hfan i a b he f hf ((hreach _).2 (Or.inl h1))
      have := hK t.index
      simp only [h1, if_true, ht, if_false, hi]
      omega
    · by_cases h2 : reach f.index
      · have hi := hfan i a b he f hf h2
        simp only [h1, if_false, h2, if_true, hi]
        omega
      · simp only [h1, if_false, h2]
        split_ifs <;> omega
  refine ⟨fun j => lv g j + (if reach j then g.nodes.length else 0), ?_⟩
  intro i a2 b2 h
  obtain ⟨a, b, he, rfl, rfl⟩ := substitute_node_fanin_pair g n t i a2 b2 h
  exact ⟨main i a b he a (Or.inl rfl), main i a b he b (Or.inr rfl)⟩

end Aig

namespace Aig

/-- The replacement of `try_associativity` is not the node `n` itself: its level is
smaller. -/
theorem assoc_replacement_ne (g : Aig) (hw : g.wf = true) (hrec : level_recurrence aig g)
    (n : Nat) (c0 c1 g0 g1 : Signal) (hm : assoc_fires aig g n c0 c1 g0 g1) :
    (assoc_replacement aig g c1 g0 g1).1.index ≠ n := by
  obtain ⟨-, -, -, -, hold, hlt⟩ := assoc_replacement_ok g hw hrec n c0 c1 g0 g1 hm
  have hb := assoc_level_bound aig g n c0 c1 g0 g1 hrec hm
  obtain ⟨-, -, hn⟩ := sorted_fanins_lt g hw n c0 c1 hm.2.1
  have e : aig.level g n = lv g n := level_eq_lv g hw hrec n
  intro h
  rw [h, hold n hn] at hlt
  omega

/-- A replacement built over `g` whose level is at most that of `n` and whose node is not
`n`: the node `n` is not in its transitive fanin, and substituting it for `n` gives an
acyclic graph. -/
theorem replacement_safe (g g2 : Aig) (t : Signal) (bound n : Nat) (hw : g.wf = true)
    (hrec : level_recurrence aig g) (hok : replacement_ok g g2 t bound)
    (hb : bound ≤ level g n) (hn : n < g.nodes.length) (hne : t.index ≠ n) :
    g2.acyclic ∧ t.index ≠ n
      ∧ (∀ fuel, in_transitive_fanin g2.nodes n fuel t.index = false)
      ∧ (substitute_node g2 n t).acyclic := by
  obtain ⟨-, hw2, hac2, -, hold, hlt⟩ := hok
  have hle : lv g2 t.index ≤ lv g2 n := by
    rw [hold n hn, ← level_eq_lv g hw hrec n]
    omega
  have hnot := not_in_transitive_fanin g2 hw2 hac2 n t.index hle
  exact ⟨hac2, hne, hnot, substitute_node_acyclic_of_fanin g2 n t hw2 hac2 hne hnot⟩

end Aig



/-! ## The critical path through a gate -/

section continuation_lemmas

variable {σ : Type}

/-- A coherent annotation satisfies the weaker consistency. -/
theorem coherent_continues (h : Ntk σ) (s : σ) (hco : coherent h s) :
    critical_path_continues h s := by
  intro m a b hm hc
  have hl := hco.1.1 m a b hm
  have hcl := hco.2 m a b hm hc
  by_cases hle : h.level s (get_node b) ≤ h.level s (get_node a)
  · exact Or.inl ⟨hcl.1 (by omega), hle⟩
  · exact Or.inr ⟨hcl.2 (by omega), by omega⟩

/-- When the critical path continues through a fanin of every critical gate, the level-sorted
fanin `c0` of a critical gate whose other fanin `c1` is off the critical path is on it. -/
theorem critical_of_continues (h : Ntk σ) (s : σ) (n : Nat) (c0 c1 : Signal)
    (hcont : critical_path_continues h s) (hs : sorted_fanins h s n = some (c0, c1))
    (hn : h.is_on_critical_path s n = true)
    (h1 : h.is_on_critical_path s c1.index = false) :
    h.is_on_critical_path s c0.index = true := by
  obtain ⟨-, hfi⟩ := sorted_fanins_spec h s n c0 c1 hs
  rcases hfi with hfi | hfi
  · rcases hcont n c0 c1 hfi hn with ⟨k, -⟩ | ⟨k, -⟩
    · exact k
    · simp only [get_node] at k
      rw [h1] at k
      exact absurd k (by simp)
  · rcases hcont n c1 c0 hfi hn with ⟨k, -⟩ | ⟨k, -⟩
    · simp only [get_node] at k
      rw [h1] at k
      exact absurd k (by simp)
    · exact k

/-- Under a coherent annotation the replacement of `try_distributivity` sits exactly one
level below `n`. -/
theorem dist_level_drop_one (h : Ntk σ) (s : σ) (n : Nat) (c0 c1 a0 a1 b0 b1 : Signal)
    (hco : coherent h s) (hm : dist_fires h s n c0 c1 a0 a1 b0 b1) :
    dist_replacement_level h s a0 a1 b1 + 1 = h.level s n := by
  obtain ⟨-, hc, hc0, hc1, -, -, -, -, ha, -, ha1, hb, -, hb1, hab, -⟩ := hm
  have hn := hco.1.1 n c0 c1 hc
  obtain ⟨h3, h4⟩ := level_of_sorted h s c0.index a0 a1 hco.1 ha
  obtain ⟨h5, h6⟩ := level_of_sorted h s c1.index b0 b1 hco.1 hb
  have h7 := (critical_of_sorted h s c0.index a0 a1 hco ha hc0).2 ha1
  have h8 := (critical_of_sorted h s c1.index b0 b1 hco hb hc1).2 hb1
  subst hab
  simp only [dist_replacement_level, get_node] at *
  omega

end continuation_lemmas

theorem Aig.crit_continues_ok_spec (g : Aig) (h : g.crit_continues_ok = true) :
    critical_path_continues aig g := by
  simp only [Aig.crit_continues_ok, List.all_eq_true, List.mem_range] at h
  intro m a b hm hc
  have hm2 : Aig.foreach_fanin g m = [a, b] := hm
  have hc2 : Aig.is_on_critical_path g m = true := hc
  have := h m (Aig.foreach_fanin_lt g m a b hm2)
  rw [hm2] at this
  simp only [hc2, Bool.not_true, Bool.false_or, Bool.or_eq_true, Bool.and_eq_true,
    decide_eq_true_eq] at this
  exact this


/-! ## The rewrites preserve the Boolean function -/

/-- C1: on an acyclic (well-formed) AIG, when `try_associativity` returns true on `n`, the
signal it substitutes for `n`, `AND(AND(c1, g1), g0)`, denotes under every assignment of the
primary inputs the value that `n = AND(c0, c1)` with `c0 = AND(g0, g1)` denoted before the
rewrite, where `c0`, `c1` are the level-sorted fanins of `n` (`c0` reached by an
uncomplemented edge) and `g0`, `g1` those of `c0`. -/
theorem try_associativity_preserves_function (g : Aig) (n : Nat) (hw : g.wf = true)
    (hac : g.acyclic) (hf : (try_associativity aig g n).1 = true) :
    ∃ c0 c1 g0 g1, assoc_fires aig g n c0 c1 g0 g1
      ∧ (try_associativity aig g n).2
          = aig.substitute_node (assoc_replacement aig g c1 g0 g1).2 n
              (assoc_replacement aig g c1 g0 g1).1
      ∧ ∀ asg, ∃ vc1 vg0 vg1,
          Aig.denotes g asg c1 vc1 ∧ Aig.denotes g asg g0 vg0 ∧ Aig.denotes g asg g1 vg1
          ∧ Aig.denotes g asg c0 (vg0 && vg1)
          ∧ Aig.denotes g asg ⟨n, false⟩ ((vg0 && vg1) && vc1)
          ∧ Aig.denotes (assoc_replacement aig g c1 g0 g1).2 asg
              (assoc_replacement aig g c1 g0 g1).1 ((vc1 && vg1) && vg0)
          ∧ ((vc1 && vg1) && vg0) = ((vg0 && vg1) && vc1) := by
  obtain ⟨c0, c1, g0, g1, hm, hr⟩ := try_associativity_fires aig g n hf
  refine ⟨c0, c1, g0, g1, hm, hr, fun asg => ?_⟩
  obtain ⟨-, hc, -, -, -, hcc, hg, -⟩ := hm
  obtain ⟨hc0, hc1, -⟩ := Aig.sorted_fanins_lt g hw n c0 c1 hc
  obtain ⟨hg0, hg1, -⟩ := Aig.sorted_fanins_lt g hw c0.index g0 g1 hg
  obtain ⟨vc1, hvc1⟩ := Aig.denotes_total g asg hw hac c1 hc1
  obtain ⟨vg0, hvg0⟩ := Aig.denotes_total g asg hw hac g0 hg0
  obtain ⟨vg1, hvg1⟩ := Aig.denotes_total g asg hw hac g1 hg1
  have hvc0 : Aig.denotes g asg c0 (vg0 && vg1) := by
    have := Aig.sorted_fanins_denotes g c0.index g0 g1 asg vg0 vg1 hg hvg0 hvg1
    have e : c0 = ⟨c0.index, false⟩ := by rw [← hcc]
    rw [e]; exact this
  have hvn := Aig.sorted_fanins_denotes g n c0 c1 asg _ _ hc hvc0 hvc1
  obtain ⟨hw1, hex1, hb⟩ := Aig.create_and_sound g c1 g1 hw asg vc1 vg1 hvc1 hvg1
  have hvg0' := Aig.extends_denotes g _ hex1 asg g0 vg0 hvg0
  obtain ⟨-, -, ht⟩ := Aig.create_and_sound _ _ g0 hw1 asg _ vg0 hb hvg0'
  refine ⟨vc1, vg0, vg1, hvc1, hvg0, hvg1, hvc0, hvn, ht, ?_⟩
  cases vc1 <;> cases vg0 <;> cases vg1 <;> rfl

/-- Witness for C1: the rule fires on gate 8 of the left-deep chain. -/
theorem try_associativity_preserves_function_witness :
    ∃ c0 c1 g0 g1, assoc_fires aig (Aig.update_levels example_chain) 8 c0 c1 g0 g1
      ∧ (try_associativity aig (Aig.update_levels example_chain) 8).2
          = aig.substitute_node
              (assoc_replacement aig (Aig.update_levels example_chain) c1 g0 g1).2 8
              (assoc_replacement aig (Aig.update_levels example_chain) c1 g0 g1).1
      ∧ ∀ asg, ∃ vc1 vg0 vg1,
          Aig.denotes (Aig.update_levels example_chain) asg c1 vc1
          ∧ Aig.denotes (Aig.update_levels example_chain) asg g0 vg0
          ∧ Aig.denotes (Aig.update_levels example_chain) asg g1 vg1
          ∧ Aig.denotes (Aig.update_levels example_chain) asg c0 (vg0 && vg1)
          ∧ Aig.denotes (Aig.update_levels example_chain) asg ⟨8, false⟩ ((vg0 && vg1) && vc1)
          ∧ Aig.denotes (assoc_replacement aig (Aig.update_levels example_chain) c1 g0 g1).2 asg
              (assoc_replacement aig (Aig.update_levels example_chain) c1 g0 g1).1
              ((vc1 && vg1) && vg0)
          ∧ ((vc1 && vg1) && vg0) = ((vg0 && vg1) && vc1) :=
  try_associativity_preserves_function (Aig.update_levels example_chain) 8 (by decide)
    (Aig.acyclic_of_recurrence _ (Aig.levels_ok_recurrence _ (by decide))) (by decide)

/-- C2: on an acyclic (well-formed) AIG, when `try_distributivity` returns true on `n`, the
signal it substitutes for `n`, `NOT(AND(s, NOT(AND(NOT a1, NOT b1))))`, denotes under every
assignment the value of `n = AND(NOT c0, NOT c1)` with `c0 = AND(s, a1)` and
`c1 = AND(s, b1)` before the rewrite; `s` is the shared higher-level fanin signal of both
children and `a1`, `b1` are their lower-level fanin signals. -/
theorem try_distributivity_preserves_function (g : Aig) (n : Nat) (hw : g.wf = true)
    (hac : g.acyclic) (hf : (try_distributivity aig g n).1 = true) :
    ∃ c0 c1 s a1 b1, dist_fires aig g n c0 c1 s a1 s b1
      ∧ (try_distributivity aig g n).2
          = aig.substitute_node (dist_replacement aig g s a1 b1).2 n
              (dist_replacement aig g s a1 b1).1.not
      ∧ ∀ asg, ∃ vs va1 vb1,
          Aig.denotes g asg s vs ∧ Aig.denotes g asg a1 va1 ∧ Aig.denotes g asg b1 vb1
          ∧ Aig.denotes g asg c0 (!(vs && va1)) ∧ Aig.denotes g asg c1 (!(vs && vb1))
          ∧ Aig.denotes g asg ⟨n, false⟩ (!(vs && va1) && !(vs && vb1))
          ∧ Aig.denotes (dist_replacement aig g s a1 b1).2 asg
              (dist_replacement aig g s a1 b1).1.not (!(vs && !(!va1 && !vb1)))
          ∧ (!(vs && !(!va1 && !vb1))) = (!(vs && va1) && !(vs && vb1)) := by
  obtain ⟨c0, c1, a0, a1, b0, b1, hm, hr⟩ := try_distributivity_fires aig g n hf
  have hab : a0 = b0 := hm.2.2.2.2.2.2.2.2.2.2.2.2.2.2.1
  subst hab
  refine ⟨c0, c1, a0, a1, b1, hm, hr, fun asg => ?_⟩
  obtain ⟨-, hc, -, -, -, -, hcc0, hcc1, ha, -, -, hb, -, -, -, -⟩ := hm
  obtain ⟨ha0, ha1, -⟩ := Aig.sorted_fanins_lt g hw c0.index a0 a1 ha
  obtain ⟨-, hb1, -⟩ := Aig.sorted_fanins_lt g hw c1.index a0 b1 hb
  obtain ⟨vs, hvs⟩ := Aig.denotes_total g asg hw hac a0 ha0
  obtain ⟨va1, hva1⟩ := Aig.denotes_total g asg hw hac a1 ha1
  obtain ⟨vb1, hvb1⟩ := Aig.denotes_total g asg hw hac b1 hb1
  have hvc0 : Aig.denotes g asg c0 (!(vs && va1)) := by
    have := Aig.denotes_complemented g asg c0 _
      (Aig.sorted_fanins_denotes g c0.index a0 a1 asg vs va1 ha hvs hva1)
    rw [hcc0] at this
    simpa using this
  have hvc1 : Aig.denotes g asg c1 (!(vs && vb1)) := by
    have := Aig.denotes_complemented g asg c1 _
      (Aig.sorted_fanins_denotes g c1.index a0 b1 asg vs vb1 hb hvs hvb1)
    rw [hcc1] at this
    simpa using this
  have hvn := Aig.denotes_gate g asg n c0 c1 _ _ hc hvc0 hvc1
  obtain ⟨hw1, hex1, hl⟩ := Aig.create_and_sound g a1.not b1.not hw asg _ _
    (Aig.denotes_not g asg a1 va1 hva1) (Aig.denotes_not g asg b1 vb1 hvb1)
  have hvs' := Aig.extends_denotes g _ hex1 asg a0 vs hvs
  obtain ⟨-, -, ht⟩ := Aig.create_and_sound _ a0 _ hw1 asg vs _ hvs'
    (Aig.denotes_not _ asg _ _ hl)
  refine ⟨vs, va1, vb1, hvs, hva1, hvb1, hvc0, hvc1, hvn, Aig.denotes_not _ asg _ _ ht, ?_⟩
  cases vs <;> cases va1 <;> cases vb1 <;> rfl

/-- Witness for C2: the rule fires on gate 8 of `¬(s·p) · ¬(s·q)`. -/
theorem try_distributivity_preserves_function_witness :
    ∃ c0 c1 s a1 b1, dist_fires aig (Aig.update_levels example_dist) 8 c0 c1 s a1 s b1
      ∧ (try_distributivity aig (Aig.update_levels example_dist) 8).2
          = aig.substitute_node
              (dist_replacement aig (Aig.update_levels example_dist) s a1 b1).2 8
              (dist_replacement aig (Aig.update_levels example_dist) s a1 b1).1.not
      ∧ ∀ asg, ∃ vs va1 vb1,
          Aig.denotes (Aig.update_levels example_dist) asg s vs
          ∧ Aig.denotes (Aig.update_levels example_dist) asg a1 va1
          ∧ Aig.denotes (Aig.update_levels example_dist) asg b1 vb1
          ∧ Aig.denotes (Aig.update_levels example_dist) asg c0 (!(vs && va1))
          ∧ Aig.denotes (Aig.update_levels example_dist) asg c1 (!(vs && vb1))
          ∧ Aig.denotes (Aig.update_levels example_dist) asg ⟨8, false⟩
              (!(vs && va1) && !(vs && vb1))
          ∧ Aig.denotes (dist_replacement aig (Aig.update_levels example_dist) s a1 b1).2 asg
              (dist_replacement aig (Aig.update_levels example_dist) s a1 b1).1.not
              (!(vs && !(!va1 && !vb1)))
          ∧ (!(vs && !(!va1 && !vb1))) = (!(vs && va1) && !(vs && vb1)) :=
  try_distributivity_preserves_function (Aig.update_levels example_dist) 8 (by decide)
    (Aig.acyclic_of_recurrence _ (Aig.levels_ok_recurrence _ (by decide))) (by decide)

/-- C3: on an acyclic (well-formed) AIG, when `try_three_level_distributivity` returns true
on `n`, the signal it substitutes for `n`,
`NOT(AND(NOT(AND(g, AND(x2, x4))), NOT(AND(x3, x4))))`, denotes under every assignment the
value of `n` before the rewrite, `((g AND x2) OR x3) AND x4`, with `x4 = sig(c1)`,
`x3 = NOT sig(nep1)`, `x2 = sig(gn1)`, `g = sig(gn0)` bound from the level-sorted fanins as
the code binds them. -/
theorem try_three_level_distributivity_preserves_function (g : Aig) (n : Nat)
    (hw : g.wf = true) (hac : g.acyclic)
    (hf : (try_three_level_distributivity aig g n).1 = true) :
    ∃ c0 c1 nep0 nep1 gn0 gn1, three_fires aig g n c0 c1 nep0 nep1 gn0 gn1
      ∧ (try_three_level_distributivity aig g n).2
          = aig.substitute_node (three_replacement aig g c1 nep1 gn0 gn1).2.2.2.2 n
              (three_replacement aig g c1 nep1 gn0 gn1).2.2.2.1.not
      ∧ ∀ asg, ∃ vg x2 x3 x4,
          Aig.denotes g asg gn0 vg ∧ Aig.denotes g asg gn1 x2
          ∧ Aig.denotes g asg nep1.not x3 ∧ Aig.denotes g asg c1 x4
          ∧ Aig.denotes g asg ⟨n, false⟩ (((vg && x2) || x3) && x4)
          ∧ Aig.denotes (three_replacement aig g c1 nep1 gn0 gn1).2.2.2.2 asg
              (three_replacement aig g c1 nep1 gn0 gn1).2.2.2.1.not
              (!(!(vg && (x2 && x4)) && !(x3 && x4)))
          ∧ (!(!(vg && (x2 && x4)) && !(x3 && x4))) = (((vg && x2) || x3) && x4)
          ∧ (((vg && x2) || x3) && x4) = ((vg && (x2 && x4)) || (x3 && x4)) := by
  obtain ⟨c0, c1, nep0, nep1, gn0, gn1, hm, hr⟩ :=
    try_three_level_distributivity_fires aig g n hf
  refine ⟨c0, c1, nep0, nep1, gn0, gn1, hm, hr, fun asg => ?_⟩
  obtain ⟨-, hc, -, -, -, hcc0, hnep, hcn0, hcn1, -, hgn, -⟩ := hm
  obtain ⟨-, hc1, -⟩ := Aig.sorted_fanins_lt g hw n c0 c1 hc
  obtain ⟨-, hnep1, -⟩ := Aig.sorted_fanins_lt g hw c0.index nep0 nep1 hnep
  obtain ⟨hgn0, hgn1, -⟩ := Aig.sorted_fanins_lt g hw nep0.index gn0 gn1 hgn
  obtain ⟨vg, hvg⟩ := Aig.denotes_total g asg hw hac gn0 hgn0
  obtain ⟨x2, hx2⟩ := Aig.denotes_total g asg hw hac gn1 hgn1
  obtain ⟨x3, hx3⟩ := Aig.denotes_total g asg hw hac nep1.not hnep1
  obtain ⟨x4, hx4⟩ := Aig.denotes_total g asg hw hac c1 hc1
  have hvnep0 : Aig.denotes g asg nep0 (!(vg && x2)) := by
    have := Aig.denotes_complemented g asg nep0 _
      (Aig.sorted_fanins_denotes g nep0.index gn0 gn1 asg vg x2 hgn hvg hx2)
    rw [hcn0] at this
    simpa using this
  have hvnep1 : Aig.denotes g asg nep1 (!x3) := by
    have := Aig.denotes_not g asg _ _ hx3
    have e : nep1.not.not = nep1 := by cases nep1; simp [Signal.not]
    rwa [e] at this
  have hvc0 : Aig.denotes g asg c0 ((vg && x2) || x3) := by
    have := Aig.denotes_complemented g asg c0 _
      (Aig.sorted_fanins_denotes g c0.index nep0 nep1 asg _ _ hnep hvnep0 hvnep1)
    rw [hcc0] at this
    have e : (xor (!(vg && x2) && !x3) true) = ((vg && x2) || x3) := by
      cases vg <;> cases x2 <;> cases x3 <;> rfl
    rwa [e] at this
  have hvn := Aig.sorted_fanins_denotes g n c0 c1 asg _ _ hc hvc0 hx4
  obtain ⟨hw1, hex1, h34⟩ := Aig.create_and_sound g nep1.not c1 hw asg x3 x4 hx3 hx4
  obtain ⟨hw2, hex2, h24⟩ := Aig.create_and_sound _ gn1 c1 hw1 asg x2 x4
    (Aig.extends_denotes g _ hex1 asg _ _ hx2) (Aig.extends_denotes g _ hex1 asg _ _ hx4)
  obtain ⟨hw3, hex3, hg24⟩ := Aig.create_and_sound _ gn0 _ hw2 asg vg _
    (Aig.extends_denotes _ _ hex2 asg _ _ (Aig.extends_denotes g _ hex1 asg _ _ hvg)) h24
  obtain ⟨-, -, ht⟩ := Aig.create_and_sound _ _ _ hw3 asg _ _
    (Aig.denotes_not _ asg _ _ hg24)
    (Aig.denotes_not _ asg _ _
      (Aig.extends_denotes _ _ hex3 asg _ _ (Aig.extends_denotes _ _ hex2 asg _ _ h34)))
  refine ⟨vg, x2, x3, x4, hvg, hx2, hx3, hx4, hvn, Aig.denotes_not _ asg _ _ ht, ?_, ?_⟩
  · cases vg <;> cases x2 <;> cases x3 <;> cases x4 <;> rfl
  · cases vg <;> cases x2 <;> cases x3 <;> cases x4 <;> rfl

/-- Witness for C3: the rule fires on gate 9 of `((g·x2) + x3) · x4`. -/
theorem try_three_level_distributivity_preserves_function_witness :
    ∃ c0 c1 nep0 nep1 gn0 gn1,
      three_fires aig (Aig.update_levels example_three) 9 c0 c1 nep0 nep1 gn0 gn1
      ∧ (try_three_level_distributivity aig (Aig.update_levels example_three) 9).2
          = aig.substitute_node
              (three_replacement aig (Aig.update_levels example_three) c1 nep1 gn0 gn1).2.2.2.2 9
              (three_replacement aig (Aig.update_levels example_three)
                c1 nep1 gn0 gn1).2.2.2.1.not
      ∧ ∀ asg, ∃ vg x2 x3 x4,
          Aig.denotes (Aig.update_levels example_three) asg gn0 vg
          ∧ Aig.denotes (Aig.update_levels example_three) asg gn1 x2
          ∧ Aig.denotes (Aig.update_levels example_three) asg nep1.not x3
          ∧ Aig.denotes (Aig.update_levels example_three) asg c1 x4
          ∧ Aig.denotes (Aig.update_levels example_three) asg ⟨9, false⟩
              (((vg && x2) || x3) && x4)
          ∧ Aig.denotes
              (three_replacement aig (Aig.update_levels example_three) c1 nep1 gn0 gn1).2.2.2.2
              asg
              (three_replacement aig (Aig.update_levels example_three)
                c1 nep1 gn0 gn1).2.2.2.1.not
              (!(!(vg && (x2 && x4)) && !(x3 && x4)))
          ∧ (!(!(vg && (x2 && x4)) && !(x3 && x4))) = (((vg && x2) || x3) && x4)
          ∧ (((vg && x2) || x3) && x4) = ((vg && (x2 && x4)) || (x3 && x4)) :=
  try_three_level_distributivity_preserves_function (Aig.update_levels example_three) 9
    (by decide) (Aig.acyclic_of_recurrence _ (Aig.levels_ok_recurrence _ (by decide)))
    (by decide)

/-! ## Declining calls and the level of the replacement -/

section level_claims

variable {σ : Type}

/-- C4: a rule that returns false leaves the network state as it was, for every network:
the call made no `create_and` and no `substitute_node` (on the traced network the log of
mutator calls is unchanged as well), and so when `try_algebraic_rules` returns false the
graph is unchanged and no gate was created. -/
theorem decline_leaves_graph_unchanged (h : Ntk σ) (s : σ) (n : Nat) (log : List HostCall) :
    ((try_associativity h s n).1 = false → (try_associativity h s n).2 = s)
    ∧ ((try_distributivity h s n).1 = false → (try_distributivity h s n).2 = s)
    ∧ ((try_three_level_distributivity h s n).1 = false
        → (try_three_level_distributivity h s n).2 = s)
    ∧ ((try_algebraic_rules h s n).1 = false → (try_algebraic_rules h s n).2 = s)
    ∧ ((try_associativity (traced h) (s, log) n).1 = false
        → (try_associativity (traced h) (s, log) n).2 = (s, log))
    ∧ ((try_distributivity (traced h) (s, log) n).1 = false
        → (try_distributivity (traced h) (s, log) n).2 = (s, log))
    ∧ ((try_three_level_distributivity (traced h) (s, log) n).1 = false
        → (try_three_level_distributivity (traced h) (s, log) n).2 = (s, log))
    ∧ ((try_algebraic_rules (traced h) (s, log) n).1 = false
        → (try_algebraic_rules (traced h) (s, log) n).2 = (s, log)) :=
  ⟨try_associativity_decline h s n, try_distributivity_decline h s n,
    try_three_level_distributivity_decline h s n,
    fun hf => (try_algebraic_rules_decline h s n hf).1,
    try_associativity_decline (traced h) (s, log) n,
    try_distributivity_decline (traced h) (s, log) n,
    try_three_level_distributivity_decline (traced h) (s, log) n,
    fun hf => (try_algebraic_rules_decline (traced h) (s, log) n hf).1⟩

/-- Witness for C4: on gate 6 of the left-deep chain all rules decline, and the state and
the log stay as they were. -/
theorem decline_leaves_graph_unchanged_witness :
    (try_algebraic_rules aig (Aig.update_levels example_chain) 6).1 = false
    ∧ (try_algebraic_rules aig (Aig.update_levels example_chain) 6).2
        = Aig.update_levels example_chain
    ∧ (try_algebraic_rules (traced aig) (Aig.update_levels example_chain, []) 6).1 = false
    ∧ (try_algebraic_rules (traced aig) (Aig.update_levels example_chain, []) 6).2
        = (Aig.update_levels example_chain, []) :=
  ⟨by decide,
    (decline_leaves_graph_unchanged aig (Aig.update_levels example_chain) 6 []).2.2.2.1
      (by decide),
    by decide,
    (decline_leaves_graph_unchanged aig (Aig.update_levels example_chain) 6 []).2.2.2.2.2.2.2
      (by decide)⟩

/-- C8: when the levels satisfy the `1 + max` recurrence and `try_associativity` returns
true on `n`, the level of the replacement,
`max(level(g0), 1 + max(level(c1), level(g1))) + 1`, is strictly less than the level of `n`
before the rewrite. -/
theorem try_associativity_level_drop (h : Ntk σ) (s : σ) (n : Nat)
    (hrec : level_recurrence h s) (hf : (try_associativity h s n).1 = true) :
    ∃ c0 c1 g0 g1, assoc_fires h s n c0 c1 g0 g1
      ∧ (try_associativity h s n).2
          = h.substitute_node (assoc_replacement h s c1 g0 g1).2 n
              (assoc_replacement h s c1 g0 g1).1
      ∧ max (h.level s g0.index) (1 + max (h.level s c1.index) (h.level s g1.index)) + 1
          < h.level s n := by
  obtain ⟨c0, c1, g0, g1, hm, hr⟩ := try_associativity_fires h s n hf
  exact ⟨c0, c1, g0, g1, hm, hr, assoc_level_bound h s n c0 c1 g0 g1 hrec hm⟩

/-- Witness for C8: gate 8 of the left-deep chain. -/
theorem try_associativity_level_drop_witness :
    ∃ c0 c1 g0 g1, assoc_fires aig (Aig.update_levels example_chain) 8 c0 c1 g0 g1
      ∧ (try_associativity aig (Aig.update_levels example_chain) 8).2
          = aig.substitute_node
              (assoc_replacement aig (Aig.update_levels example_chain) c1 g0 g1).2 8
              (assoc_replacement aig (Aig.update_levels example_chain) c1 g0 g1).1
      ∧ max (aig.level (Aig.update_levels example_chain) g0.index)
            (1 + max (aig.level (Aig.update_levels example_chain) c1.index)
              (aig.level (Aig.update_levels example_chain) g1.index)) + 1
          < aig.level (Aig.update_levels example_chain) 8 :=
  try_associativity_level_drop aig (Aig.update_levels example_chain) 8
    (Aig.levels_ok_recurrence _ (by decide)) (by decide)

/-- C9: when the level annotation is coherent (the levels satisfy the `1 + max` recurrence
and the critical-path flags are consistent with them) and `try_distributivity` returns true
on `n`, the level of the replacement, `1 + max(level(s), 1 + max(level(a1), level(b1)))`,
is strictly less than the level of `n` before the rewrite, and exactly one less: the depth
at `n` drops by one. -/
theorem try_distributivity_level_drop (h : Ntk σ) (s : σ) (n : Nat)
    (hco : coherent h s) (hf : (try_distributivity h s n).1 = true) :
    ∃ c0 c1 a0 a1 b1, dist_fires h s n c0 c1 a0 a1 a0 b1
      ∧ (try_distributivity h s n).2
          = h.substitute_node (dist_replacement h s a0 a1 b1).2 n
              (dist_replacement h s a0 a1 b1).1.not
      ∧ 1 + max (h.level s a0.index) (1 + max (h.level s a1.index) (h.level s b1.index))
          < h.level s n
      ∧ (1 + max (h.level s a0.index) (1 + max (h.level s a1.index) (h.level s b1.index))) + 1
          = h.level s n := by
  obtain ⟨c0, c1, a0, a1, b0, b1, hm, hr⟩ := try_distributivity_fires h s n hf
  have hab : a0 = b0 := hm.2.2.2.2.2.2.2.2.2.2.2.2.2.2.1
  subst hab
  exact ⟨c0, c1, a0, a1, b1, hm, hr, dist_level_bound h s n c0 c1 a0 a1 a0 b1 hco hm,
    dist_level_drop_one h s n c0 c1 a0 a1 a0 b1 hco hm⟩

/-- Witness for C9: gate 8 of `¬(s·p) · ¬(s·q)`, of level 3, whose replacement has
level 2. -/
theorem try_distributivity_level_drop_witness :
    aig.level (Aig.update_levels example_dist) 8 = 3
    ∧ ∃ c0 c1 a0 a1 b1, dist_fires aig (Aig.update_levels example_dist) 8 c0 c1 a0 a1 a0 b1
      ∧ (try_distributivity aig (Aig.update_levels example_dist) 8).2
          = aig.substitute_node
              (dist_replacement aig (Aig.update_levels example_dist) a0 a1 b1).2 8
              (dist_replacement aig (Aig.update_levels example_dist) a0 a1 b1).1.not
      ∧ 1 + max (aig.level (Aig.update_levels example_dist) a0.index)
            (1 + max (aig.level (Aig.update_levels example_dist) a1.index)
              (aig.level (Aig.update_levels example_dist) b1.index))
          < aig.level (Aig.update_levels example_dist) 8
      ∧ (1 + max (aig.level (Aig.update_levels example_dist) a0.index)
            (1 + max (aig.level (Aig.update_levels example_dist) a1.index)
              (aig.level (Aig.update_levels example_dist) b1.index))) + 1
          = aig.level (Aig.update_levels example_dist) 8 :=
  ⟨by decide,
    try_distributivity_level_drop aig (Aig.update_levels example_dist) 8
      ⟨Aig.levels_ok_recurrence _ (by decide), (Aig.crit_ok_closed _ (by decide)).1⟩
      (by decide)⟩

/-- C10: when the level annotation is coherent and `try_three_level_distributivity`
returns true on `n` (so the levels of `c0` and `c1` differ by at least 3), the level of the
replacement computed by the `1 + max` recurrence over the four new gates `x3_and_x4`,
`x2_and_x4`, `g_and_x2x4`, `top_node` is exactly one less than the level of `n` before the
rewrite. -/
theorem try_three_level_distributivity_level_drop (h : Ntk σ) (s : σ) (n : Nat)
    (hco : coherent h s) (hf : (try_three_level_distributivity h s n).1 = true) :
    ∃ c0 c1 nep0 nep1 gn0 gn1, three_fires h s n c0 c1 nep0 nep1 gn0 gn1
      ∧ (try_three_level_distributivity h s n).2
          = h.substitute_node (three_replacement h s c1 nep1 gn0 gn1).2.2.2.2 n
              (three_replacement h s c1 nep1 gn0 gn1).2.2.2.1.not
      ∧ h.level s c1.index + 3 ≤ h.level s c0.index
      ∧ (1 + max (1 + max (h.level s gn0.index)
                    (1 + max (h.level s gn1.index) (h.level s c1.index)))
                 (1 + max (h.level s nep1.index) (h.level s c1.index))) + 1
          = h.level s n := by
  obtain ⟨c0, c1, nep0, nep1, gn0, gn1, hm, hr⟩ :=
    try_three_level_distributivity_fires h s n hf
  have hb := three_level_bound h s n c0 c1 nep0 nep1 gn0 gn1 hco hm
  have hd := hm.2.2.1
  simp only [three_replacement_level, get_node] at hb
  exact ⟨c0, c1, nep0, nep1, gn0, gn1, hm, hr, by omega, hb⟩

/-- Witness for C10: gate 9 of `((g·x2) + x3) · x4`. -/
theorem try_three_level_distributivity_level_drop_witness :
    ∃ c0 c1 nep0 nep1 gn0 gn1,
      three_fires aig (Aig.update_levels example_three) 9 c0 c1 nep0 nep1 gn0 gn1
      ∧ (try_three_level_distributivity aig (Aig.update_levels example_three) 9).2
          = aig.substitute_node
              (three_replacement aig (Aig.update_levels example_three) c1 nep1 gn0 gn1).2.2.2.2 9
              (three_replacement aig (Aig.update_levels example_three)
                c1 nep1 gn0 gn1).2.2.2.1.not
      ∧ aig.level (Aig.update_levels example_three) c1.index + 3
          ≤ aig.level (Aig.update_levels example_three) c0.index
      ∧ (1 + max (1 + max (aig.level (Aig.update_levels example_three) gn0.index)
                    (1 + max (aig.level (Aig.update_levels example_three) gn1.index)
                      (aig.level (Aig.update_levels example_three) c1.index)))
                 (1 + max (aig.level (Aig.update_levels example_three) nep1.index)
                    (aig.level (Aig.update_levels example_three) c1.index))) + 1
          = aig.level (Aig.update_levels example_three) 9 :=
  try_three_level_distributivity_level_drop aig (Aig.update_levels example_three) 9
    ⟨Aig.levels_ok_recurrence _ (by decide), (Aig.crit_ok_closed _ (by decide)).1⟩ (by decide)

end level_claims

/-! ## The result of `run` is a fixed point -/

section fixed_point

variable {σ : Type}

/-- C7: when `run` returns, the returned state is a fixed point: `try_algebraic_rules`
returns false on every gate of it and leaves it as it is, so a second `run` returns the
same state after one sweep, and on the traced network it adds no mutator call to the log
(zero substitutions, no gate created). The same holds for a second call of the entry point
`aig_algebraic_rewriting`, which recomputes the levels first, when recomputing levels twice
is the same as once. -/
theorem run_returns_fixed_point (h : Ntk σ) (fuel : Nat) (s s2 : σ)
    (hr : run h fuel s = some s2) :
    (∀ n ∈ h.foreach_gate s2, try_algebraic_rules h s2 n = (false, s2))
    ∧ (∀ k, run h (k + 1) s2 = some s2)
    ∧ (∀ k log, run (traced h) (k + 1) (s2, log) = some (s2, log))
    ∧ ((∀ x, h.update_levels (h.update_levels x) = h.update_levels x) →
        h.update_levels s = s → ∀ k, aig_algebraic_rewriting h (k + 1) s2 = some s2) := by
  have hs := run_result_stable h fuel s s2 hr
  obtain ⟨-, -, hd⟩ := sweep_without_rewrite h _ s2 false s2 hs
  have h2 : ∀ k, run h (k + 1) s2 = some s2 := by
    intro k
    simp [run, hs]
  refine ⟨?_, h2, ?_, ?_⟩
  · intro n hn
    exact Prod.ext (hd n hn) (try_algebraic_rules_decline h s2 n (hd n hn)).1
  · intro k log
    have hd2 : ∀ n ∈ (traced h).foreach_gate (s2, log),
        (try_algebraic_rules (traced h) (s2, log) n).1 = false := by
      intro n hn
      rw [traced_try_algebraic_rules_decline h s2 log n (hd n hn)]
    have := sweep_of_decline (traced h) _ (s2, log) false hd2
    simp [run, this]
  · intro hid hfresh k
    unfold aig_algebraic_rewriting
    rw [run_levels_fresh h hid fuel s s2 hfresh hr]
    exact h2 k

/-- Witness for C7: the rewriting of the left-deep chain returns within two sweeps, and its
result is a fixed point. -/
theorem run_returns_fixed_point_witness :
    ∃ s2, run aig 2 (Aig.update_levels example_chain) = some s2
      ∧ (∀ n ∈ aig.foreach_gate s2, try_algebraic_rules aig s2 n = (false, s2))
      ∧ (∀ k, run aig (k + 1) s2 = some s2)
      ∧ (∀ k log, run (traced aig) (k + 1) (s2, log) = some (s2, log))
      ∧ ((∀ x, aig.update_levels (aig.update_levels x) = aig.update_levels x) →
          aig.update_levels (Aig.update_levels example_chain) = Aig.update_levels example_chain
          → ∀ k, aig_algebraic_rewriting aig (k + 1) s2 = some s2) :=
  ⟨(run aig 2 (Aig.update_levels example_chain)).get (by decide),
    (Option.some_get _).symm,
    run_returns_fixed_point aig 2 (Aig.update_levels example_chain) _ (Option.some_get _).symm⟩

end fixed_point

/-! ## Depth monotonicity -/

/-- C5: on a well-formed AIG whose levels satisfy the `1 + max` recurrence (which makes it
acyclic), the level that the recurrence gives the replacement is at most the level of `n`
for each of the three rules, the depth does not increase across a successful
`try_algebraic_rules` followed by `update_levels`, and the depth of the graph that `run`
returns is at most the depth of the graph it started from. -/
theorem depth_never_increases (g : Aig) (hw : g.wf = true) (hrec : level_recurrence aig g) :
    (∀ n c0 c1 g0 g1, assoc_fires aig g n c0 c1 g0 g1 →
        max (aig.level g g0.index) (1 + max (aig.level g c1.index) (aig.level g g1.index)) + 1
          ≤ aig.level g n)
    ∧ (∀ n c0 c1 a0 a1 b0 b1, dist_fires aig g n c0 c1 a0 a1 b0 b1 →
        1 + max (aig.level g a0.index) (1 + max (aig.level g a1.index) (aig.level g b1.index))
          ≤ aig.level g n)
    ∧ (∀ n c0 c1 nep0 nep1 gn0 gn1, three_fires aig g n c0 c1 nep0 nep1 gn0 gn1 →
        1 + max (1 + max (aig.level g gn0.index)
                  (1 + max (aig.level g gn1.index) (aig.level g c1.index)))
                (1 + max (aig.level g nep1.index) (aig.level g c1.index))
          ≤ aig.level g n)
    ∧ (∀ n, (try_algebraic_rules aig g n).1 = true →
        Aig.depth (aig.update_levels (try_algebraic_rules aig g n).2) ≤ Aig.depth g)
    ∧ (∀ fuel g2, run aig fuel g = some g2 → Aig.depth g2 ≤ Aig.depth g) := by
  refine ⟨?_, ?_, ?_, ?_, ?_⟩
  · intro n c0 c1 g0 g1 hm
    exact le_of_lt (assoc_level_bound aig g n c0 c1 g0 g1 hrec hm)
  · intro n c0 c1 a0 a1 b0 b1 hm
    exact dist_level_bound_weak aig g n c0 c1 a0 a1 b0 b1 hrec hm
  · intro n c0 c1 nep0 nep1 gn0 gn1 hm
    exact three_level_bound_weak aig g n c0 c1 nep0 nep1 gn0 gn1 hrec hm
  · intro n hf
    exact (Aig.rewrite_depth g hw hrec n hf).2.2
  · intro fuel g2 hr
    exact (Aig.run_depth fuel g g2 hw hrec hr).2.2

/-- Witness for C5: the left-deep chain with its computed levels; `run` returns on it, and
the result is not deeper. -/
theorem depth_never_increases_witness :
    (Aig.update_levels example_chain).wf = true
    ∧ (try_algebraic_rules aig (Aig.update_levels example_chain) 8).1 = true
    ∧ (run aig 2 (Aig.update_levels example_chain)).isSome = true
    ∧ Aig.depth (aig.update_levels (try_algebraic_rules aig (Aig.update_levels example_chain) 8).2)
        ≤ Aig.depth (Aig.update_levels example_chain)
    ∧ ∀ fuel g2, run aig fuel (Aig.update_levels example_chain) = some g2 →
        Aig.depth g2 ≤ Aig.depth (Aig.update_levels example_chain) :=
  ⟨by decide, by decide, by decide,
    (depth_never_increases (Aig.update_levels example_chain) (by decide)
      (Aig.levels_ok_recurrence _ (by decide))).2.2.2.1 8 (by decide),
    (depth_never_increases (Aig.update_levels example_chain) (by decide)
      (Aig.levels_ok_recurrence _ (by decide))).2.2.2.2⟩

/-! ## Termination -/

/-- C6: on a well-formed AIG with a coherent level annotation `run` terminates (enough fuel
makes it return), and so does the entry point: every successful rewrite followed by
`update_levels` gives a coherently annotated graph again and strictly decreases a
well-founded measure, namely the depth drops, or the depth stays and the number of
critical-path gates at the level of the rewritten node drops (and with it the number of
nodes flagged critical). -/
theorem run_terminates (g : Aig) (ha : g.annotated) :
    (∃ fuel g2, run aig fuel g = some g2)
    ∧ (∃ fuel g2, aig_algebraic_rewriting aig fuel g = some g2)
    ∧ ∀ n, (try_algebraic_rules aig g n).1 = true →
        (aig.update_levels (try_algebraic_rules aig g n).2).annotated
        ∧ (Aig.depth (aig.update_levels (try_algebraic_rules aig g n).2) < Aig.depth g
          ∨ (Aig.depth (aig.update_levels (try_algebraic_rules aig g n).2) = Aig.depth g
            ∧ Aig.crit_gates_at (aig.update_levels (try_algebraic_rules aig g n).2)
                  (aig.level g n)
                < Aig.crit_gates_at g (aig.level g n)
            ∧ Aig.crit_count (aig.update_levels (try_algebraic_rules aig g n).2)
                < Aig.crit_count g)) := by
  refine ⟨Aig.run_terminates_of_measure _ _ g ha rfl rfl, ?_, ?_⟩
  · exact Aig.run_terminates_of_measure _ _ (Aig.update_levels g)
      (Aig.update_levels_annotated g ha.1 (Aig.acyclic_of_recurrence g ha.2.1)) rfl rfl
  · intro n hf
    exact Aig.rewrite_measure g ha n hf

/-- Witness for C6: the left-deep chain with its computed annotation. -/
theorem run_terminates_witness :
    (Aig.update_levels example_chain).wf = true
    ∧ (Aig.update_levels example_chain).levels_ok = true
    ∧ (Aig.update_levels example_chain).crit_ok = true
    ∧ (try_algebraic_rules aig (Aig.update_levels example_chain) 8).1 = true
    ∧ (∃ fuel g2, run aig fuel (Aig.update_levels example_chain) = some g2)
    ∧ (∃ fuel g2, aig_algebraic_rewriting aig fuel (Aig.update_levels example_chain) = some g2)
    ∧ ∀ n, (try_algebraic_rules aig (Aig.update_levels example_chain) n).1 = true →
        (aig.update_levels
            (try_algebraic_rules aig (Aig.update_levels example_chain) n).2).annotated
        ∧ (Aig.depth (aig.update_levels
                (try_algebraic_rules aig (Aig.update_levels example_chain) n).2)
              < Aig.depth (Aig.update_levels example_chain)
          ∨ (Aig.depth (aig.update_levels
                  (try_algebraic_rules aig (Aig.update_levels example_chain) n).2)
                = Aig.depth (Aig.update_levels example_chain)
            ∧ Aig.crit_gates_at (aig.update_levels
                    (try_algebraic_rules aig (Aig.update_levels example_chain) n).2)
                  (aig.level (Aig.update_levels example_chain) n)
                < Aig.crit_gates_at (Aig.update_levels example_chain)
                    (aig.level (Aig.update_levels example_chain) n)
            ∧ Aig.crit_count (aig.update_levels
                    (try_algebraic_rules aig (Aig.update_levels example_chain) n).2)
                < Aig.crit_count (Aig.update_levels example_chain))) :=
  ⟨by decide, by decide, by decide, by decide,
    run_terminates (Aig.update_levels example_chain)
      ⟨by decide, Aig.levels_ok_recurrence _ (by decide),
        (Aig.crit_ok_closed _ (by decide)).1, (Aig.crit_ok_closed _ (by decide)).2⟩⟩

/-! ## When the rules match, and how they are dispatched -/

section matching_claims

variable {σ : Type}

/-- C11: `try_associativity` returns true on `n` exactly when `n` is on the critical path,
has two fanins which, sorted so that `c0` has the higher level, have `c0` on the critical
path and `c1` off it, with `level(c0) - level(c1) >= 2` and the edge to `c0` not
complemented, and `c0` has two fanins `g0`, `g1` of different levels. -/
theorem try_associativity_iff (h : Ntk σ) (s : σ) (n : Nat) :
    (try_associativity h s n).1 = true ↔
      ∃ c0 c1 g0 g1,
        h.is_on_critical_path s n = true
        ∧ sorted_fanins h s n = some (c0, c1)
        ∧ h.is_on_critical_path s c0.index = true
        ∧ h.is_on_critical_path s c1.index = false
        ∧ 2 ≤ h.level s c0.index - h.level s c1.index
        ∧ c0.complement = false
        ∧ sorted_fanins h s c0.index = some (g0, g1)
        ∧ h.level s g0.index ≠ h.level s g1.index := by
  constructor
  · intro hf
    obtain ⟨c0, c1, g0, g1, ⟨h1, h2, h3, h4, h5, h6, h7, h8⟩, -⟩ :=
      try_associativity_fires h s n hf
    exact ⟨c0, c1, g0, g1, h1, h2, h4, h5, h3, h6, h7, h8⟩
  · rintro ⟨c0, c1, g0, g1, h1, h2, h4, h5, h3, h6, h7, h8⟩
    exact try_associativity_of_fires h s n c0 c1 g0 g1 ⟨h1, h2, h3, h4, h5, h6, h7, h8⟩

/-- C12, as amended: when `try_three_level_distributivity` returns true on `n`, the
lower-level fanin node `nep1` of the deeper child `c0` is reported off the critical path,
whatever the level oracle reports; the higher-level fanin node `nep0` is reported on the
critical path provided that every gate reported on the critical path has, among its fanins
of maximal level, one that is reported on the critical path (`critical_path_continues`);
the rule itself does not test `nep0`. -/
theorem three_level_nephews_on_path (h : Ntk σ) (s : σ) (n : Nat)
    (hf : (try_three_level_distributivity h s n).1 = true) :
    ∃ c0 c1 nep0 nep1,
      sorted_fanins h s n = some (c0, c1)
      ∧ sorted_fanins h s c0.index = some (nep0, nep1)
      ∧ h.is_on_critical_path s nep1.index = false
      ∧ (critical_path_continues h s → h.is_on_critical_path s nep0.index = true) := by
  obtain ⟨c0, c1, nep0, nep1, gn0, gn1, hm, -⟩ :=
    try_three_level_distributivity_fires h s n hf
  obtain ⟨-, hc, -, hc0, -, -, hnep, -, -, hn1, -, -⟩ := hm
  exact ⟨c0, c1, nep0, nep1, hc, hnep, hn1,
    fun hcont => critical_of_continues h s c0.index nep0 nep1 hcont hnep hc0 hn1⟩

/-- Witness for C12 as amended: gate 13 of `example_three_tie`, where the two fanins of
`c0`, gates 9 and 11, have the same level and only gate 9 is flagged, so that the flags
satisfy `critical_path_continues` but are not closed under tight fanins: `nep1` is gate 11,
off the critical path, and `nep0` is gate 9, on it. -/
theorem three_level_nephews_on_path_witness :
    critical_path_continues aig example_three_tie
    ∧ ¬ critical_path_closed aig example_three_tie
    ∧ level_recurrence aig example_three_tie
    ∧ (try_three_level_distributivity aig example_three_tie 13).1 = true
    ∧ sorted_fanins aig example_three_tie 13 = some (⟨12, true⟩, ⟨7, false⟩)
    ∧ sorted_fanins aig example_three_tie 12 = some (⟨9, true⟩, ⟨11, true⟩)
    ∧ ∃ c0 c1 nep0 nep1,
      sorted_fanins aig example_three_tie 13 = some (c0, c1)
      ∧ sorted_fanins aig example_three_tie c0.index = some (nep0, nep1)
      ∧ aig.is_on_critical_path example_three_tie nep1.index = false
      ∧ aig.is_on_critical_path example_three_tie nep0.index = true :=
  have hcont : critical_path_continues aig example_three_tie :=
    Aig.crit_continues_ok_spec _ (by decide)
  have hncl : ¬ critical_path_closed aig example_three_tie := fun hcl =>
    absurd ((hcl 12 ⟨9, true⟩ ⟨11, true⟩ (by decide) (by decide)).2 (by decide)) (by decide)
  match three_level_nephews_on_path aig example_three_tie 13 (by decide) with
  | ⟨c0, c1, nep0, nep1, h1, h2, h3, h4⟩ =>
    ⟨hcont, hncl, Aig.levels_ok_recurrence _ (by decide), by decide, by decide, by decide,
      c0, c1, nep0, nep1, h1, h2, h3, h4 hcont⟩

/-- Counterexample to C12 as stated: with the flags of `example_three_unflagged` the rule
returns true on gate 9 although `nep0`, gate 7, is reported off the critical path. -/
theorem three_level_nephew_not_tested :
    (try_three_level_distributivity aig example_three_unflagged 9).1 = true
    ∧ sorted_fanins aig example_three_unflagged 9 = some (⟨8, true⟩, ⟨3, false⟩)
    ∧ sorted_fanins aig example_three_unflagged 8 = some (⟨7, true⟩, ⟨2, true⟩)
    ∧ aig.is_on_critical_path example_three_unflagged 7 = false := by
  decide

/-- C13: `try_algebraic_rules` gives the result of the first of `try_associativity`,
`try_distributivity`, `try_three_level_distributivity` (in this order, each on the state of
the call) that returns true, and the state that rule left; it returns true exactly when one
of them does; and on the traced network it appends to the log of mutator calls a run of
calls with at most one `substitute_node`, exactly one when it returns true. -/
theorem try_algebraic_rules_dispatch (h : Ntk σ) (s : σ) (n : Nat) (log : List HostCall) :
    (try_algebraic_rules h s n
      = if (try_associativity h s n).1 = true then (true, (try_associativity h s n).2)
        else if (try_distributivity h s n).1 = true then (true, (try_distributivity h s n).2)
        else if (try_three_level_distributivity h s n).1 = true
          then (true, (try_three_level_distributivity h s n).2)
        else (false, s))
    ∧ ((try_algebraic_rules h s n).1 = true ↔
        ((try_associativity h s n).1 = true ∨ (try_distributivity h s n).1 = true
          ∨ (try_three_level_distributivity h s n).1 = true))
    ∧ ∃ calls, (try_algebraic_rules (traced h) (s, log) n).2.2 = log ++ calls
        ∧ calls.countP HostCall.is_substitute ≤ 1
        ∧ (calls.countP HostCall.is_substitute = 1 ↔
            (try_algebraic_rules (traced h) (s, log) n).1 = true) := by
  refine ⟨try_algebraic_rules_eq h s n, ?_, ?_⟩
  · rw [try_algebraic_rules_eq]
    by_cases h1 : (try_associativity h s n).1 = true
    · simp [h1]
    · by_cases h2 : (try_distributivity h s n).1 = true
      · simp [h1, h2]
      · by_cases h3 : (try_three_level_distributivity h s n).1 = true
        · simp [h1, h2, h3]
        · simp [h1, h2, h3]
  · obtain ⟨calls, e, c⟩ := traced_try_algebraic_rules_log h s log n
    refine ⟨calls, e, ?_, ?_⟩
    · rw [c]; split_ifs <;> omega
    · rw [c]; split_ifs with hb <;> simp [hb]

/-- C14: on a node that is not on the critical path each of the three rules returns false
and leaves the state as it is, and so does `try_algebraic_rules`, whatever fanins and
levels the network would report: no fanin is read. -/
theorem off_critical_path_declines (h : Ntk σ) (s : σ) (n : Nat)
    (hn : h.is_on_critical_path s n = false) :
    try_associativity h s n = (false, s)
    ∧ try_distributivity h s n = (false, s)
    ∧ try_three_level_distributivity h s n = (false, s)
    ∧ try_algebraic_rules h s n = (false, s)
    ∧ ∀ (fanin : σ → Nat → List Signal) (level : σ → Nat → Nat),
        try_algebraic_rules
          { foreach_gate := h.foreach_gate, foreach_fanin := fanin, level := level,
            is_on_critical_path := h.is_on_critical_path, create_and := h.create_and,
            substitute_node := h.substitute_node, update_levels := h.update_levels } s n
          = (false, s) :=
  ⟨try_associativity_off_path h s n hn, try_distributivity_off_path h s n hn,
    try_three_level_distributivity_off_path h s n hn, try_algebraic_rules_off_path h s n hn,
    fun _ _ => try_algebraic_rules_off_path _ s n hn⟩

/-- Witness for C14: gate 7 of `example_three_unflagged` is reported off the critical
path. -/
theorem off_critical_path_declines_witness :
    aig.is_on_critical_path example_three_unflagged 7 = false
    ∧ try_associativity aig example_three_unflagged 7 = (false, example_three_unflagged)
    ∧ try_distributivity aig example_three_unflagged 7 = (false, example_three_unflagged)
    ∧ try_three_level_distributivity aig example_three_unflagged 7
        = (false, example_three_unflagged)
    ∧ try_algebraic_rules aig example_three_unflagged 7 = (false, example_three_unflagged)
    ∧ ∀ (fanin : Aig → Nat → List Signal) (level : Aig → Nat → Nat),
        try_algebraic_rules
          { foreach_gate := aig.foreach_gate, foreach_fanin := fanin, level := level,
            is_on_critical_path := aig.is_on_critical_path, create_and := aig.create_and,
            substitute_node := aig.substitute_node, update_levels := aig.update_levels }
          example_three_unflagged 7
          = (false, example_three_unflagged) :=
  ⟨by decide, off_critical_path_declines aig example_three_unflagged 7 (by decide)⟩

end matching_claims

/-! ## The traversal of the driver -/

section traversal_claims

variable {σ : Type}

/-- C15, as amended: in `run`, after a successful rewrite at a gate `n` the driver
recomputes the levels and continues the current traversal with the gates that follow `n`
(the gates `pre` before it had declined); the traversal leaves `cont` true, and only when
it has ended does `run` start the next sweep, from the first gate of the state reached. -/
theorem sweep_continues_after_rewrite (h : Ntk σ) (s : σ) (pre post : List Nat) (n : Nat)
    (cont : Bool) (fuel : Nat)
    (hpre : ∀ m ∈ pre, (try_algebraic_rules h s m).1 = false)
    (hn : (try_algebraic_rules h s n).1 = true)
    (hg : h.foreach_gate s = pre ++ n :: post) :
    sweep h (pre ++ n :: post) s cont
      = sweep h post (h.update_levels (try_algebraic_rules h s n).2) true
    ∧ (sweep h post (h.update_levels (try_algebraic_rules h s n).2) true).2 = true
    ∧ run h (fuel + 1) s
        = run h fuel (sweep h post (h.update_levels (try_algebraic_rules h s n).2) true).1 := by
  have e : ∀ c, sweep h (pre ++ n :: post) s c
      = sweep h post (h.update_levels (try_algebraic_rules h s n).2) true := by
    intro c
    rw [sweep_append_decline h pre (n :: post) s c hpre]
    simp only [sweep, hn, if_true]
  refine ⟨e cont, sweep_cont_true h post _, ?_⟩
  simp only [run, hg, e false, sweep_cont_true h post _, if_true]

/-- Witness for C15 as amended: on the left-deep chain gates 6 and 7 decline, gate 8 is
rewritten, and the traversal goes on with gate 9. -/
theorem sweep_continues_after_rewrite_witness :
    sweep aig ([6, 7] ++ 8 :: [9]) (Aig.update_levels example_chain) false
      = sweep aig [9] (aig.update_levels
          (try_algebraic_rules aig (Aig.update_levels example_chain) 8).2) true
    ∧ (sweep aig [9] (aig.update_levels
          (try_algebraic_rules aig (Aig.update_levels example_chain) 8).2) true).2 = true
    ∧ run aig (1 + 1) (Aig.update_levels example_chain)
        = run aig 1 (sweep aig [9] (aig.update_levels
            (try_algebraic_rules aig (Aig.update_levels example_chain) 8).2) true).1 :=
  sweep_continues_after_rewrite aig (Aig.update_levels example_chain) [6, 7] [9] 8 false 1
    (by decide) (by decide) (by decide)

/-- Counterexample to C15 as stated: on `example_three_chains` the driver rewrites gate 19,
then gate 23, which follows it in the traversal, and gate 16 only in the next sweep; a
driver that restarted the sweep after the rewrite of gate 19 (`run_restarting`) would
rewrite gate 16 before gate 23, and the two end in different graphs. -/
theorem run_does_not_restart :
    (run (traced aig) 3 (Aig.update_levels example_three_chains, [])).map
        (fun r => substituted r.2) = some [19, 23, 16]
    ∧ (run_restarting (traced aig) 4 (Aig.update_levels example_three_chains, [])).map
        (fun r => substituted r.2) = some [19, 16, 23]
    ∧ (run aig 3 (Aig.update_levels example_three_chains)).isSome = true
    ∧ (run_restarting aig 4 (Aig.update_levels example_three_chains)).isSome = true
    ∧ run aig 3 (Aig.update_levels example_three_chains)
        ≠ run_restarting aig 4 (Aig.update_levels example_three_chains) := by
  decide

end traversal_claims

/-! ## The left-deep chain -/

/-- C16: on the left-deep chain `((((a·b)·c)·d)·e)` over five primary inputs with the
single output `f` (depth 4, gates visited in creation order 6, 7, 8, 9) the rewriting
returns, after two sweeps, a graph of depth 3 whose output computes
`a AND b AND c AND d AND e`, as the output of the chain did. -/
theorem left_deep_chain_rewritten :
    Aig.depth (Aig.update_levels example_chain) = 4
    ∧ aig.foreach_gate (Aig.update_levels example_chain) = [6, 7, 8, 9]
    ∧ example_chain.outputs = [⟨9, false⟩]
    ∧ (∀ asg, Aig.denotes example_chain asg ⟨9, false⟩
        ((((asg 1 && asg 2) && asg 3) && asg 4) && asg 5))
    ∧ aig_algebraic_rewriting aig 2 example_chain = some example_chain_rewritten
    ∧ run aig 2 (Aig.update_levels example_chain) = some example_chain_rewritten
    ∧ Aig.depth example_chain_rewritten = 3
    ∧ example_chain_rewritten.outputs = [⟨9, false⟩]
    ∧ ∀ asg, Aig.denotes example_chain_rewritten asg ⟨9, false⟩
        ((((asg 1 && asg 2) && asg 3) && asg 4) && asg 5) := by
  refine ⟨by decide, by decide, rfl, ?_, by decide, by decide, by decide, rfl, ?_⟩
  · intro asg
    refine ⟨5, ?_⟩
    simp [Aig.eval_signal, Aig.eval_node, example_chain]
  · intro asg
    refine ⟨5, ?_⟩
    simp [Aig.eval_signal, Aig.eval_node, example_chain_rewritten]
    cases asg 1 <;> cases asg 2 <;> cases asg 3 <;> cases asg 4 <;> cases asg 5 <;> rfl

/-! ## Shapes on which no rule fires -/

section shape_claims

variable {σ : Type}

/-- C17: on a gate whose two fanin levels differ by less than 2 and whose fanin edges are
not both complemented `try_algebraic_rules` returns false and leaves the state as it is;
hence when all gates of a state have this shape `run` returns that state after one sweep,
and on the traced network it logs no mutator call. -/
theorem shallow_gates_are_not_rewritten (h : Ntk σ) (s : σ) :
    (∀ n, shallow_shape h s n = true → try_algebraic_rules h s n = (false, s))
    ∧ ((∀ n ∈ h.foreach_gate s, shallow_shape h s n = true) →
        ∀ k log, run h (k + 1) s = some s
          ∧ run (traced h) (k + 1) (s, log) = some (s, log)) := by
  refine ⟨fun n hn => shallow_shape_declines h s n hn, ?_⟩
  intro hall k log
  refine ⟨run_of_decline h s k ?_, run_of_decline (traced h) (s, log) k ?_⟩
  · intro n hn
    rw [shallow_shape_declines h s n (hall n hn)]
  · intro n hn
    have hd : (try_algebraic_rules h s n).1 = false := by
      rw [shallow_shape_declines h s n (hall n hn)]
    rw [traced_try_algebraic_rules_decline h s log n hd]

/-- Witness for C17: `(a·b)·c` and the balanced AND tree over 8 inputs have only gates of
this shape, and the rewriting returns them as they were, with their computed annotation. -/
theorem shallow_gates_are_not_rewritten_witness :
    (∀ n ∈ aig.foreach_gate (Aig.update_levels example_shallow),
        shallow_shape aig (Aig.update_levels example_shallow) n = true)
    ∧ (∀ n ∈ aig.foreach_gate (Aig.update_levels example_balanced),
        shallow_shape aig (Aig.update_levels example_balanced) n = true)
    ∧ try_algebraic_rules aig (Aig.update_levels example_shallow) 5
        = (false, Aig.update_levels example_shallow)
    ∧ aig_algebraic_rewriting aig 1 example_shallow = some (Aig.update_levels example_shallow)
    ∧ aig_algebraic_rewriting aig 1 example_balanced
        = some (Aig.update_levels example_balanced)
    ∧ run (traced aig) 1 (Aig.update_levels example_balanced, [])
        = some (Aig.update_levels example_balanced, []) :=
  ⟨by decide, by decide,
    (shallow_gates_are_not_rewritten aig (Aig.update_levels example_shallow)).1 5 (by decide),
    ((shallow_gates_are_not_rewritten aig (Aig.update_levels example_shallow)).2
      (by decide) 0 []).1,
    ((shallow_gates_are_not_rewritten aig (Aig.update_levels example_balanced)).2
      (by decide) 0 []).1,
    ((shallow_gates_are_not_rewritten aig (Aig.update_levels example_balanced)).2
      (by decide) 0 []).2⟩

/-- C18: on a gate whose higher-level fanin is reached by a complemented edge, whose other
fanin edge is uncomplemented and whose fanin levels differ by less than 3, all three rules
decline: each returns false, `try_algebraic_rules` returns false, and the state is as it
was. -/
theorem complemented_gate_is_not_rewritten (h : Ntk σ) (s : σ) (n : Nat)
    (hs : complement_shape h s n = true) :
    try_associativity h s n = (false, s)
    ∧ try_distributivity h s n = (false, s)
    ∧ try_three_level_distributivity h s n = (false, s)
    ∧ try_algebraic_rules h s n = (false, s) := by
  obtain ⟨ha, hd, ht⟩ := complement_shape_declines h s n hs
  refine ⟨Prod.ext ha (try_associativity_decline h s n ha),
    Prod.ext hd (try_distributivity_decline h s n hd),
    Prod.ext ht (try_three_level_distributivity_decline h s n ht), ?_⟩
  rw [try_algebraic_rules_eq]
  simp [ha, hd, ht]

/-- Witness for C18: the output gate 7 of `¬(a·b) · c`, whose fanin levels are 2 and 0. -/
theorem complemented_gate_is_not_rewritten_witness :
    aig.level (Aig.update_levels example_complement) 6 = 2
    ∧ aig.level (Aig.update_levels example_complement) 4 = 0
    ∧ aig.foreach_fanin (Aig.update_levels example_complement) 7 = [⟨6, true⟩, ⟨4, false⟩]
    ∧ try_associativity aig (Aig.update_levels example_complement) 7
        = (false, Aig.update_levels example_complement)
    ∧ try_distributivity aig (Aig.update_levels example_complement) 7
        = (false, Aig.update_levels example_complement)
    ∧ try_three_level_distributivity aig (Aig.update_levels example_complement) 7
        = (false, Aig.update_levels example_complement)
    ∧ try_algebraic_rules aig (Aig.update_levels example_complement) 7
        = (false, Aig.update_levels example_complement) :=
  ⟨by decide, by decide, by decide,
    complemented_gate_is_not_rewritten aig (Aig.update_levels example_complement) 7
      (by decide)⟩

/-- C19: in `try_distributivity` the level-equality conjunct of the match test is
redundant: equal signals have equal levels in every state, so the rule with the test
`a0 == b0` alone (`try_distributivity_signal_only`) returns the same result and the same
state as the rule of the source, and on the traced network the same log of mutator
calls. -/
theorem level_test_is_redundant (h : Ntk σ) (s : σ) (n : Nat) (log : List HostCall) :
    (∀ a b : Signal, a = b → h.level s (get_node a) = h.level s (get_node b))
    ∧ try_distributivity_signal_only h s n = try_distributivity h s n
    ∧ try_distributivity_signal_only (traced h) (s, log) n
        = try_distributivity (traced h) (s, log) n :=
  ⟨fun a b hab => by rw [hab], try_distributivity_signal_only_eq h s n,
    try_distributivity_signal_only_eq (traced h) (s, log) n⟩

/-- C20: on every state and node at most one of the three rules returns true, so the
result and the resulting state of `try_algebraic_rules` do not depend on the order in which
the three rules are tried: all six orders give what the order of the source gives. -/
theorem rule_order_is_irrelevant (h : Ntk σ) (s : σ) (n : Nat) :
    ¬ ((try_associativity h s n).1 = true ∧ (try_distributivity h s n).1 = true)
    ∧ ¬ ((try_associativity h s n).1 = true
          ∧ (try_three_level_distributivity h s n).1 = true)
    ∧ ¬ ((try_distributivity h s n).1 = true
          ∧ (try_three_level_distributivity h s n).1 = true)
    ∧ try_in_order [try_associativity h, try_distributivity h,
          try_three_level_distributivity h] s n = try_algebraic_rules h s n
    ∧ try_in_order [try_associativity h, try_three_level_distributivity h,
          try_distributivity h] s n = try_algebraic_rules h s n
    ∧ try_in_order [try_distributivity h, try_associativity h,
          try_three_level_distributivity h] s n = try_algebraic_rules h s n
    ∧ try_in_order [try_distributivity h, try_three_level_distributivity h,
          try_associativity h] s n = try_algebraic_rules h s n
    ∧ try_in_order [try_three_level_distributivity h, try_associativity h,
          try_distributivity h] s n = try_algebraic_rules h s n
    ∧ try_in_order [try_three_level_distributivity h, try_distributivity h,
          try_associativity h] s n = try_algebraic_rules h s n := by
  obtain ⟨x1, x2, x3⟩ := rules_exclusive h s n
  refine ⟨x1, x2, x3, ?_⟩
  rw [try_algebraic_rules_eq]
  cases ha : (try_associativity h s n).1 <;> cases hd : (try_distributivity h s n).1
    <;> cases ht : (try_three_level_distributivity h s n).1
  all_goals first
    | (exfalso; simp [ha, hd, ht] at x1 x2 x3; done)
    | (have ea : (try_associativity h s n).1 = false → (try_associativity h s n).2 = s :=
        try_associativity_decline h s n
       have ed : (try_distributivity h s n).1 = false → (try_distributivity h s n).2 = s :=
        try_distributivity_decline h s n
       have et : (try_three_level_distributivity h s n).1 = false →
          (try_three_level_distributivity h s n).2 = s :=
        try_three_level_distributivity_decline h s n
       simp only [ha, hd, ht, true_implies, Bool.true_eq_false, false_implies] at ea ed et
       simp [try_in_order, ha, hd, ht, ea, ed, et])

end shape_claims

/-! ## Acyclicity -/

/-- C21: on a well-formed AIG whose levels satisfy the `1 + max` recurrence (it is acyclic
then), for each of the three rules that returns true on a gate `n`: the graph in which the
replacement was built is acyclic, the node of the replacement signal is not `n`, `n` does
not occur in the transitive fanin of the replacement signal, whatever `create_and` returned
(a fresh gate, a gate that existed already, an operand or the constant), and the state
after the rule, `substitute_node(n, replacement)`, is an acyclic graph. -/
theorem rewrite_preserves_acyclicity (g : Aig) (n : Nat) (hw : g.wf = true)
    (hrec : level_recurrence aig g) :
    g.acyclic
    ∧ ((try_associativity aig g n).1 = true →
        ∃ c0 c1 g0 g1, assoc_fires aig g n c0 c1 g0 g1
          ∧ (try_associativity aig g n).2
              = Aig.substitute_node (assoc_replacement aig g c1 g0 g1).2 n
                  (assoc_replacement aig g c1 g0 g1).1
          ∧ (assoc_replacement aig g c1 g0 g1).2.acyclic
          ∧ (assoc_replacement aig g c1 g0 g1).1.index ≠ n
          ∧ (∀ fuel, Aig.in_transitive_fanin (assoc_replacement aig g c1 g0 g1).2.nodes n fuel
                (assoc_replacement aig g c1 g0 g1).1.index = false)
          ∧ (try_associativity aig g n).2.acyclic)
    ∧ ((try_distributivity aig g n).1 = true →
        ∃ c0 c1 a0 a1 b0 b1, dist_fires aig g n c0 c1 a0 a1 b0 b1
          ∧ (try_distributivity aig g n).2
              = Aig.substitute_node (dist_replacement aig g a0 a1 b1).2 n
                  (dist_replacement aig g a0 a1 b1).1.not
          ∧ (dist_replacement aig g a0 a1 b1).2.acyclic
          ∧ (dist_replacement aig g a0 a1 b1).1.not.index ≠ n
          ∧ (∀ fuel, Aig.in_transitive_fanin (dist_replacement aig g a0 a1 b1).2.nodes n fuel
                (dist_replacement aig g a0 a1 b1).1.not.index = false)
          ∧ (try_distributivity aig g n).2.acyclic)
    ∧ ((try_three_level_distributivity aig g n).1 = true →
        ∃ c0 c1 nep0 nep1 gn0 gn1, three_fires aig g n c0 c1 nep0 nep1 gn0 gn1
          ∧ (try_three_level_distributivity aig g n).2
              = Aig.substitute_node (three_replacement aig g c1 nep1 gn0 gn1).2.2.2.2 n
                  (three_replacement aig g c1 nep1 gn0 gn1).2.2.2.1.not
          ∧ (three_replacement aig g c1 nep1 gn0 gn1).2.2.2.2.acyclic
          ∧ (three_replacement aig g c1 nep1 gn0 gn1).2.2.2.1.not.index ≠ n
          ∧ (∀ fuel, Aig.in_transitive_fanin
                (three_replacement aig g c1 nep1 gn0 gn1).2.2.2.2.nodes n fuel
                (three_replacement aig g c1 nep1 gn0 gn1).2.2.2.1.not.index = false)
          ∧ (try_three_level_distributivity aig g n).2.acyclic) := by
  refine ⟨Aig.acyclic_of_recurrence g hrec, ?_, ?_, ?_⟩
  · intro hf
    obtain ⟨c0, c1, g0, g1, hm, hr⟩ := try_associativity_fires aig g n hf
    obtain ⟨-, -, hn⟩ := Aig.sorted_fanins_lt g hw n c0 c1 hm.2.1
    obtain ⟨s1, s2, s3, s4⟩ := Aig.replacement_safe g _ _ _ n hw hrec
      (Aig.assoc_replacement_ok g hw hrec n c0 c1 g0 g1 hm)
      (le_of_lt (assoc_level_bound aig g n c0 c1 g0 g1 hrec hm)) hn
      (Aig.assoc_replacement_ne g hw hrec n c0 c1 g0 g1 hm)
    exact ⟨c0, c1, g0, g1, hm, hr, s1, s2, s3, by rw [hr]; exact s4⟩
  · intro hf
    obtain ⟨c0, c1, a0, a1, b0, b1, hm, hr⟩ := try_distributivity_fires aig g n hf
    have hn := Aig.foreach_fanin_lt g n c0 c1 hm.2.1
    obtain ⟨s1, s2, s3, s4⟩ := Aig.replacement_safe g _ _ _ n hw hrec
      (Aig.dist_replacement_ok g hw hrec n c0 c1 a0 a1 b0 b1 hm)
      (dist_level_bound_weak aig g n c0 c1 a0 a1 b0 b1 hrec hm) hn
      (Aig.dist_replacement_ne g hw hrec n c0 c1 a0 a1 b0 b1 hm)
    exact ⟨c0, c1, a0, a1, b0, b1, hm, hr, s1, s2, s3, by rw [hr]; exact s4⟩
  · intro hf
    obtain ⟨c0, c1, nep0, nep1, gn0, gn1, hm, hr⟩ :=
      try_three_level_distributivity_fires aig g n hf
    obtain ⟨-, -, hn⟩ := Aig.sorted_fanins_lt g hw n c0 c1 hm.2.1
    obtain ⟨s1, s2, s3, s4⟩ := Aig.replacement_safe g _ _ _ n hw hrec
      (Aig.three_replacement_ok g hw hrec n c0 c1 nep0 nep1 gn0 gn1 hm)
      (three_level_bound_weak aig g n c0 c1 nep0 nep1 gn0 gn1 hrec hm) hn
      (Aig.three_replacement_ne g hw hrec n c0 c1 nep0 nep1 gn0 gn1 hm)
    exact ⟨c0, c1, nep0, nep1, gn0, gn1, hm, hr, s1, s2, s3, by rw [hr]; exact s4⟩

/-- Witness for C21: gate 7 of `example_hashed` (associativity; the first `create_and`
returns the gate 8 that exists already, so only one gate is appended), gate 8 of
`example_dist` (distributivity) and gate 9 of `example_three` (three-level
distributivity), each with its computed annotation. -/
theorem rewrite_preserves_acyclicity_witness :
    ((Aig.create_and (Aig.update_levels example_hashed) ⟨4, false⟩ ⟨3, false⟩).1 = ⟨8, false⟩
      ∧ (try_associativity aig (Aig.update_levels example_hashed) 7).2.nodes.length
          = example_hashed.nodes.length + 1)
    ∧ (∃ c0 c1 g0 g1, assoc_fires aig (Aig.update_levels example_hashed) 7 c0 c1 g0 g1
        ∧ (try_associativity aig (Aig.update_levels example_hashed) 7).2
            = Aig.substitute_node
                (assoc_replacement aig (Aig.update_levels example_hashed) c1 g0 g1).2 7
                (assoc_replacement aig (Aig.update_levels example_hashed) c1 g0 g1).1
        ∧ (assoc_replacement aig (Aig.update_levels example_hashed) c1 g0 g1).2.acyclic
        ∧ (assoc_replacement aig (Aig.update_levels example_hashed) c1 g0 g1).1.index ≠ 7
        ∧ (∀ fuel, Aig.in_transitive_fanin
              (assoc_replacement aig (Aig.update_levels example_hashed) c1 g0 g1).2.nodes 7 fuel
              (assoc_replacement aig (Aig.update_levels example_hashed) c1 g0 g1).1.index
            = false)
        ∧ (try_associativity aig (Aig.update_levels example_hashed) 7).2.acyclic)
    ∧ (∃ c0 c1 a0 a1 b0 b1, dist_fires aig (Aig.update_levels example_dist) 8 c0 c1 a0 a1 b0 b1
        ∧ (try_distributivity aig (Aig.update_levels example_dist) 8).2
            = Aig.substitute_node
                (dist_replacement aig (Aig.update_levels example_dist) a0 a1 b1).2 8
                (dist_replacement aig (Aig.update_levels example_dist) a0 a1 b1).1.not
        ∧ (dist_replacement aig (Aig.update_levels example_dist) a0 a1 b1).2.acyclic
        ∧ (dist_replacement aig (Aig.update_levels example_dist) a0 a1 b1).1.not.index ≠ 8
        ∧ (∀ fuel, Aig.in_transitive_fanin
              (dist_replacement aig (Aig.update_levels example_dist) a0 a1 b1).2.nodes 8 fuel
              (dist_replacement aig (Aig.update_levels example_dist) a0 a1 b1).1.not.index
            = false)
        ∧ (try_distributivity aig (Aig.update_levels example_dist) 8).2.acyclic)
    ∧ (∃ c0 c1 nep0 nep1 gn0 gn1,
        three_fires aig (Aig.update_levels example_three) 9 c0 c1 nep0 nep1 gn0 gn1
        ∧ (try_three_level_distributivity aig (Aig.update_levels example_three) 9).2
            = Aig.substitute_node
                (three_replacement aig (Aig.update_levels example_three)
                  c1 nep1 gn0 gn1).2.2.2.2 9
                (three_replacement aig (Aig.update_levels example_three)
                  c1 nep1 gn0 gn1).2.2.2.1.not
        ∧ (three_replacement aig (Aig.update_levels example_three)
              c1 nep1 gn0 gn1).2.2.2.2.acyclic
        ∧ (three_replacement aig (Aig.update_levels example_three)
              c1 nep1 gn0 gn1).2.2.2.1.not.index ≠ 9
        ∧ (∀ fuel, Aig.in_transitive_fanin
              (three_replacement aig (Aig.update_levels example_three)
                c1 nep1 gn0 gn1).2.2.2.2.nodes 9 fuel
              (three_replacement aig (Aig.update_levels example_three)
                c1 nep1 gn0 gn1).2.2.2.1.not.index
            = false)
        ∧ (try_three_level_distributivity aig (Aig.update_levels example_three) 9).2.acyclic) :=
  ⟨⟨by decide, by decide⟩,
    (rewrite_preserves_acyclicity (Aig.update_levels example_hashed) 7 (by decide)
      (Aig.levels_ok_recurrence _ (by decide))).2.1 (by decide),
    (rewrite_preserves_acyclicity (Aig.update_levels example_dist) 8 (by decide)
      (Aig.levels_ok_recurrence _ (by decide))).2.2.1 (by decide),
    (rewrite_preserves_acyclicity (Aig.update_levels example_three) 9 (by decide)
      (Aig.levels_ok_recurrence _ (by decide))).2.2.2 (by decide)⟩

end mockturtle
